import Mathlib

/-!
# The buddy system allocator of `buddy.c`

A shallow embedding of the page allocator in `src/buddy.c` and a verification
of its specification.

Modelling conventions.

* The global `static struct buddy buddy` is an explicit value of type `buddy`
  that every operation takes and returns.
* A `TAILQ` of chunks is a `List chunk`, head first: `tqh_first` is the head of
  the list, `TAILQ_REMOVE` of the first element drops the head, and
  `TAILQ_INSERT_TAIL` appends at the end.
* An `unsigned int` is a natural number and an `int` is an integer. The width of
  32 bits enters where it changes what the code does. In `init_buddy` the shifts
  of `1` and line 500 are computed in `int` with wrap-around modulo `2^32`
  (`wrap_int`, `seed_add32`). An `int` that is compared with an `unsigned int` or
  stored into one is converted first (`as_unsigned`). Elsewhere `1 << k` is
  `2 ^ k`, and sums and differences are exact: in a reachable state every chunk
  ends at or below `2 ^ 32`, the counters are at most `2 ^ 31`, and no
  subtraction on a counter goes below zero (`reach_sound`, `reach_bounds`).
* `int startadd = page` in `free_pages`: the model keeps the number `page`. For
  `page ≥ 2^31` the `int` of the code is `page - 2^32`. The code uses `startadd`
  in three ways only: in the tests `startadd % (1 << k) == 0`, in sums and
  differences that are compared with an `unsigned int`, and in the final store
  into an `unsigned int`. Each of them depends on `startadd` modulo `2^32` only.
* An operation returns `none` when the C code would dereference a null pointer
  (`tqh_first` of an empty queue handed to `TAILQ_REMOVE`), index
  `buddy.chunks` outside its `NR_ORDERS` entries, or loop without end.
* `MAX_ORDER` comes from the build configuration (`config.h` defines
  `NR_ORDERS` as `MAX_ORDER + 1`); it is a parameter of every definition.
-/

namespace BuddyAlloc

/-! ## Data structures -/

/-- The `struct chunk` of the source: `2 ^ order` consecutive pages from `start`. -/
structure chunk where
  start : Nat
  order : Nat
deriving DecidableEq, Repr

/-- The `struct chunk_list` of the source: the queue `freech` of the free chunks
of one order together with its stored length `numofchunkinfreelist`. -/
structure chunk_list where
  order : Nat
  numofchunkinfreelist : Nat
  freech : List chunk
deriving DecidableEq, Repr

/-- The `struct buddy` of the source: one `chunk_list` per order and the two
page counters. -/
structure buddy where
  chunks : List chunk_list
  allocated : Nat
  free : Nat
deriving DecidableEq, Repr

/-- The constant `NR_ORDERS` of `config.h`, which is `MAX_ORDER + 1`. -/
def NR_ORDERS (MAX_ORDER : Nat) : Nat := MAX_ORDER + 1

/-- The value of `EINVAL` in `errno.h`. -/
def EINVAL : Int := 22

/-- The value of `ENOMEM` in `errno.h`. -/
def ENOMEM : Int := 12

/-- Assignment to `buddy.chunks[i]`. -/
def buddy.setList (s : buddy) (i : Nat) (cl : chunk_list) : buddy :=
  { s with chunks := s.chunks.set i cl }

/-- `TAILQ_INSERT_TAIL` of a chunk followed by the increment of the stored length. -/
def chunk_list.push (cl : chunk_list) (c : chunk) : chunk_list :=
  { cl with freech := cl.freech ++ [c],
            numofchunkinfreelist := cl.numofchunkinfreelist + 1 }

/-! ## `alloc_pages` -/

/-- What a call of `alloc_pages` that returned has produced: the return value,
the page number stored through `page` (if the call stored one) and the
allocator state. -/
structure alloc_ret where
  ret : Int
  page : Option Nat
  st : buddy
deriving DecidableEq, Repr

/-- Lines 263-265 of `alloc_pages`: the counters are updated and 0 is returned. -/
def alloc_done (s : buddy) (order page : Nat) : alloc_ret :=
  { ret := 0, page := some page,
    st := { s with allocated := s.allocated + 2 ^ order,
                   free := s.free - 2 ^ order } }

/-- Lines 231-235: `for(b = order+1; b < NR_ORDERS-1; b++)` that stops at the
first `b` whose list has a positive stored length. The first argument bounds the
number of iterations. -/
def alloc_scan (MAX_ORDER : Nat) (s : buddy) : Nat → Nat → Option Nat
  | 0, b => if b < NR_ORDERS MAX_ORDER - 1 then none else some b
  | fuel + 1, b =>
    if b < NR_ORDERS MAX_ORDER - 1 then
      match s.chunks[b]? with
      | none => none
      | some cl =>
        if cl.numofchunkinfreelist > 0 then some b
        else alloc_scan MAX_ORDER s fuel (b + 1)
    else some b

/-- Lines 246-257: the `while(1)` loop that puts the right halves into the free
lists, from order `hasbigchunk - 1` down to `order`. `start` is
`chunkforrmv->start`. The first argument bounds the number of iterations. -/
def alloc_split (start hasbigchunk order : Nat) : Nat → Nat → Nat → buddy → Option buddy
  | 0, cntforsplit, _, s =>
    if cntforsplit = hasbigchunk - order + 1 then some s else none
  | fuel + 1, cntforsplit, i, s =>
    if cntforsplit = hasbigchunk - order + 1 then some s
    else
      match s.chunks[i - 1]? with
      | none => none
      | some cl =>
        let chunkforins : chunk := { start := start + 2 ^ (i - 1), order := i - 1 }
        alloc_split start hasbigchunk order fuel (cntforsplit + 1) (i - 1)
          (s.setList (i - 1) (cl.push chunkforins))

/-- The function `alloc_pages` of the source (lines 134-266). -/
def alloc_pages (MAX_ORDER : Nat) (s : buddy) (order : Nat) : Option alloc_ret :=
  if order > NR_ORDERS MAX_ORDER - 1 then
    some { ret := EINVAL, page := none, st := s }
  else
    match s.chunks[order]? with
    | none => none
    | some cl =>
      if cl.numofchunkinfreelist > 0 then
        match cl.freech with
        | [] => none
        | chunkforrmv :: rest =>
          let s1 := s.setList order
            { cl with freech := rest,
                      numofchunkinfreelist := cl.numofchunkinfreelist - 1 }
          some (alloc_done s1 order chunkforrmv.start)
      else if order = NR_ORDERS MAX_ORDER - 1 then
        some { ret := ENOMEM, page := none, st := s }
      else if order + 1 = NR_ORDERS MAX_ORDER - 1 then
        match s.chunks[NR_ORDERS MAX_ORDER - 1]? with
        | none => none
        | some top =>
          if top.numofchunkinfreelist > 0 then
            match s.chunks[order + 1]? with
            | none => none
            | some big =>
              match big.freech with
              | [] => none
              | chunkforrmv :: rest =>
                let hasbigchunk := NR_ORDERS MAX_ORDER - 1
                let s1 := s.setList hasbigchunk
                  { big with freech := rest,
                             numofchunkinfreelist := big.numofchunkinfreelist - 1 }
                let chunkforins : chunk :=
                  { start := chunkforrmv.start + 2 ^ chunkforrmv.order / 2,
                    order := chunkforrmv.order - 1 }
                match s1.chunks[order]? with
                | none => none
                | some cl1 =>
                  some (alloc_done (s1.setList order (cl1.push chunkforins))
                    order chunkforrmv.start)
          else some { ret := ENOMEM, page := none, st := s }
      else
        match alloc_scan MAX_ORDER s (NR_ORDERS MAX_ORDER) (order + 1) with
        | none => none
        | some b =>
          if s.free = 0 then some { ret := ENOMEM, page := none, st := s }
          else
            let hasbigchunk := b
            match s.chunks[hasbigchunk]? with
            | none => none
            | some big =>
              match big.freech with
              | [] => none
              | chunkforrmv :: rest =>
                let s1 := s.setList hasbigchunk
                  { big with freech := rest,
                             numofchunkinfreelist := big.numofchunkinfreelist - 1 }
                match alloc_split chunkforrmv.start hasbigchunk order
                    (NR_ORDERS MAX_ORDER) 1 hasbigchunk s1 with
                | none => none
                | some s2 => some (alloc_done s2 order chunkforrmv.start)

/-! ## 32-bit arithmetic -/

/-- The value of an `int` expression whose exact value is `x`, with overflow
as wrap-around modulo `2^32`. -/
def wrap_int (x : Int) : Int := (x + 2 ^ 31) % 2 ^ 32 - 2 ^ 31

/-- The value an `unsigned int` takes when the `int` value `x` is assigned to it. -/
def to_unsigned (x : Int) : Nat := (x % 2 ^ 32).toNat

/-- Line 500 of `init_buddy` in the 32-bit arithmetic of the code:
`add = a*(1<<(nr_pages_in_order-1))/(1<<(nr_pages_in_order-NR_ORDERS))` with
`int a`, the product and the quotient computed in `int`, and the result stored
in the `unsigned int add`. -/
def seed_add32 (MAX_ORDER nr_pages_in_order : Nat) (a : Int) : Nat :=
  to_unsigned
    (Int.tdiv (wrap_int (a * wrap_int (2 ^ (nr_pages_in_order - 1))))
      (wrap_int (2 ^ (nr_pages_in_order - NR_ORDERS MAX_ORDER))))

/-- The conversion of the `int` operand in `chforfre->start == page + (1<<order)`
and in `inset->start = startadd` to `unsigned int`: a negative `x` becomes
`x + 2^32`. The sums and differences that `Buddyornot` and `free_pages` hand to
it are left exact, and they lie between `-2^32` and `2^32` for 32-bit operands,
where this is the value of the wrapped `int` taken modulo `2^32`. -/
def as_unsigned (x : Int) : Nat := if x < 0 then (x + 2 ^ 32).toNat else x.toNat

/-! ## `free_pages` -/

/-- The `for` loop of `Buddyornot` (lines 284-300 and 303-318): `abc` times, the
head of the queue is taken off and, unless its start equals `target`, put back
at the tail. `rvale` becomes 1 when a chunk is dropped. `target` is the `int` on
the right of `==`; the comparison with the `unsigned int` start converts it. -/
def Buddyornot_loop (target : Int) : Nat → Int → chunk_list → Option (Int × chunk_list)
  | 0, rvale, cl => some (rvale, cl)
  | abc + 1, rvale, cl =>
    match cl.freech with
    | [] => none
    | chforfre :: rest =>
      let cl1 : chunk_list :=
        { cl with freech := rest,
                  numofchunkinfreelist := cl.numofchunkinfreelist - 1 }
      if chforfre.start = as_unsigned target then
        Buddyornot_loop target abc 1 cl1
      else
        Buddyornot_loop target abc rvale
          (cl1.push { start := chforfre.start, order := chforfre.order })

/-- The function `Buddyornot` of the source (lines 277-323): looks in the
order-`order` list for the chunks that start at `page + 2^order` (when
`rgt_or_lft` is 0) or at `page - 2^order` (otherwise), removes them, and returns
1 when there was one. -/
def Buddyornot (MAX_ORDER : Nat) (s : buddy) (rgt_or_lft : Int) (order : Nat) (page : Int) :
    Option (Int × buddy) :=
  match s.chunks[order]? with
  | none => none
  | some cl =>
    let abc := cl.numofchunkinfreelist
    if order = NR_ORDERS MAX_ORDER - 1 then some (0, s)
    else if rgt_or_lft = 0 ∧ cl.numofchunkinfreelist ≠ 0 then
      match Buddyornot_loop (page + 2 ^ order) abc 0 cl with
      | none => none
      | some (rvale, cl1) => some (rvale, s.setList order cl1)
    else if rgt_or_lft ≠ 0 ∧ cl.numofchunkinfreelist ≠ 0 then
      match Buddyornot_loop (page - 2 ^ order) abc 0 cl with
      | none => none
      | some (rvale, cl1) => some (rvale, s.setList order cl1)
    else some (0, s)

/-- The `while(1)` loop of `free_pages` (lines 364-380); it returns the final
`od`, `startadd` and state. The first argument bounds the number of
iterations. -/
def free_merge (MAX_ORDER : Nat) : Nat → Nat → Int → Int → buddy → Option (Nat × Int × buddy)
  | 0, od, startadd, _, s =>
    if od = NR_ORDERS MAX_ORDER - 1 then some (od, startadd, s) else none
  | fuel + 1, od, startadd, rgt_or_lft, s =>
    if od = NR_ORDERS MAX_ORDER - 1 then some (od, startadd, s)
    else
      match Buddyornot MAX_ORDER s rgt_or_lft od startadd with
      | none => none
      | some (r, s1) =>
        if r = 0 then some (od, startadd, s1)
        else if rgt_or_lft = 0 then
          free_merge MAX_ORDER fuel (od + 1) startadd
            (Int.tmod startadd (2 ^ (od + 1 + 1))) s1
        else
          free_merge MAX_ORDER fuel (od + 1) (startadd - 2 ^ od)
            (Int.tmod (startadd - 2 ^ od) (2 ^ (od + 1 + 1))) s1

/-- The function `free_pages` of the source (lines 324-388). `startadd` is kept
as the number `page`; the `int` of the code differs from it by `2^32` when
`page ≥ 2^31`, which neither the tests `rgt_or_lft == 0`, nor the comparisons in
`Buddyornot`, nor the store `inset->start = startadd` can tell apart. -/
def free_pages (MAX_ORDER : Nat) (s : buddy) (page order : Nat) : Option buddy :=
  let startadd : Int := page
  let rgt_or_lft : Int := Int.tmod startadd (2 ^ (order + 1))
  match free_merge MAX_ORDER (NR_ORDERS MAX_ORDER) order startadd rgt_or_lft s with
  | none => none
  | some (od, startadd, s1) =>
    match s1.chunks[od]? with
    | none => none
    | some cl =>
      let inset : chunk := { start := as_unsigned startadd, order := od }
      let s2 := s1.setList od (cl.push inset)
      some { s2 with allocated := s2.allocated - 2 ^ order,
                     free := s2.free + 2 ^ order }

/-! ## `init_buddy` -/

/-- The `for` loop of `init_buddy` (lines 498-505) that seeds the top list with
the chunks numbered `a`, `a + 1`, ... below the `int`
`1 << (nr_pages_in_order - NR_ORDERS + 1)`; the start of chunk `a` is the value
of line 500 in 32-bit arithmetic. The first argument bounds the number of
iterations. -/
def init_seed (MAX_ORDER nr_pages_in_order : Nat) : Nat → Nat → chunk_list → Option chunk_list
  | 0, a, cl =>
    if (a : Int) < wrap_int (2 ^ (nr_pages_in_order - NR_ORDERS MAX_ORDER + 1)) then none
    else some cl
  | fuel + 1, a, cl =>
    if (a : Int) < wrap_int (2 ^ (nr_pages_in_order - NR_ORDERS MAX_ORDER + 1)) then
      let add := seed_add32 MAX_ORDER nr_pages_in_order (a : Int)
      init_seed MAX_ORDER nr_pages_in_order fuel (a + 1)
        (cl.push { start := add, order := NR_ORDERS MAX_ORDER - 1 })
    else some cl

/-- The function `init_buddy` of the source (lines 472-517): the return value
and the state it leaves. The state before the call is overwritten in full.
`buddy.free = 1 << nr_pages_in_order` is the `int` shift stored into the
`unsigned int` counter. -/
def init_buddy (MAX_ORDER : Nat) (_s : buddy) (nr_pages_in_order : Nat) :
    Option (Int × buddy) :=
  let s1 : buddy :=
    { allocated := 0, free := to_unsigned (wrap_int (2 ^ nr_pages_in_order)),
      chunks := (List.range (NR_ORDERS MAX_ORDER)).map fun i =>
        { order := i, numofchunkinfreelist := 0, freech := [] } }
  if nr_pages_in_order < NR_ORDERS MAX_ORDER - 1 then some (EINVAL, s1)
  else if nr_pages_in_order = NR_ORDERS MAX_ORDER - 1 then
    match s1.chunks[nr_pages_in_order]? with
    | none => none
    | some cl =>
      some (0, s1.setList nr_pages_in_order
        (cl.push { start := 0, order := nr_pages_in_order }))
  else
    match s1.chunks[NR_ORDERS MAX_ORDER - 1]? with
    | none => none
    | some cl =>
      match init_seed MAX_ORDER nr_pages_in_order
          (2 ^ (nr_pages_in_order - NR_ORDERS MAX_ORDER + 1)) 1
          (cl.push { start := 0, order := NR_ORDERS MAX_ORDER - 1 }) with
      | none => none
      | some cl1 => some (0, s1.setList (NR_ORDERS MAX_ORDER - 1) cl1)

/-! ## `print_free_pages` and `get_unusable_index` -/

/-- The `while(num>0)` loop of `print_free_pages` (lines 405-413): the head of the
queue is taken off, the line `0x<start>:<order>` is written to `stderr`, and the
same chunk is put back at the tail. A written line is the pair of the two numbers
it shows; the second is the argument `order` of the call. -/
def print_loop (order : Nat) : Nat → chunk_list → List (Nat × Nat) →
    Option (List (Nat × Nat) × chunk_list)
  | 0, cl, out => some (out, cl)
  | num + 1, cl, out =>
    match cl.freech with
    | [] => none
    | chunkforrm :: rest =>
      let cl1 : chunk_list :=
        { cl with freech := rest,
                  numofchunkinfreelist := cl.numofchunkinfreelist - 1 }
      print_loop order num (cl1.push chunkforrm) (out ++ [(chunkforrm.start, order)])

/-- The function `print_free_pages` of the source (lines 401-423): the lines it
writes to `stderr`, first line first, and the state it leaves. -/
def print_free_pages (s : buddy) (order : Nat) : Option (List (Nat × Nat) × buddy) :=
  match s.chunks[order]? with
  | none => none
  | some cl =>
    let num := cl.numofchunkinfreelist
    if cl.numofchunkinfreelist > 0 then
      match print_loop order num cl [] with
      | none => none
      | some (out, cl1) => some (out, s.setList order cl1)
    else some ([], s)

/-- The `for` loop of `get_unusable_index` (lines 451-453), run for the given
number of rounds from `a`: `sumofunusa` grows by the stored length of list `a`
times `1 << a`. The `double` is an exact rational. -/
def unusable_loop (s : buddy) : Nat → Nat → ℚ → Option ℚ
  | 0, _, sumofunusa => some sumofunusa
  | rounds + 1, a, sumofunusa =>
    match s.chunks[a]? with
    | none => none
    | some cl =>
      unusable_loop s rounds (a + 1)
        (sumofunusa + ((cl.numofchunkinfreelist * 2 ^ a : Nat) : ℚ))

/-- The function `get_unusable_index` of the source (lines 444-456) in exact
rational arithmetic. When `buddy.free` is 0 the division of the source has no
rational value (the `double` is an infinity or not a number) and the result is
`none`. -/
def get_unusable_index (s : buddy) (order : Nat) : Option ℚ :=
  if order = 0 then some 0
  else
    match unusable_loop s order 0 0 with
    | none => none
    | some sumofunusa =>
      if s.free = 0 then none else some (sumofunusa / (s.free : ℚ))

/-! ## Observations of a state -/

/-- The order-`o` free list: the chunks queued in `buddy.chunks[o]`, oldest first. -/
def flist (s : buddy) (o : Nat) : List chunk :=
  match s.chunks[o]? with
  | some cl => cl.freech
  | none => []

/-- All free chunks of a state, order by order. -/
def free_chunks (s : buddy) : List chunk :=
  (s.chunks.map fun cl => cl.freech).flatten

/-- The number of pages of a chunk. -/
def chunk.pages (c : chunk) : Nat := 2 ^ c.order

/-- The page ranges `[start, start + 2^order)` of two chunks do not overlap. -/
def chunk.Disjoint (c d : chunk) : Prop :=
  c.start + 2 ^ c.order ≤ d.start ∨ d.start + 2 ^ d.order ≤ c.start

instance (c d : chunk) : Decidable (chunk.Disjoint c d) := by
  unfold chunk.Disjoint; infer_instance

/-- The number 1 when page `x` lies in the range of the chunk and 0 otherwise. -/
def chunk.cover (x : Nat) (c : chunk) : Nat :=
  if c.start ≤ x ∧ x < c.start + 2 ^ c.order then 1 else 0

/-- The sum of `f` over all free chunks. -/
def total (f : chunk → Nat) (s : buddy) : Nat :=
  (s.chunks.map fun cl => (cl.freech.map f).sum).sum

/-- The start of the buddy of the order-`order` chunk at `start`: bit `order` of
the start is flipped. -/
def buddy_start (start order : Nat) : Nat :=
  if (start / 2 ^ order) % 2 = 0 then start + 2 ^ order else start - 2 ^ order

/-! ## The reference cascade of `free_pages` -/

/-- The order-`o` list loses the chunk that starts at `b`. -/
def buddy.remove (s : buddy) (o b : Nat) : buddy :=
  match s.chunks[o]? with
  | some cl =>
    s.setList o
      { cl with freech := cl.freech.eraseP fun c => decide (c.start = b),
                numofchunkinfreelist := cl.numofchunkinfreelist - 1 }
  | none => s

/-- The chunk is appended to the tail of the free list of its order. -/
def buddy.append (s : buddy) (c : chunk) : buddy :=
  match s.chunks[c.order]? with
  | some cl => s.setList c.order (cl.push c)
  | none => s

/-- The merge cascade as the specification words it: while the order of `cur` is
below `MAX_ORDER` and the list of that order holds a chunk at the buddy address
of `cur`, that chunk is removed and `cur` becomes the merged chunk of the next
order. Every round raises the order of `cur`, so `MAX_ORDER` rounds are enough;
the first argument counts the rounds left. -/
def merge_ref (MAX_ORDER : Nat) : Nat → chunk → buddy → chunk × buddy
  | 0, cur, s => (cur, s)
  | fuel + 1, cur, s =>
    if cur.order < MAX_ORDER ∧
        ∃ c ∈ flist s cur.order, c.start = buddy_start cur.start cur.order then
      merge_ref MAX_ORDER fuel
        { start := min cur.start (buddy_start cur.start cur.order),
          order := cur.order + 1 }
        (s.remove cur.order (buddy_start cur.start cur.order))
    else (cur, s)

/-- The reference behaviour of `free_pages`: the merge cascade, then the merged
chunk goes to the tail of the list of its order, and the counters move by the
pages of the chunk that was freed. -/
def free_pages_ref (MAX_ORDER : Nat) (s : buddy) (page order : Nat) : buddy :=
  let r := merge_ref MAX_ORDER MAX_ORDER { start := page, order := order } s
  let s1 := r.2.append r.1
  { s1 with allocated := s.allocated - 2 ^ order, free := s.free + 2 ^ order }

/-! ## The cascade of `free_pages` as the code runs it -/

/-- The order-`o` list loses every chunk that starts at `b`, as in the loop of
`Buddyornot`, which drops each chunk at the address it looks for. -/
def buddy.removeAll (s : buddy) (o b : Nat) : buddy :=
  match s.chunks[o]? with
  | some cl =>
    s.setList o
      { cl with freech := cl.freech.filter fun c => decide (c.start ≠ b),
                numofchunkinfreelist :=
                  (cl.freech.filter fun c => decide (c.start ≠ b)).length }
  | none => s

/-- The merge cascade of `free_pages`: while the order of `cur` is below
`MAX_ORDER` and the list of that order holds a chunk at the buddy address of
`cur`, every chunk at that address is removed and `cur` becomes the merged chunk
of the next order. The first argument counts the rounds left. -/
def merge_all (MAX_ORDER : Nat) : Nat → chunk → buddy → chunk × buddy
  | 0, cur, s => (cur, s)
  | fuel + 1, cur, s =>
    if cur.order < MAX_ORDER ∧
        ∃ c ∈ flist s cur.order, c.start = buddy_start cur.start cur.order then
      merge_all MAX_ORDER fuel
        { start := min cur.start (buddy_start cur.start cur.order),
          order := cur.order + 1 }
        (s.removeAll cur.order (buddy_start cur.start cur.order))
    else (cur, s)

/-- What `free_pages` leaves for an aligned chunk: the cascade `merge_all`, then
the merged chunk goes to the tail of the list of its order, and the counters
move by the pages of the chunk that was freed. -/
def free_pages_all (MAX_ORDER : Nat) (s : buddy) (page order : Nat) : buddy :=
  let r := merge_all MAX_ORDER MAX_ORDER { start := page, order := order } s
  let s1 := r.2.append r.1
  { s1 with allocated := s.allocated - 2 ^ order, free := s.free + 2 ^ order }

/-- The number of chunks that `init_buddy` puts into the top list: the chunk at 0
and one for each `a` from 1 below the `int` `1 << (nr - MAX_ORDER)`. -/
def seed_count (MAX_ORDER nr : Nat) : Nat :=
  max 1 (wrap_int (2 ^ (nr - MAX_ORDER))).toNat

/-! ## Well-formed and reachable states -/

/-- The representation of the free lists is consistent: there are `NR_ORDERS`
lists, the stored length of each list is the length of its queue, and a chunk in
the order-`o` list has order `o` and a start that is a multiple of `2^o`. -/
structure ListsOk (MAX_ORDER : Nat) (s : buddy) : Prop where
  len : s.chunks.length = NR_ORDERS MAX_ORDER
  cnt : ∀ (o : Nat) (cl : chunk_list), s.chunks[o]? = some cl →
    cl.numofchunkinfreelist = cl.freech.length
  ord : ∀ o, ∀ c ∈ flist s o, c.order = o
  align : ∀ o, ∀ c ∈ flist s o, c.start % 2 ^ o = 0

/-- A well-formed state of an allocator that manages `2 ^ nr` pages: the data
model invariants of the specification. -/
structure WellFormed (MAX_ORDER nr : Nat) (s : buddy) : Prop where
  lists : ListsOk MAX_ORDER s
  disjoint : (free_chunks s).Pairwise chunk.Disjoint
  inside : ∀ c ∈ free_chunks s, c.start + 2 ^ c.order ≤ 2 ^ nr
  no_pairs : ∀ o, o < MAX_ORDER → ∀ c ∈ flist s o, ∀ d ∈ flist s o,
    d.start ≠ buddy_start c.start o
  free_eq : s.free = total chunk.pages s
  sum_eq : s.allocated + s.free = 2 ^ nr

/-- The states an allocator with `2 ^ nr` pages can reach, each with the chunks
that `alloc_pages` has returned and that have not been freed since: a successful
`init_buddy nr`, then successful calls of `alloc_pages` and calls of `free_pages`
on an outstanding chunk. The shift `1 << nr` of `init_buddy` has a value for a
shift count below the 32 bits of an `int` only, so `nr` is below 32. -/
inductive Reach (MAX_ORDER nr : Nat) : buddy → List chunk → Prop
  | init (s0 s : buddy) :
      nr < 32 → init_buddy MAX_ORDER s0 nr = some (0, s) → Reach MAX_ORDER nr s []
  | alloc (s : buddy) (out : List chunk) (order page : Nat) (s1 : buddy) :
      Reach MAX_ORDER nr s out →
      alloc_pages MAX_ORDER s order = some { ret := 0, page := some page, st := s1 } →
      Reach MAX_ORDER nr s1 ({ start := page, order := order } :: out)
  | free (s : buddy) (out : List chunk) (page order : Nat) (s1 : buddy) :
      Reach MAX_ORDER nr s out →
      { start := page, order := order } ∈ out →
      free_pages MAX_ORDER s page order = some s1 →
      Reach MAX_ORDER nr s1 (out.erase { start := page, order := order })

/-- The invariant of all reachable states, relative to the outstanding chunks
`out`: the lists are consistent, no list below the top holds a chunk and its
buddy, the counter `free` is at least the number of pages in the free lists,
`allocated` is the number of outstanding pages, the two counters add up to
`2 ^ nr`, and every chunk is aligned and ends at or below `2 ^ 32`. -/
structure Sound (MAX_ORDER nr : Nat) (s : buddy) (out : List chunk) : Prop where
  lists : ListsOk MAX_ORDER s
  no_pairs : ∀ o, o < MAX_ORDER → ∀ c ∈ flist s o, ∀ d ∈ flist s o,
    d.start ≠ buddy_start c.start o
  free_ge : total chunk.pages s ≤ s.free
  alloc_eq : s.allocated = (out.map chunk.pages).sum
  sum_eq : s.allocated + s.free = 2 ^ nr
  out_ok : ∀ c ∈ out, c.order ≤ MAX_ORDER ∧ c.start % 2 ^ c.order = 0
  fits : ∀ c ∈ free_chunks s ++ out, c.start + 2 ^ c.order ≤ 2 ^ 32

/-- The invariant of the reachable states of a pool whose seeds line 500 computes
without overflow, relative to the outstanding chunks `out`: every page of the
pool lies in exactly one free or outstanding chunk. -/
structure Inv (MAX_ORDER nr : Nat) (s : buddy) (out : List chunk) : Prop where
  lists : ListsOk MAX_ORDER s
  tiling : ∀ x, total (chunk.cover x) s + (out.map (chunk.cover x)).sum =
    if x < 2 ^ nr then 1 else 0
  no_pairs : ∀ o, o < MAX_ORDER → ∀ c ∈ flist s o, ∀ d ∈ flist s o,
    d.start ≠ buddy_start c.start o
  free_eq : s.free = total chunk.pages s
  alloc_eq : s.allocated = (out.map chunk.pages).sum
  out_ok : ∀ c ∈ out, c.order ≤ MAX_ORDER ∧ c.start % 2 ^ c.order = 0

/-- The order-`o` list loses its head. -/
def buddy.pop (s : buddy) (o : Nat) : buddy :=
  match s.chunks[o]? with
  | some cl =>
    s.setList o
      { cl with freech := cl.freech.tail,
                numofchunkinfreelist := cl.numofchunkinfreelist - 1 }
  | none => s

/-- The right halves `(start + 2^j, j)` for `j` from `order + n - 1` down to
`order` are appended to the lists of their orders. -/
def push_halves (start order : Nat) : Nat → buddy → buddy
  | 0, s => s
  | n + 1, s =>
    push_halves start order n
      (s.append { start := start + 2 ^ (order + n), order := order + n })

/-- A measure of chunks that is additive under splitting: the value at a chunk
is the sum of the values at its two halves. -/
def SplitAdditive (f : chunk → Nat) : Prop :=
  ∀ start order : Nat, f { start := start, order := order + 1 } =
    f { start := start, order := order } + f { start := start + 2 ^ order, order := order }

/-! ## Sample states

The allocator with `MAX_ORDER = 4`, as in the worked example of the source. -/

/-- The zero-initialised static allocator before `init_buddy`. -/
def zeroed (MAX_ORDER : Nat) : buddy :=
  { chunks := List.replicate (NR_ORDERS MAX_ORDER)
      { order := 0, numofchunkinfreelist := 0, freech := [] },
    allocated := 0, free := 0 }

/-- The state after `init_buddy(5)`: 32 pages as two chunks of order 4. -/
def pool32 : buddy :=
  { chunks := [⟨0, 0, []⟩, ⟨1, 0, []⟩, ⟨2, 0, []⟩, ⟨3, 0, []⟩, ⟨4, 2, [⟨0, 4⟩, ⟨16, 4⟩]⟩],
    allocated := 0, free := 32 }

/-- The state after `init_buddy(4)`: 16 pages as one chunk of order 4. -/
def pool16 : buddy :=
  { chunks := [⟨0, 0, []⟩, ⟨1, 0, []⟩, ⟨2, 0, []⟩, ⟨3, 0, []⟩, ⟨4, 1, [⟨0, 4⟩]⟩],
    allocated := 0, free := 16 }

/-- The state of `pool16` after `alloc_pages(2)` has returned page 0. -/
def pool16_a2 : buddy :=
  { chunks := [⟨0, 0, []⟩, ⟨1, 0, []⟩, ⟨2, 1, [⟨4, 2⟩]⟩, ⟨3, 1, [⟨8, 3⟩]⟩, ⟨4, 0, []⟩],
    allocated := 4, free := 12 }

/-- The state of the worked example of the source: of 32 pages, the pages
`0x14 .. 0x17` and `0x1c` are allocated. -/
def example_state : buddy :=
  { chunks := [⟨0, 1, [⟨0x1d, 0⟩]⟩, ⟨1, 1, [⟨0x1e, 1⟩]⟩, ⟨2, 2, [⟨0x10, 2⟩, ⟨0x18, 2⟩]⟩,
      ⟨3, 0, []⟩, ⟨4, 1, [⟨0x00, 4⟩]⟩],
    allocated := 5, free := 27 }

/-- The state of `example_state` after `alloc_pages(2)` has returned page `0x10`. -/
def example_state_a2 : buddy :=
  { chunks := [⟨0, 1, [⟨0x1d, 0⟩]⟩, ⟨1, 1, [⟨0x1e, 1⟩]⟩, ⟨2, 1, [⟨0x18, 2⟩]⟩,
      ⟨3, 0, []⟩, ⟨4, 1, [⟨0x00, 4⟩]⟩],
    allocated := 9, free := 23 }

/-- The state of `pool16` after `alloc_pages(0)`, `alloc_pages(3)` and
`alloc_pages(2)` have returned the pages 0, 8 and 4: the three free pages are
one chunk of order 1 and one of order 0. -/
def pool16_fragmented : buddy :=
  { chunks := [⟨0, 1, [⟨1, 0⟩]⟩, ⟨1, 1, [⟨2, 1⟩]⟩, ⟨2, 0, []⟩, ⟨3, 0, []⟩, ⟨4, 0, []⟩],
    allocated := 13, free := 3 }

/-- The state of `pool32` after `alloc_pages(4)` has returned page 0. -/
def pool32_a4 : buddy :=
  { chunks := [⟨0, 0, []⟩, ⟨1, 0, []⟩, ⟨2, 0, []⟩, ⟨3, 0, []⟩, ⟨4, 1, [⟨16, 4⟩]⟩],
    allocated := 16, free := 16 }

/-- The state of `pool32_a4` after `free_pages(0, 4)`: the chunk `0:4` is back, at
the tail of the top list. -/
def pool32_a4_freed : buddy :=
  { chunks := [⟨0, 0, []⟩, ⟨1, 0, []⟩, ⟨2, 0, []⟩, ⟨3, 0, []⟩, ⟨4, 2, [⟨16, 4⟩, ⟨0, 4⟩]⟩],
    allocated := 0, free := 32 }

/-- A state with one free chunk of order 2 at the top of the 32-bit address
range, `0xfffffffc`. -/
def wrapped_sample : buddy :=
  { chunks := [⟨0, 0, []⟩, ⟨1, 0, []⟩, ⟨2, 1, [⟨0xfffffffc, 2⟩]⟩, ⟨3, 0, []⟩, ⟨4, 0, []⟩],
    allocated := 12, free := 4 }

/-- The state after `init_buddy(19)` with `MAX_ORDER = 4`: `2^15` chunks of order
4 at the starts that line 500 computes in 32-bit arithmetic. -/
def pool19 : buddy :=
  { chunks := [⟨0, 0, []⟩, ⟨1, 0, []⟩, ⟨2, 0, []⟩, ⟨3, 0, []⟩,
      ⟨4, 32768, (List.range 32768).map fun a : Nat =>
        { start := seed_add32 4 19 (a : Int), order := 4 }⟩],
    allocated := 0, free := 524288 }

/-! ## Basic facts about the lists of a state -/

theorem sum_set_add (l : List Nat) (i a : Nat) (h : i < l.length) :
    (l.set i a).sum + l[i] = l.sum + a := by
  induction l generalizing i with
  | nil => simp at h
  | cons x l ih =>
    cases i with
    | zero => simp; omega
    | succ i =>
      simp at h
      have := ih i h
      simp
      omega

theorem chunks_setList (s : buddy) (i j : Nat) (cl : chunk_list) :
    (s.setList i cl).chunks[j]? =
      if i = j then (if i < s.chunks.length then some cl else none) else s.chunks[j]? := by
  simp [buddy.setList, List.getElem?_set]

theorem chunks_setList_self (s : buddy) (i : Nat) (cl cl0 : chunk_list)
    (h : s.chunks[i]? = some cl0) : (s.setList i cl).chunks[i]? = some cl := by
  have hi : i < s.chunks.length := by
    rcases List.getElem?_eq_some.1 h with ⟨hi, _⟩; exact hi
  simp [chunks_setList, hi]

theorem chunks_setList_ne (s : buddy) (i j : Nat) (cl : chunk_list) (h : i ≠ j) :
    (s.setList i cl).chunks[j]? = s.chunks[j]? := by
  simp [chunks_setList, h]

@[simp] theorem length_setList (s : buddy) (i : Nat) (cl : chunk_list) :
    (s.setList i cl).chunks.length = s.chunks.length := by
  simp [buddy.setList]

@[simp] theorem allocated_setList (s : buddy) (i : Nat) (cl : chunk_list) :
    (s.setList i cl).allocated = s.allocated := rfl

@[simp] theorem free_setList (s : buddy) (i : Nat) (cl : chunk_list) :
    (s.setList i cl).free = s.free := rfl

theorem flist_of_some {s : buddy} {o : Nat} {cl : chunk_list} (h : s.chunks[o]? = some cl) :
    flist s o = cl.freech := by
  simp [flist, h]

theorem flist_of_none {s : buddy} {o : Nat} (h : s.chunks[o]? = none) :
    flist s o = [] := by
  simp [flist, h]

theorem flist_setList_self (s : buddy) (i : Nat) (cl cl0 : chunk_list)
    (h : s.chunks[i]? = some cl0) : flist (s.setList i cl) i = cl.freech :=
  flist_of_some (chunks_setList_self s i cl cl0 h)

theorem flist_setList_ne (s : buddy) (i j : Nat) (cl : chunk_list) (h : i ≠ j) :
    flist (s.setList i cl) j = flist s j := by
  simp [flist, chunks_setList_ne s i j cl h]

theorem total_setList (f : chunk → Nat) (s : buddy) (i : Nat) (cl cl0 : chunk_list)
    (h : s.chunks[i]? = some cl0) :
    total f (s.setList i cl) + (cl0.freech.map f).sum = total f s + (cl.freech.map f).sum := by
  rcases List.getElem?_eq_some.1 h with ⟨hi, hcl⟩
  have hi2 : i < (s.chunks.map fun cl => (cl.freech.map f).sum).length := by simpa using hi
  have := sum_set_add (s.chunks.map fun cl => (cl.freech.map f).sum) i (cl.freech.map f).sum hi2
  simp only [total, buddy.setList, List.map_set]
  simp only [List.getElem_map, hcl] at this
  exact this

theorem buddy_ext {s t : buddy} (h1 : ∀ j : Nat, s.chunks[j]? = t.chunks[j]?)
    (h2 : s.allocated = t.allocated) (h3 : s.free = t.free) : s = t := by
  cases s; cases t
  simp at h1 h2 h3
  simp [List.ext_getElem? h1, h2, h3]

theorem total_eq_free_chunks (f : chunk → Nat) (s : buddy) :
    total f s = ((free_chunks s).map f).sum := by
  simp only [total, free_chunks]
  induction s.chunks with
  | nil => simp
  | cons a l ih => simp [ih]

theorem flist_sublist (s : buddy) (o : Nat) : (flist s o).Sublist (free_chunks s) := by
  unfold flist free_chunks
  cases h : s.chunks[o]? with
  | none => simp
  | some cl =>
    simp only
    apply List.sublist_flatten_of_mem
    rcases List.getElem?_eq_some.1 h with ⟨hi, hcl⟩
    exact List.mem_map.2 ⟨cl, hcl ▸ List.getElem_mem hi, rfl⟩

theorem mem_free_chunks {s : buddy} {c : chunk} :
    c ∈ free_chunks s ↔ ∃ o, c ∈ flist s o := by
  constructor
  · intro h
    simp only [free_chunks, List.mem_flatten, List.mem_map] at h
    rcases h with ⟨l, ⟨cl, hcl, rfl⟩, hc⟩
    rcases List.mem_iff_getElem?.1 hcl with ⟨o, ho⟩
    exact ⟨o, by rw [flist_of_some ho]; exact hc⟩
  · rintro ⟨o, ho⟩
    exact (flist_sublist s o).subset ho

/-! ## `Buddyornot` -/

@[simp] theorem as_unsigned_natCast (n : Nat) : as_unsigned (n : Int) = n := by
  unfold as_unsigned
  rw [if_neg (by omega)]
  exact Int.toNat_ofNat n


theorem Buddyornot_loop_spec (target : Int) (pre : List chunk) :
    ∀ (kept : List chunk) (rvale : Int) (o n : Nat), pre.length ≤ n →
      Buddyornot_loop target pre.length rvale
          { order := o, numofchunkinfreelist := n, freech := pre ++ kept } =
        some (if ∃ c ∈ pre, c.start = as_unsigned target then 1 else rvale,
          { order := o,
            numofchunkinfreelist :=
              n - pre.length + (pre.filter fun c => decide (c.start ≠ as_unsigned target)).length,
            freech := kept ++ pre.filter fun c => decide (c.start ≠ as_unsigned target) }) := by
  induction pre with
  | nil => intro kept rvale o n _; simp [Buddyornot_loop]
  | cons c pre ih =>
    intro kept rvale o n hn
    simp only [List.length_cons] at hn
    simp only [List.length_cons, Buddyornot_loop, List.cons_append]
    by_cases hc : c.start = as_unsigned target
    · rw [if_pos hc]
      have := ih kept 1 o (n - 1) (by omega)
      rw [this]
      simp only [List.mem_cons, exists_eq_or_imp, hc, true_or, if_true, Option.some.injEq,
        Prod.mk.injEq, chunk_list.mk.injEq, true_and]
      refine ⟨by split_ifs <;> rfl, ?_, ?_⟩
      · simp [List.filter_cons, hc]; omega
      · simp [List.filter_cons, hc]
    · rw [if_neg hc]
      have := ih (kept ++ [c]) rvale o (n - 1 + 1) (by omega)
      simp only [chunk_list.push, List.append_assoc] at this ⊢
      rw [this]
      simp only [List.mem_cons, exists_eq_or_imp, hc, false_or, Option.some.injEq,
        Prod.mk.injEq, chunk_list.mk.injEq, true_and]
      refine ⟨?_, ?_⟩
      · simp [List.filter_cons, hc]; omega
      · simp [List.filter_cons, hc]

/-- On a list whose stored length is right, the loop of `Buddyornot` run over the
whole list keeps the chunks that do not start at `target`, in their order. -/
theorem Buddyornot_loop_full (target : Int) (cl : chunk_list)
    (h : cl.numofchunkinfreelist = cl.freech.length) :
    Buddyornot_loop target cl.numofchunkinfreelist 0 cl =
      some (if ∃ c ∈ cl.freech, c.start = as_unsigned target then 1 else 0,
        { order := cl.order,
          numofchunkinfreelist :=
            (cl.freech.filter fun c => decide (c.start ≠ as_unsigned target)).length,
          freech := cl.freech.filter fun c => decide (c.start ≠ as_unsigned target) }) := by
  obtain ⟨o, n, l⟩ := cl
  simp only at h
  subst h
  have := Buddyornot_loop_spec target l [] 0 o l.length (by omega)
  simpa using this

/-- The target address of `Buddyornot`. -/
theorem Buddyornot_spec (MAX_ORDER : Nat) (s : buddy) (rgt_or_lft : Int) (order : Nat)
    (page : Int) (cl : chunk_list) (hcl : s.chunks[order]? = some cl)
    (hcnt : cl.numofchunkinfreelist = cl.freech.length) (ho : order ≠ MAX_ORDER)
    (target : Int)
    (ht : target = if rgt_or_lft = 0 then page + 2 ^ order else page - 2 ^ order) :
    Buddyornot MAX_ORDER s rgt_or_lft order page =
      some (if ∃ c ∈ cl.freech, c.start = as_unsigned target then 1 else 0,
        s.setList order
          { order := cl.order,
            numofchunkinfreelist :=
              (cl.freech.filter fun c => decide (c.start ≠ as_unsigned target)).length,
            freech := cl.freech.filter fun c => decide (c.start ≠ as_unsigned target) }) := by
  have hi : order < s.chunks.length := (List.getElem?_eq_some.1 hcl).1
  have hself : ∀ cl', cl' = cl → s.setList order cl' = s := by
    intro cl' h
    subst h
    apply buddy_ext
    · intro j
      by_cases hj : order = j
      · subst hj; rw [chunks_setList_self s order cl' cl' hcl, hcl]
      · rw [chunks_setList_ne s order j cl' hj]
    · rfl
    · rfl
  unfold Buddyornot
  simp only [hcl, NR_ORDERS, Nat.add_sub_cancel, ho, if_false]
  by_cases h0 : cl.numofchunkinfreelist = 0
  · have hnil : cl.freech = [] := by
      apply List.eq_nil_of_length_eq_zero; omega
    simp only [h0, ne_eq, not_true_eq_false, and_false, if_false]
    rw [hself]
    · simp [hnil]
    · cases cl; simp at hnil h0 ⊢; simp [hnil, h0]
  · by_cases hr : rgt_or_lft = 0
    · simp only [hr, if_true] at ht
      simp only [hr, ne_eq, h0, not_false_eq_true, and_self, if_true]
      rw [← ht, Buddyornot_loop_full target cl hcnt]
    · simp only [hr, if_false] at ht
      simp only [hr, ne_eq, h0, not_false_eq_true, and_self, if_true, false_and, if_false]
      rw [← ht, Buddyornot_loop_full target cl hcnt]

/-! ## Removing and appending a chunk -/

theorem filter_eq_eraseP (b : Nat) (l : List chunk)
    (h : l.Pairwise fun c d => c.start ≠ d.start) :
    (l.filter fun c => decide (c.start ≠ b)) =
      l.eraseP fun c => decide (c.start = b) := by
  induction l with
  | nil => simp
  | cons c l ih =>
    rw [List.pairwise_cons] at h
    by_cases hc : c.start = b
    · have hl : ∀ d ∈ l, d.start ≠ b := fun d hd => hc ▸ (h.1 d hd).symm
      have : (l.filter fun c => decide (c.start ≠ b)) = l := by
        apply List.filter_eq_self.2
        intro d hd
        simpa using hl d hd
      simp [List.filter_cons, hc]
      exact hl
    · have := ih h.2
      simp only [ne_eq, decide_not] at this
      simp [List.filter_cons, hc, this, List.eraseP_cons]

theorem flist_remove (s : buddy) (o b j : Nat) :
    flist (s.remove o b) j =
      if j = o then (flist s o).eraseP fun c => decide (c.start = b) else flist s j := by
  unfold buddy.remove
  cases h : s.chunks[o]? with
  | none =>
    simp only
    split_ifs with hj
    · subst hj; simp [flist_of_none h]
    · rfl
  | some cl =>
    simp only
    split_ifs with hj
    · subst hj; rw [flist_setList_self s j _ cl h, flist_of_some h]
    · rw [flist_setList_ne s o j _ (Ne.symm hj)]

@[simp] theorem length_remove (s : buddy) (o b : Nat) :
    (s.remove o b).chunks.length = s.chunks.length := by
  unfold buddy.remove
  cases h : s.chunks[o]? <;> simp

@[simp] theorem allocated_remove (s : buddy) (o b : Nat) :
    (s.remove o b).allocated = s.allocated := by
  unfold buddy.remove
  cases h : s.chunks[o]? <;> simp

@[simp] theorem free_remove (s : buddy) (o b : Nat) :
    (s.remove o b).free = s.free := by
  unfold buddy.remove
  cases h : s.chunks[o]? <;> simp

theorem flist_append (s : buddy) (c : chunk) (j : Nat) (h : c.order < s.chunks.length) :
    flist (s.append c) j = if j = c.order then flist s j ++ [c] else flist s j := by
  unfold buddy.append
  have hcl : s.chunks[c.order]? = some s.chunks[c.order] := List.getElem?_eq_getElem h
  rw [hcl]
  simp only
  split_ifs with hj
  · subst hj; rw [flist_setList_self s _ _ _ hcl, flist_of_some hcl]; rfl
  · rw [flist_setList_ne s _ j _ (Ne.symm hj)]

@[simp] theorem length_append (s : buddy) (c : chunk) :
    (s.append c).chunks.length = s.chunks.length := by
  unfold buddy.append
  cases h : s.chunks[c.order]? <;> simp

@[simp] theorem allocated_append (s : buddy) (c : chunk) :
    (s.append c).allocated = s.allocated := by
  unfold buddy.append
  cases h : s.chunks[c.order]? <;> simp

@[simp] theorem free_append (s : buddy) (c : chunk) :
    (s.append c).free = s.free := by
  unfold buddy.append
  cases h : s.chunks[c.order]? <;> simp

theorem total_append (f : chunk → Nat) (s : buddy) (c : chunk) (h : c.order < s.chunks.length) :
    total f (s.append c) = total f s + f c := by
  unfold buddy.append
  have hcl : s.chunks[c.order]? = some s.chunks[c.order] := List.getElem?_eq_getElem h
  rw [hcl]
  simp only
  have := total_setList f s c.order (s.chunks[c.order].push c) _ hcl
  simp only [chunk_list.push, List.map_append, List.sum_append, List.map_cons, List.map_nil,
    List.sum_cons, List.sum_nil] at this
  simp only [chunk_list.push]
  omega

theorem sum_eraseP (f : chunk → Nat) (b o : Nat) (l : List chunk)
    (hord : ∀ c ∈ l, c.order = o) (hex : ∃ c ∈ l, c.start = b) :
    ((l.eraseP fun c => decide (c.start = b)).map f).sum + f { start := b, order := o } =
      (l.map f).sum := by
  rcases hex with ⟨c, hc, hcb⟩
  have hp : (fun c : chunk => decide (c.start = b)) c = true := by simpa using hcb
  rcases @List.exists_of_eraseP chunk (fun c => decide (c.start = b)) l c hc hp with ⟨a, l1, l2, _, ha, hl, he⟩
  rw [he, hl]
  have hao : a.order = o := hord a (by rw [hl]; simp)
  have hab : a.start = b := by simpa using ha
  have : a = { start := b, order := o } := by cases a; simp at hao hab; simp [hao, hab]
  subst this
  simp
  omega

theorem total_remove (f : chunk → Nat) (s : buddy) (o b : Nat)
    (hord : ∀ c ∈ flist s o, c.order = o) (hex : ∃ c ∈ flist s o, c.start = b) :
    total f (s.remove o b) + f { start := b, order := o } = total f s := by
  unfold buddy.remove
  cases h : s.chunks[o]? with
  | none => rw [flist_of_none h] at hex; simp at hex
  | some cl =>
    simp only
    rw [flist_of_some h] at hord hex
    have h1 := total_setList f s o
      { cl with freech := cl.freech.eraseP fun c => decide (c.start = b),
                numofchunkinfreelist := cl.numofchunkinfreelist - 1 } cl h
    have h2 := sum_eraseP f b o cl.freech hord hex
    simp only at h1
    omega

theorem listsOk_remove {MAX_ORDER : Nat} {s : buddy} (o b : Nat) (h : ListsOk MAX_ORDER s)
    (hex : ∃ c ∈ flist s o, c.start = b) : ListsOk MAX_ORDER (s.remove o b) := by
  have hmem : ∀ j, ∀ c ∈ flist (s.remove o b) j, c ∈ flist s j := by
    intro j c hc
    rw [flist_remove] at hc
    split_ifs at hc with hj
    · subst hj; exact List.mem_of_mem_eraseP hc
    · exact hc
  refine ⟨by simp [h.len], ?_, fun j c hc => h.ord j c (hmem j c hc),
    fun j c hc => h.align j c (hmem j c hc)⟩
  intro j cl hcl
  unfold buddy.remove at hcl
  cases h0 : s.chunks[o]? with
  | none => rw [flist_of_none h0] at hex; simp at hex
  | some cl0 =>
    rw [h0] at hcl
    simp only at hcl
    by_cases hj : o = j
    · subst hj
      rw [chunks_setList_self s o _ cl0 h0] at hcl
      cases hcl
      rw [flist_of_some h0] at hex
      rcases hex with ⟨c, hc, hcb⟩
      simp only
      have hp : (fun c : chunk => decide (c.start = b)) c = true := by simpa using hcb
      rw [@List.length_eraseP_of_mem chunk cl0.freech c (fun c => decide (c.start = b)) hc hp,
        h.cnt o cl0 h0]
    · rw [chunks_setList_ne s o j _ hj] at hcl
      exact h.cnt j cl hcl

theorem listsOk_append {MAX_ORDER : Nat} {s : buddy} (c : chunk) (h : ListsOk MAX_ORDER s)
    (ho : c.order ≤ MAX_ORDER) (ha : c.start % 2 ^ c.order = 0) :
    ListsOk MAX_ORDER (s.append c) := by
  have hlt : c.order < s.chunks.length := by rw [h.len, NR_ORDERS]; omega
  have hmem : ∀ j, ∀ d ∈ flist (s.append c) j, d ∈ flist s j ∨ (d = c ∧ j = c.order) := by
    intro j d hd
    rw [flist_append s c j hlt] at hd
    split_ifs at hd with hj
    · rcases List.mem_append.1 hd with hd | hd
      · exact Or.inl hd
      · exact Or.inr ⟨by simpa using hd, hj⟩
    · exact Or.inl hd
  refine ⟨by simp [h.len], ?_, ?_, ?_⟩
  · intro j cl hcl
    unfold buddy.append at hcl
    have h0 : s.chunks[c.order]? = some s.chunks[c.order] := List.getElem?_eq_getElem hlt
    rw [h0] at hcl
    simp only at hcl
    by_cases hj : c.order = j
    · subst hj
      rw [chunks_setList_self s _ _ _ h0] at hcl
      cases hcl
      simp [chunk_list.push, h.cnt _ _ h0]
    · rw [chunks_setList_ne s _ j _ hj] at hcl
      exact h.cnt j cl hcl
  · intro j d hd
    rcases hmem j d hd with hd | ⟨rfl, rfl⟩
    · exact h.ord j d hd
    · rfl
  · intro j d hd
    rcases hmem j d hd with hd | ⟨rfl, rfl⟩
    · exact h.align j d hd
    · exact ha

/-! ## Removing every chunk at an address -/

theorem flist_removeAll (s : buddy) (o b j : Nat) :
    flist (s.removeAll o b) j =
      if j = o then (flist s o).filter fun c => decide (c.start ≠ b) else flist s j := by
  unfold buddy.removeAll
  cases h : s.chunks[o]? with
  | none =>
    simp only
    split_ifs with hj
    · subst hj; simp [flist_of_none h]
    · rfl
  | some cl =>
    simp only
    split_ifs with hj
    · subst hj; rw [flist_setList_self s j _ cl h, flist_of_some h]
    · rw [flist_setList_ne s o j _ (Ne.symm hj)]

@[simp] theorem length_removeAll (s : buddy) (o b : Nat) :
    (s.removeAll o b).chunks.length = s.chunks.length := by
  unfold buddy.removeAll
  cases h : s.chunks[o]? <;> simp

@[simp] theorem allocated_removeAll (s : buddy) (o b : Nat) :
    (s.removeAll o b).allocated = s.allocated := by
  unfold buddy.removeAll
  cases h : s.chunks[o]? <;> simp

@[simp] theorem free_removeAll (s : buddy) (o b : Nat) :
    (s.removeAll o b).free = s.free := by
  unfold buddy.removeAll
  cases h : s.chunks[o]? <;> simp

theorem flist_removeAll_sublist (s : buddy) (o b j : Nat) :
    (flist (s.removeAll o b) j).Sublist (flist s j) := by
  rw [flist_removeAll]
  split_ifs with hj
  · subst hj; exact List.filter_sublist _
  · exact List.Sublist.refl _

theorem listsOk_removeAll {MAX_ORDER : Nat} {s : buddy} (o b : Nat) (h : ListsOk MAX_ORDER s) :
    ListsOk MAX_ORDER (s.removeAll o b) := by
  have hmem : ∀ j, ∀ c ∈ flist (s.removeAll o b) j, c ∈ flist s j :=
    fun j c hc => (flist_removeAll_sublist s o b j).subset hc
  refine ⟨by simp [h.len], ?_, fun j c hc => h.ord j c (hmem j c hc),
    fun j c hc => h.align j c (hmem j c hc)⟩
  intro j cl hcl
  unfold buddy.removeAll at hcl
  cases h0 : s.chunks[o]? with
  | none =>
    rw [h0] at hcl
    exact h.cnt j cl hcl
  | some cl0 =>
    rw [h0] at hcl
    simp only at hcl
    by_cases hj : o = j
    · subst hj
      rw [chunks_setList_self s o _ cl0 h0] at hcl
      cases hcl
      rfl
    · rw [chunks_setList_ne s o j _ hj] at hcl
      exact h.cnt j cl hcl

theorem sum_filter_le (f : chunk → Nat) (p : chunk → Bool) (l : List chunk) :
    ((l.filter p).map f).sum ≤ (l.map f).sum := by
  induction l with
  | nil => simp
  | cons c l ih =>
    by_cases hc : p c = true
    · simp only [List.filter_cons, hc, if_true, List.map_cons, List.sum_cons]
      omega
    · simp only [List.filter_cons, hc, List.map_cons, List.sum_cons]
      simp only [Bool.false_eq_true, if_false]
      omega

theorem sum_filter_ne_le (f : chunk → Nat) (b o : Nat) (l : List chunk)
    (hord : ∀ c ∈ l, c.order = o) (hex : ∃ c ∈ l, c.start = b) :
    ((l.filter fun c => decide (c.start ≠ b)).map f).sum + f { start := b, order := o } ≤
      (l.map f).sum := by
  induction l with
  | nil => simp at hex
  | cons c l ih =>
    by_cases hc : c.start = b
    · have hco : c.order = o := hord c (List.mem_cons_self _ _)
      have hceq : c = { start := b, order := o } := by
        cases c; simp only at hc hco; simp [hc, hco]
      have h1 := sum_filter_le f (fun c => decide (c.start ≠ b)) l
      simp only [List.filter_cons, hc, ne_eq, not_true_eq_false, decide_False,
        Bool.false_eq_true, if_false, List.map_cons, List.sum_cons]
      rw [← hceq]
      simp only [ne_eq] at h1
      omega
    · have hex1 : ∃ c ∈ l, c.start = b := by
        rcases hex with ⟨d, hd, hdb⟩
        rcases List.mem_cons.1 hd with rfl | hd
        · exact absurd hdb hc
        · exact ⟨d, hd, hdb⟩
      have h1 := ih (fun d hd => hord d (List.mem_cons_of_mem _ hd)) hex1
      simp only [List.filter_cons, hc, ne_eq, not_false_eq_true, decide_True, if_true,
        List.map_cons, List.sum_cons]
      simp only [ne_eq] at h1
      omega

theorem total_removeAll_le (f : chunk → Nat) (s : buddy) (o b : Nat)
    (hord : ∀ c ∈ flist s o, c.order = o) (hex : ∃ c ∈ flist s o, c.start = b) :
    total f (s.removeAll o b) + f { start := b, order := o } ≤ total f s := by
  unfold buddy.removeAll
  cases h : s.chunks[o]? with
  | none => rw [flist_of_none h] at hex; simp at hex
  | some cl =>
    simp only
    rw [flist_of_some h] at hord hex
    have h1 := total_setList f s o
      { cl with freech := cl.freech.filter fun c => decide (c.start ≠ b),
                numofchunkinfreelist :=
                  (cl.freech.filter fun c => decide (c.start ≠ b)).length } cl h
    have h2 := sum_filter_ne_le f b o cl.freech hord hex
    simp only at h1
    omega

/-- Where no list holds two chunks with the same start, removing every chunk at
an address removes the one chunk there. -/
theorem removeAll_eq_remove {MAX_ORDER : Nat} {s : buddy} (o b : Nat) (h : ListsOk MAX_ORDER s)
    (hu : (flist s o).Pairwise fun c d => c.start ≠ d.start)
    (hex : ∃ c ∈ flist s o, c.start = b) : s.removeAll o b = s.remove o b := by
  unfold buddy.removeAll buddy.remove
  cases h0 : s.chunks[o]? with
  | none => rfl
  | some cl =>
    simp only
    rw [flist_of_some h0] at hu hex
    rcases hex with ⟨c, hc, hcb⟩
    have hp : (fun c : chunk => decide (c.start = b)) c = true := by simpa using hcb
    have hlen := @List.length_eraseP_of_mem chunk cl.freech c
      (fun c => decide (c.start = b)) hc hp
    rw [filter_eq_eraseP b cl.freech hu, hlen, h.cnt o cl h0]

/-! ## Alignment arithmetic -/

theorem tmod_cast (a k : Nat) : Int.tmod (a : Int) (2 ^ k) = ((a % 2 ^ k : Nat) : Int) := by
  have := Int.ofNat_tmod a (2 ^ k)
  rw [this]
  push_cast
  rfl

theorem mod_succ_of_aligned {start od : Nat} (h : start % 2 ^ od = 0) :
    start % 2 ^ (od + 1) = 2 ^ od * ((start / 2 ^ od) % 2) := by
  rw [Nat.mod_pow_succ, h, zero_add]

theorem buddy_start_left {start od : Nat} (h : start % 2 ^ od = 0)
    (h2 : start % 2 ^ (od + 1) = 0) : buddy_start start od = start + 2 ^ od := by
  rw [mod_succ_of_aligned h] at h2
  have hp : 0 < 2 ^ od := Nat.pos_pow_of_pos _ (by decide)
  have : (start / 2 ^ od) % 2 = 0 := by
    rcases Nat.mul_eq_zero.1 h2 with h3 | h3
    · omega
    · exact h3
  simp [buddy_start, this]

theorem buddy_start_right {start od : Nat} (h : start % 2 ^ od = 0)
    (h2 : start % 2 ^ (od + 1) ≠ 0) :
    buddy_start start od = start - 2 ^ od ∧ 2 ^ od ≤ start ∧
      (start - 2 ^ od) % 2 ^ (od + 1) = 0 := by
  have hm := mod_succ_of_aligned h
  have hq : (start / 2 ^ od) % 2 = 1 := by
    rcases Nat.mod_two_eq_zero_or_one (start / 2 ^ od) with h3 | h3
    · rw [h3] at hm; simp at hm; exact absurd hm h2
    · exact h3
  rw [hq, Nat.mul_one] at hm
  have hle : 2 ^ od ≤ start := by
    calc 2 ^ od = start % 2 ^ (od + 1) := hm.symm
      _ ≤ start := Nat.mod_le _ _
  refine ⟨by simp [buddy_start, hq], hle, ?_⟩
  have hd := Nat.div_add_mod start (2 ^ (od + 1))
  rw [hm] at hd
  have : start - 2 ^ od = 2 ^ (od + 1) * (start / 2 ^ (od + 1)) := by omega
  rw [this, Nat.mul_mod_right]

/-- The address `Buddyornot` is asked to look for by `free_pages` is the buddy
address of the specification, for a chunk that is aligned. -/
theorem target_eq_buddy_start {start od : Nat} (h : start % 2 ^ od = 0) :
    (if Int.tmod (start : Int) (2 ^ (od + 1)) = 0 then (start : Int) + 2 ^ od
      else (start : Int) - 2 ^ od) = ((buddy_start start od : Nat) : Int) := by
  rw [tmod_cast]
  by_cases h2 : start % 2 ^ (od + 1) = 0
  · rw [if_pos (by exact_mod_cast h2), buddy_start_left h h2]
    push_cast
    rfl
  · rw [if_neg (by exact_mod_cast h2)]
    obtain ⟨h3, h4, _⟩ := buddy_start_right h h2
    rw [h3]
    push_cast [Nat.cast_sub h4]
    rfl

theorem setList_self (s : buddy) (o : Nat) (cl : chunk_list) (h : s.chunks[o]? = some cl) :
    s.setList o cl = s := by
  apply buddy_ext
  · intro j
    by_cases hj : o = j
    · subst hj; rw [chunks_setList_self s o cl cl h, h]
    · rw [chunks_setList_ne s o j cl hj]
  · rfl
  · rfl

/-! ## `free_pages` follows the reference cascade -/

theorem uniq_remove {s : buddy} (o b : Nat)
    (h : ∀ j, (flist s j).Pairwise fun c d => c.start ≠ d.start) :
    ∀ j, (flist (s.remove o b) j).Pairwise fun c d => c.start ≠ d.start := by
  intro j
  rw [flist_remove]
  split_ifs with hj
  · exact (h o).sublist (List.eraseP_sublist _)
  · exact h j

/-- The loop of `free_pages`, started on an aligned chunk, runs the cascade
`merge_all`. -/
theorem free_merge_eq_all (MAX_ORDER : Nat) :
    ∀ (fuel fuel1 od start : Nat) (s : buddy), ListsOk MAX_ORDER s →
      od ≤ MAX_ORDER → MAX_ORDER - od ≤ fuel → MAX_ORDER - od ≤ fuel1 →
      start % 2 ^ od = 0 →
      free_merge MAX_ORDER fuel od (start : Int) (Int.tmod (start : Int) (2 ^ (od + 1))) s =
        some ((merge_all MAX_ORDER fuel1 { start := start, order := od } s).1.order,
          (((merge_all MAX_ORDER fuel1 { start := start, order := od } s).1.start : Nat) : Int),
          (merge_all MAX_ORDER fuel1 { start := start, order := od } s).2) := by
  intro fuel
  induction fuel with
  | zero =>
    intro fuel1 od start s _ hod hf _ _
    have : od = MAX_ORDER := by omega
    subst this
    cases fuel1 <;> simp [free_merge, merge_all, NR_ORDERS]
  | succ fuel ih =>
    intro fuel1 od start s hl hod hf hf1 ha
    by_cases hmax : od = MAX_ORDER
    · subst hmax
      cases fuel1 <;> simp [free_merge, merge_all, NR_ORDERS]
    · have hlt : od < MAX_ORDER := by omega
      obtain ⟨fuel1, rfl⟩ : ∃ k, fuel1 = k + 1 := ⟨fuel1 - 1, by omega⟩
      have hi : od < s.chunks.length := by rw [hl.len, NR_ORDERS]; omega
      have hcl : s.chunks[od]? = some s.chunks[od] := List.getElem?_eq_getElem hi
      have hB := Buddyornot_spec MAX_ORDER s (Int.tmod (start : Int) (2 ^ (od + 1))) od
        (start : Int) s.chunks[od] hcl (hl.cnt od _ hcl) hmax _ (target_eq_buddy_start ha).symm
      simp only [as_unsigned_natCast] at hB
      have hfl : flist s od = s.chunks[od].freech := flist_of_some hcl
      have hrem : s.setList od
          { order := s.chunks[od].order,
            numofchunkinfreelist := (s.chunks[od].freech.filter fun c =>
              decide (c.start ≠ buddy_start start od)).length,
            freech := s.chunks[od].freech.filter fun c =>
              decide (c.start ≠ buddy_start start od) } =
          s.removeAll od (buddy_start start od) := by
        simp only [buddy.removeAll, hcl]
      simp only [free_merge, NR_ORDERS, Nat.add_sub_cancel, hmax, if_false, hB, merge_all]
      rw [hrem, ← hfl]
      by_cases hm : ∃ c ∈ flist s od, c.start = buddy_start start od
      · have hcond : od < MAX_ORDER ∧ ∃ c ∈ flist s od, c.start = buddy_start start od :=
          ⟨hlt, hm⟩
        rw [if_pos hm, if_pos hcond]
        simp only [one_ne_zero, if_false]
        have hl1 : ListsOk MAX_ORDER (s.removeAll od (buddy_start start od)) :=
          listsOk_removeAll od (buddy_start start od) hl
        rw [tmod_cast]
        by_cases h2 : start % 2 ^ (od + 1) = 0
        · rw [if_pos (by exact_mod_cast h2)]
          have hb := buddy_start_left ha h2
          have hmin : min start (buddy_start start od) = start := by rw [hb]; omega
          rw [hmin]
          exact ih fuel1 (od + 1) start _ hl1 (by omega) (by omega) (by omega) h2
        · rw [if_neg (by exact_mod_cast h2)]
          obtain ⟨hb, hle, ha1⟩ := buddy_start_right ha h2
          have hmin : min start (buddy_start start od) = start - 2 ^ od := by rw [hb]; omega
          rw [hmin]
          have hc : ((start : Int) - 2 ^ od) = ((start - 2 ^ od : Nat) : Int) := by
            push_cast [Nat.cast_sub hle]
            rfl
          rw [hc]
          exact ih fuel1 (od + 1) (start - 2 ^ od) _ hl1 (by omega) (by omega) (by omega) ha1
      · have hcond : ¬ (od < MAX_ORDER ∧ ∃ c ∈ flist s od, c.start = buddy_start start od) :=
          fun h => hm h.2
        have hnone : s.removeAll od (buddy_start start od) = s := by
          rw [← hrem]
          have hfilt : (s.chunks[od].freech.filter fun c =>
              decide (c.start ≠ buddy_start start od)) = s.chunks[od].freech := by
            apply List.filter_eq_self.2
            intro c hc
            have : ¬ c.start = buddy_start start od := fun h => hm ⟨c, hfl ▸ hc, h⟩
            simpa using this
          rw [hfilt, ← hl.cnt od _ hcl]
          exact setList_self s od _ hcl
        rw [if_neg hm, if_neg hcond, hnone]
        simp

theorem merge_ref_props (MAX_ORDER : Nat) :
    ∀ (fuel od start : Nat) (s : buddy), ListsOk MAX_ORDER s →
      (∀ j, (flist s j).Pairwise fun c d => c.start ≠ d.start) →
      od ≤ MAX_ORDER → start % 2 ^ od = 0 →
      ListsOk MAX_ORDER (merge_ref MAX_ORDER fuel { start := start, order := od } s).2 ∧
      (∀ j, (flist (merge_ref MAX_ORDER fuel { start := start, order := od } s).2 j).Pairwise
        fun c d => c.start ≠ d.start) ∧
      (merge_ref MAX_ORDER fuel { start := start, order := od } s).1.order ≤ MAX_ORDER ∧
      od ≤ (merge_ref MAX_ORDER fuel { start := start, order := od } s).1.order ∧
      (merge_ref MAX_ORDER fuel { start := start, order := od } s).1.start %
        2 ^ (merge_ref MAX_ORDER fuel { start := start, order := od } s).1.order = 0 ∧
      (merge_ref MAX_ORDER fuel { start := start, order := od } s).2.allocated = s.allocated ∧
      (merge_ref MAX_ORDER fuel { start := start, order := od } s).2.free = s.free ∧
      (∀ j, (flist (merge_ref MAX_ORDER fuel { start := start, order := od } s).2 j).Sublist
        (flist s j)) ∧
      (∀ f, SplitAdditive f →
        total f (merge_ref MAX_ORDER fuel { start := start, order := od } s).2 +
          f (merge_ref MAX_ORDER fuel { start := start, order := od } s).1 =
        total f s + f { start := start, order := od }) ∧
      (MAX_ORDER - od ≤ fuel →
        (merge_ref MAX_ORDER fuel { start := start, order := od } s).1.order < MAX_ORDER →
        ¬ ∃ c ∈ flist (merge_ref MAX_ORDER fuel { start := start, order := od } s).2
            (merge_ref MAX_ORDER fuel { start := start, order := od } s).1.order,
          c.start = buddy_start
            (merge_ref MAX_ORDER fuel { start := start, order := od } s).1.start
            (merge_ref MAX_ORDER fuel { start := start, order := od } s).1.order) := by
  intro fuel
  induction fuel with
  | zero =>
    intro od start s hl hu hod ha
    simp only [merge_ref]
    refine ⟨hl, hu, hod, le_refl _, ha, trivial, trivial,
      fun j => List.Sublist.refl _, fun _ _ => trivial, ?_⟩
    intro h1 h2
    omega
  | succ fuel ih =>
    intro od start s hl hu hod ha
    simp only [merge_ref]
    by_cases hc : od < MAX_ORDER ∧ ∃ c ∈ flist s od, c.start = buddy_start start od
    · rw [if_pos hc]
      obtain ⟨hlt, hm⟩ := hc
      have hl1 := listsOk_remove od (buddy_start start od) hl hm
      have hu1 := uniq_remove od (buddy_start start od) hu
      have hsub : ∀ j, (flist (s.remove od (buddy_start start od)) j).Sublist (flist s j) := by
        intro j
        rw [flist_remove]
        split_ifs with hj
        · subst hj; exact List.eraseP_sublist _
        · exact List.Sublist.refl _
      have htot := fun f => total_remove f s od (buddy_start start od) (hl.ord od) hm
      have key : min start (buddy_start start od) % 2 ^ (od + 1) = 0 ∧
          ∀ f, SplitAdditive f →
            f { start := min start (buddy_start start od), order := od + 1 } =
              f { start := buddy_start start od, order := od } +
                f { start := start, order := od } := by
        by_cases h2 : start % 2 ^ (od + 1) = 0
        · have hb := buddy_start_left ha h2
          have hmin : min start (buddy_start start od) = start := by rw [hb]; omega
          rw [hmin, hb]
          refine ⟨h2, fun f hf => ?_⟩
          rw [hf start od]; omega
        · obtain ⟨hb, hle, ha1⟩ := buddy_start_right ha h2
          have hmin : min start (buddy_start start od) = start - 2 ^ od := by rw [hb]; omega
          rw [hmin, hb]
          refine ⟨ha1, fun f hf => ?_⟩
          rw [hf (start - 2 ^ od) od]
          have : start - 2 ^ od + 2 ^ od = start := by omega
          rw [this]
      obtain ⟨k1, k2, k3, k4, k5, k6, k7, k8, k9, k10⟩ :=
        ih (od + 1) (min start (buddy_start start od)) _ hl1 hu1 (by omega) key.1
      refine ⟨k1, k2, k3, by omega, k5, by simpa using k6, by simpa using k7,
        fun j => (k8 j).trans (hsub j), ?_, fun h1 h2 => k10 (by omega) h2⟩
      intro f hf
      have e1 := k9 f hf
      have e2 := htot f
      have e3 := key.2 f hf
      omega
    · rw [if_neg hc]
      refine ⟨hl, hu, hod, le_refl _, ha, rfl, rfl,
        fun j => List.Sublist.refl _, fun _ _ => rfl, ?_⟩
      intro _ h2 h3
      exact hc ⟨h2, h3⟩

/-- What the cascade `merge_all` keeps and establishes. -/
theorem merge_all_props (MAX_ORDER : Nat) :
    ∀ (fuel od start : Nat) (s : buddy), ListsOk MAX_ORDER s →
      od ≤ MAX_ORDER → start % 2 ^ od = 0 →
      ∃ (cur : chunk) (t : buddy),
        merge_all MAX_ORDER fuel { start := start, order := od } s = (cur, t) ∧
        ListsOk MAX_ORDER t ∧ cur.order ≤ MAX_ORDER ∧ od ≤ cur.order ∧
        cur.start % 2 ^ cur.order = 0 ∧ t.allocated = s.allocated ∧ t.free = s.free ∧
        (∀ j, (flist t j).Sublist (flist s j)) ∧
        (∀ f, SplitAdditive f →
          total f t + f cur ≤ total f s + f { start := start, order := od }) ∧
        (∀ N, start + 2 ^ od ≤ N → (∀ j, ∀ c ∈ flist s j, c.start + 2 ^ c.order ≤ N) →
          cur.start + 2 ^ cur.order ≤ N) ∧
        (MAX_ORDER - od ≤ fuel → cur.order < MAX_ORDER →
          ¬ ∃ c ∈ flist t cur.order, c.start = buddy_start cur.start cur.order) := by
  intro fuel
  induction fuel with
  | zero =>
    intro od start s hl hod ha
    refine ⟨_, _, rfl, hl, hod, le_refl _, ha, rfl, rfl,
      fun j => List.Sublist.refl _, fun _ _ => le_refl _, fun N hN _ => hN, ?_⟩
    intro h1 h2
    simp only at h2
    omega
  | succ fuel ih =>
    intro od start s hl hod ha
    simp only [merge_all]
    by_cases hc : od < MAX_ORDER ∧ ∃ c ∈ flist s od, c.start = buddy_start start od
    · rw [if_pos hc]
      obtain ⟨hlt, hm⟩ := hc
      have hl1 : ListsOk MAX_ORDER (s.removeAll od (buddy_start start od)) :=
        listsOk_removeAll od (buddy_start start od) hl
      have hsub := flist_removeAll_sublist s od (buddy_start start od)
      have htot := fun f => total_removeAll_le f s od (buddy_start start od) (hl.ord od) hm
      have hpp : 2 ^ (od + 1) = 2 ^ od + 2 ^ od := by rw [pow_succ]; omega
      have key : min start (buddy_start start od) % 2 ^ (od + 1) = 0 ∧
          (∀ f, SplitAdditive f →
            f { start := min start (buddy_start start od), order := od + 1 } =
              f { start := buddy_start start od, order := od } +
                f { start := start, order := od }) ∧
          (min start (buddy_start start od) + 2 ^ (od + 1) = start + 2 ^ od ∨
            min start (buddy_start start od) + 2 ^ (od + 1) =
              buddy_start start od + 2 ^ od) := by
        by_cases h2 : start % 2 ^ (od + 1) = 0
        · have hb := buddy_start_left ha h2
          have hmin : min start (buddy_start start od) = start := by rw [hb]; omega
          rw [hmin, hb]
          refine ⟨h2, fun f hf => ?_, Or.inr (by omega)⟩
          rw [hf start od]; omega
        · obtain ⟨hb, hle, ha1⟩ := buddy_start_right ha h2
          have hmin : min start (buddy_start start od) = start - 2 ^ od := by rw [hb]; omega
          rw [hmin, hb]
          refine ⟨ha1, fun f hf => ?_, Or.inl (by omega)⟩
          rw [hf (start - 2 ^ od) od]
          have : start - 2 ^ od + 2 ^ od = start := by omega
          rw [this]
      obtain ⟨cur, t, k0, k1, k3, k4, k5, k6, k7, k8, k9, k10, k11⟩ :=
        ih (od + 1) (min start (buddy_start start od)) _ hl1 (by omega) key.1
      refine ⟨cur, t, k0, k1, k3, by omega, k5, by simpa using k6, by simpa using k7,
        fun j => (k8 j).trans (hsub j), ?_, ?_, fun h1 h2 => k11 (by omega) h2⟩
      · intro f hf
        have e1 := k9 f hf
        have e2 := htot f
        have e3 := key.2.1 f hf
        omega
      · intro N hN hall
        apply k10 N
        · rcases key.2.2 with h | h
          · rw [h]; exact hN
          · rw [h]
            rcases hm with ⟨c, hc, hcb⟩
            have := hall od c hc
            rw [hl.ord od c hc, hcb] at this
            exact this
        · intro j c hc
          exact hall j c ((hsub j).subset hc)
    · rw [if_neg hc]
      refine ⟨_, _, rfl, hl, hod, le_refl _, ha, rfl, rfl,
        fun j => List.Sublist.refl _, fun _ _ => le_refl _, fun N hN _ => hN, ?_⟩
      intro _ h2 h3
      exact hc ⟨h2, h3⟩

/-- Where no list holds two chunks with the same start, the cascade of the code
is the reference cascade. -/
theorem merge_all_eq_ref (MAX_ORDER : Nat) :
    ∀ (fuel : Nat) (cur : chunk) (s : buddy), ListsOk MAX_ORDER s →
      (∀ j, (flist s j).Pairwise fun c d => c.start ≠ d.start) →
      merge_all MAX_ORDER fuel cur s = merge_ref MAX_ORDER fuel cur s := by
  intro fuel
  induction fuel with
  | zero => intro cur s _ _; rfl
  | succ fuel ih =>
    intro cur s hl hu
    simp only [merge_all, merge_ref]
    by_cases hc : cur.order < MAX_ORDER ∧
        ∃ c ∈ flist s cur.order, c.start = buddy_start cur.start cur.order
    · rw [if_pos hc, if_pos hc,
        removeAll_eq_remove cur.order (buddy_start cur.start cur.order) hl (hu cur.order) hc.2]
      exact ih _ _ (listsOk_remove _ _ hl hc.2) (uniq_remove _ _ hu)
    · rw [if_neg hc, if_neg hc]

/-- On a state with consistent lists, `free_pages` of an aligned chunk returns,
and returns the state of the cascade `merge_all`. -/
theorem free_pages_eq_all (MAX_ORDER : Nat) (s : buddy) (page order : Nat)
    (hl : ListsOk MAX_ORDER s) (ho : order ≤ MAX_ORDER) (ha : page % 2 ^ order = 0) :
    free_pages MAX_ORDER s page order = some (free_pages_all MAX_ORDER s page order) := by
  have hm := free_merge_eq_all MAX_ORDER (NR_ORDERS MAX_ORDER) MAX_ORDER order page s hl ho
    (by unfold NR_ORDERS; omega) (by omega) ha
  obtain ⟨cur, t, k0, k1, k3, _, _, k6, k7, _, _, _, _⟩ :=
    merge_all_props MAX_ORDER MAX_ORDER order page s hl ho ha
  unfold free_pages free_pages_all
  simp only [hm, k0]
  have hi : cur.order < t.chunks.length := by
    rw [k1.len, NR_ORDERS]; omega
  rw [List.getElem?_eq_getElem hi]
  simp only [buddy.append, List.getElem?_eq_getElem hi, as_unsigned_natCast, allocated_setList,
    free_setList, k6, k7]

/-- On a state with consistent lists in which no list holds two chunks with the
same start, `free_pages` of an aligned chunk returns, and returns the state of
the reference cascade. -/
theorem free_pages_eq_ref (MAX_ORDER : Nat) (s : buddy) (page order : Nat)
    (hl : ListsOk MAX_ORDER s)
    (hu : ∀ j, (flist s j).Pairwise fun c d => c.start ≠ d.start)
    (ho : order ≤ MAX_ORDER) (ha : page % 2 ^ order = 0) :
    free_pages MAX_ORDER s page order = some (free_pages_ref MAX_ORDER s page order) := by
  rw [free_pages_eq_all MAX_ORDER s page order hl ho ha]
  unfold free_pages_all free_pages_ref
  rw [merge_all_eq_ref MAX_ORDER MAX_ORDER _ s hl hu]

/-! ## `alloc_pages` -/

theorem alloc_scan_spec (MAX_ORDER : Nat) (s : buddy) (hl : ListsOk MAX_ORDER s) (k : Nat)
    (hk : k ≤ MAX_ORDER) (hne : k < MAX_ORDER → flist s k ≠ []) :
    ∀ (fuel b : Nat), b ≤ k → MAX_ORDER - b ≤ fuel →
      (∀ j, b ≤ j → j < k → flist s j = []) →
      alloc_scan MAX_ORDER s fuel b = some k := by
  intro fuel
  induction fuel with
  | zero =>
    intro b hb hf _
    have : b = k := by omega
    subst this
    simp [alloc_scan, NR_ORDERS]
    omega
  | succ fuel ih =>
    intro b hb hf hempty
    simp only [alloc_scan, NR_ORDERS, Nat.add_sub_cancel]
    by_cases hbm : b < MAX_ORDER
    · rw [if_pos hbm]
      have hi : b < s.chunks.length := by rw [hl.len, NR_ORDERS]; omega
      have hcl : s.chunks[b]? = some s.chunks[b] := List.getElem?_eq_getElem hi
      rw [hcl]
      simp only
      have hcnt := hl.cnt b _ hcl
      have hfl : flist s b = s.chunks[b].freech := flist_of_some hcl
      by_cases hbk : b = k
      · subst hbk
        have h1 := hne hbm
        rw [hfl] at h1
        have : s.chunks[b].numofchunkinfreelist > 0 := by
          rw [hcnt]; exact List.length_pos.2 h1
        rw [if_pos this]
      · have h1 := hempty b (le_refl _) (by omega)
        rw [hfl] at h1
        have : ¬ s.chunks[b].numofchunkinfreelist > 0 := by
          rw [hcnt, h1]; simp
        rw [if_neg this]
        exact ih (b + 1) (by omega) (by omega) (fun j h1 h2 => hempty j (by omega) h2)
    · rw [if_neg hbm]
      have : b = k := by omega
      rw [this]

theorem alloc_split_spec (start hasbigchunk order : Nat) :
    ∀ (n fuel cntforsplit i : Nat) (s : buddy), n ≤ fuel →
      cntforsplit + n = hasbigchunk - order + 1 → i = order + n →
      order + n ≤ s.chunks.length →
      alloc_split start hasbigchunk order fuel cntforsplit i s =
        some (push_halves start order n s) := by
  intro n
  induction n with
  | zero =>
    intro fuel cnt i s _ hc _ _
    cases fuel <;> simp [alloc_split, push_halves, ← hc]
  | succ n ih =>
    intro fuel cnt i s hf hc hi hlen
    obtain ⟨fuel, rfl⟩ : ∃ k, fuel = k + 1 := ⟨fuel - 1, by omega⟩
    have hne : ¬ cnt = hasbigchunk - order + 1 := by omega
    have hi1 : i - 1 = order + n := by omega
    have hlt : order + n < s.chunks.length := by omega
    have hcl : s.chunks[order + n]? = some s.chunks[order + n] := List.getElem?_eq_getElem hlt
    simp only [alloc_split, if_neg hne, hi1, hcl, push_halves]
    have happ : s.append { start := start + 2 ^ (order + n), order := order + n } =
        s.setList (order + n)
          (s.chunks[order + n].push { start := start + 2 ^ (order + n), order := order + n }) := by
      simp only [buddy.append, hcl]
    rw [happ]
    exact ih fuel (cnt + 1) (order + n) _ (by omega) (by omega) rfl
      (by rw [length_setList]; omega)

theorem pop_eq (s : buddy) (k : Nat) (cl : chunk_list) (c : chunk) (rest : List chunk)
    (hcl : s.chunks[k]? = some cl) (hf : cl.freech = c :: rest) :
    s.setList k { cl with freech := rest,
                          numofchunkinfreelist := cl.numofchunkinfreelist - 1 } = s.pop k := by
  simp only [buddy.pop, hcl, hf, List.tail_cons]

/-- When the lists of the orders `order .. k - 1` are empty and the order-`k`
list is `c :: rest`, `alloc_pages` succeeds with the start of `c`: it takes `c` off
its list and appends the right halves to the lists below. -/
theorem alloc_pages_ok (MAX_ORDER : Nat) (s : buddy) (order k : Nat) (c : chunk)
    (rest : List chunk) (hl : ListsOk MAX_ORDER s) (hok : order ≤ k) (hk : k ≤ MAX_ORDER)
    (hempty : ∀ j, order ≤ j → j < k → flist s j = [])
    (hfl : flist s k = c :: rest) (hfree : order < k → s.free ≠ 0) :
    alloc_pages MAX_ORDER s order =
      some (alloc_done (push_halves c.start order (k - order) (s.pop k)) order c.start) := by
  have hik : k < s.chunks.length := by rw [hl.len, NR_ORDERS]; omega
  have hio : order < s.chunks.length := by omega
  have hclk : s.chunks[k]? = some s.chunks[k] := List.getElem?_eq_getElem hik
  have hclo : s.chunks[order]? = some s.chunks[order] := List.getElem?_eq_getElem hio
  have hfk : s.chunks[k].freech = c :: rest := by rw [← flist_of_some hclk]; exact hfl
  have hck : s.chunks[k].numofchunkinfreelist > 0 := by
    rw [hl.cnt k _ hclk, hfk]; simp
  have hcord : c.order = k := hl.ord k c (by rw [hfl]; simp)
  unfold alloc_pages
  have h1 : ¬ order > NR_ORDERS MAX_ORDER - 1 := by simp [NR_ORDERS]; omega
  rw [if_neg h1, hclo]
  simp only
  by_cases hko : k = order
  · subst hko
    rw [if_pos hck, hfk]
    simp only [pop_eq s k _ c rest hclk hfk, Nat.sub_self, push_halves]
  · have hlt : order < k := by omega
    have he := hempty order (le_refl _) hlt
    rw [flist_of_some hclo] at he
    have hc0 : ¬ s.chunks[order].numofchunkinfreelist > 0 := by
      rw [hl.cnt order _ hclo, he]; simp
    have h2 : ¬ order = NR_ORDERS MAX_ORDER - 1 := by simp [NR_ORDERS]; omega
    rw [if_neg hc0, if_neg h2]
    by_cases h3 : order + 1 = NR_ORDERS MAX_ORDER - 1
    · rw [if_pos h3]
      have hkm : k = MAX_ORDER := by
        simp only [NR_ORDERS, Nat.add_sub_cancel] at h3
        by_contra hne
        have := hempty (order + 1) (by omega) (by omega)
        have hk' : k = order + 1 := by omega
        omega
      have hmo : MAX_ORDER = order + 1 := by simp [NR_ORDERS] at h3; omega
      subst hkm
      simp only [NR_ORDERS, Nat.add_sub_cancel]
      rw [hclk]
      simp only
      rw [if_pos hck]
      have : s.chunks[order + 1]? = some s.chunks[k] := by
        rw [← hclk, hmo]
      rw [this]
      simp only [hfk, pop_eq s k _ c rest hclk hfk]
      have hio' : order < (s.pop k).chunks.length := by
        simp only [buddy.pop, hclk, length_setList]; exact hio
      rw [List.getElem?_eq_getElem hio']
      simp only
      have hn : k - order = 1 := by omega
      rw [hn]
      simp only [push_halves, Nat.add_zero, buddy.append, List.getElem?_eq_getElem hio']
      have e1 : 2 ^ c.order / 2 = 2 ^ order := by
        rw [hcord, hmo, pow_succ]; simp
      have e2 : c.order - 1 = order := by omega
      rw [e1, e2]
    · rw [if_neg h3]
      have hscan := alloc_scan_spec MAX_ORDER s hl k hk
        (fun _ => by rw [hfl]; simp) (NR_ORDERS MAX_ORDER) (order + 1) (by omega)
        (by simp [NR_ORDERS]; omega) (fun j h1 h2 => hempty j (by omega) h2)
      rw [hscan]
      simp only
      rw [if_neg (hfree hlt), hclk]
      simp only [hfk, pop_eq s k _ c rest hclk hfk]
      have hsp := alloc_split_spec c.start k order (k - order) (NR_ORDERS MAX_ORDER) 1 k
        (s.pop k) (by simp [NR_ORDERS]; omega) (by omega) (by omega)
        (by simp only [buddy.pop, hclk, length_setList]; omega)
      rw [hsp]

/-- When every list of the orders `order .. MAX_ORDER` is empty, `alloc_pages`
returns `ENOMEM` and leaves the state alone if `order + 1` is at least `MAX_ORDER`
or the counter `free` is 0; otherwise it takes the head of the empty top list. -/
theorem alloc_pages_empty (MAX_ORDER : Nat) (s : buddy) (order : Nat)
    (hl : ListsOk MAX_ORDER s) (ho : order ≤ MAX_ORDER)
    (hempty : ∀ j, order ≤ j → j ≤ MAX_ORDER → flist s j = []) :
    alloc_pages MAX_ORDER s order =
      if order + 1 < MAX_ORDER ∧ s.free ≠ 0 then none
      else some { ret := ENOMEM, page := none, st := s } := by
  have hio : order < s.chunks.length := by rw [hl.len, NR_ORDERS]; omega
  have him : MAX_ORDER < s.chunks.length := by rw [hl.len, NR_ORDERS]; omega
  have hclo : s.chunks[order]? = some s.chunks[order] := List.getElem?_eq_getElem hio
  have hclm : s.chunks[MAX_ORDER]? = some s.chunks[MAX_ORDER] := List.getElem?_eq_getElem him
  have hzero : ∀ j (cl : chunk_list), order ≤ j → j ≤ MAX_ORDER → s.chunks[j]? = some cl →
      cl.freech = [] ∧ ¬ cl.numofchunkinfreelist > 0 := by
    intro j cl h1 h2 hcl
    have := hempty j h1 h2
    rw [flist_of_some hcl] at this
    refine ⟨this, ?_⟩
    rw [hl.cnt j cl hcl, this]; simp
  unfold alloc_pages
  have h1 : ¬ order > NR_ORDERS MAX_ORDER - 1 := by simp [NR_ORDERS]; omega
  rw [if_neg h1, hclo]
  simp only
  rw [if_neg (hzero order _ (le_refl _) ho hclo).2]
  simp only [NR_ORDERS, Nat.add_sub_cancel]
  by_cases h2 : order = MAX_ORDER
  · rw [if_pos h2, if_neg (by omega)]
  · rw [if_neg h2]
    by_cases h3 : order + 1 = MAX_ORDER
    · rw [if_pos h3, hclm]
      simp only
      rw [if_neg (hzero MAX_ORDER _ ho (le_refl _) hclm).2, if_neg (by omega)]
    · rw [if_neg h3]
      have hscan := alloc_scan_spec MAX_ORDER s hl MAX_ORDER (le_refl _)
        (fun h => absurd h (lt_irrefl _)) (NR_ORDERS MAX_ORDER) (order + 1) (by omega)
        (by simp [NR_ORDERS]; omega) (fun j h1 h2 => hempty j (by omega) (by omega))
      simp only [NR_ORDERS] at hscan
      rw [hscan]
      simp only
      by_cases h4 : s.free = 0
      · rw [if_pos h4, if_neg (by simp [h4])]
      · rw [if_neg h4, hclm]
        simp only [(hzero MAX_ORDER _ ho (le_refl _) hclm).1]
        rw [if_pos ⟨by omega, h4⟩]

theorem le_total_of_mem (f : chunk → Nat) (s : buddy) (o : Nat) (c : chunk)
    (h : c ∈ flist s o) : f c ≤ total f s := by
  rw [total_eq_free_chunks]
  have hc : c ∈ free_chunks s := mem_free_chunks.2 ⟨o, h⟩
  exact List.single_le_sum (fun _ _ => Nat.zero_le _) _ (List.mem_map.2 ⟨c, hc, rfl⟩)

/-- A successful `alloc_pages` has taken the head of the first non-empty list at
or above `order`. -/
theorem alloc_pages_inv (MAX_ORDER : Nat) (s : buddy) (order page : Nat) (s1 : buddy)
    (hl : ListsOk MAX_ORDER s) (hfree : total chunk.pages s ≤ s.free)
    (h : alloc_pages MAX_ORDER s order = some { ret := 0, page := some page, st := s1 }) :
    ∃ (k : Nat) (c : chunk) (rest : List chunk), order ≤ k ∧ k ≤ MAX_ORDER ∧
      (∀ j, order ≤ j → j < k → flist s j = []) ∧ flist s k = c :: rest ∧
      page = c.start ∧
      s1 = (alloc_done (push_halves c.start order (k - order) (s.pop k)) order c.start).st := by
  by_cases ho : order ≤ MAX_ORDER
  · by_cases hex : ∃ k, order ≤ k ∧ k ≤ MAX_ORDER ∧ flist s k ≠ []
    · classical
      have hk := Nat.find_spec hex
      have hmin := fun m => @Nat.find_min _ _ hex m
      obtain ⟨c, rest, hcr⟩ := List.exists_cons_of_ne_nil hk.2.2
      have hempty : ∀ j, order ≤ j → j < Nat.find hex → flist s j = [] := by
        intro j h1 h2
        by_contra hne
        exact hmin j h2 ⟨h1, by omega, hne⟩
      have hfz : s.free ≠ 0 := by
        have := le_total_of_mem chunk.pages s (Nat.find hex) c (by rw [hcr]; simp)
        have hp : 0 < chunk.pages c := Nat.pos_pow_of_pos _ (by decide)
        omega
      have := alloc_pages_ok MAX_ORDER s order (Nat.find hex) c rest hl hk.1 hk.2.1 hempty hcr
        (fun _ => hfz)
      rw [this] at h
      simp only [alloc_done, Option.some.injEq, alloc_ret.mk.injEq, true_and] at h
      exact ⟨Nat.find hex, c, rest, hk.1, hk.2.1, hempty, hcr, h.1.symm, h.2.symm⟩
    · have hempty : ∀ j, order ≤ j → j ≤ MAX_ORDER → flist s j = [] := by
        intro j h1 h2
        by_contra hne
        exact hex ⟨j, h1, h2, hne⟩
      rw [alloc_pages_empty MAX_ORDER s order hl ho hempty] at h
      split_ifs at h
      simp [ENOMEM] at h
  · unfold alloc_pages at h
    rw [if_pos (by simp [NR_ORDERS]; omega)] at h
    simp [EINVAL] at h

/-! ## The effect of taking a head off and of putting right halves in -/

theorem flist_pop (s : buddy) (k j : Nat) :
    flist (s.pop k) j = if j = k then (flist s k).tail else flist s j := by
  unfold buddy.pop
  cases h : s.chunks[k]? with
  | none =>
    simp only
    split_ifs with hj
    · subst hj; simp [flist_of_none h]
    · rfl
  | some cl =>
    simp only
    split_ifs with hj
    · subst hj; rw [flist_setList_self s j _ cl h, flist_of_some h]
    · rw [flist_setList_ne s k j _ (Ne.symm hj)]

@[simp] theorem length_pop (s : buddy) (k : Nat) :
    (s.pop k).chunks.length = s.chunks.length := by
  unfold buddy.pop
  cases h : s.chunks[k]? <;> simp

@[simp] theorem allocated_pop (s : buddy) (k : Nat) : (s.pop k).allocated = s.allocated := by
  unfold buddy.pop
  cases h : s.chunks[k]? <;> simp

@[simp] theorem free_pop (s : buddy) (k : Nat) : (s.pop k).free = s.free := by
  unfold buddy.pop
  cases h : s.chunks[k]? <;> simp

theorem total_pop (f : chunk → Nat) (s : buddy) (k : Nat) (c : chunk) (rest : List chunk)
    (h : flist s k = c :: rest) : total f (s.pop k) + f c = total f s := by
  unfold buddy.pop
  cases hcl : s.chunks[k]? with
  | none => rw [flist_of_none hcl] at h; simp at h
  | some cl =>
    simp only
    rw [flist_of_some hcl] at h
    have h1 := total_setList f s k
      { cl with freech := cl.freech.tail,
                numofchunkinfreelist := cl.numofchunkinfreelist - 1 } cl hcl
    simp only [h, List.tail_cons, List.map_cons, List.sum_cons] at h1 ⊢
    omega

theorem listsOk_pop {MAX_ORDER : Nat} {s : buddy} (k : Nat) (c : chunk) (rest : List chunk)
    (h : ListsOk MAX_ORDER s) (hf : flist s k = c :: rest) : ListsOk MAX_ORDER (s.pop k) := by
  have hmem : ∀ j, ∀ d ∈ flist (s.pop k) j, d ∈ flist s j := by
    intro j d hd
    rw [flist_pop] at hd
    split_ifs at hd with hj
    · subst hj; exact List.mem_of_mem_tail hd
    · exact hd
  refine ⟨by simp [h.len], ?_, fun j d hd => h.ord j d (hmem j d hd),
    fun j d hd => h.align j d (hmem j d hd)⟩
  intro j cl hcl
  unfold buddy.pop at hcl
  cases h0 : s.chunks[k]? with
  | none => rw [flist_of_none h0] at hf; simp at hf
  | some cl0 =>
    rw [h0] at hcl
    simp only at hcl
    by_cases hj : k = j
    · subst hj
      rw [chunks_setList_self s k _ cl0 h0] at hcl
      cases hcl
      rw [flist_of_some h0] at hf
      simp [hf, h.cnt k cl0 h0]
    · rw [chunks_setList_ne s k j _ hj] at hcl
      exact h.cnt j cl hcl

theorem push_halves_props (start order : Nat) :
    ∀ (n : Nat) (s : buddy), order + n ≤ s.chunks.length →
      (push_halves start order n s).chunks.length = s.chunks.length ∧
      (push_halves start order n s).allocated = s.allocated ∧
      (push_halves start order n s).free = s.free ∧
      (∀ j, flist (push_halves start order n s) j =
        if order ≤ j ∧ j < order + n then flist s j ++ [{ start := start + 2 ^ j, order := j }]
        else flist s j) ∧
      (∀ f, SplitAdditive f →
        total f (push_halves start order n s) + f { start := start, order := order } =
          total f s + f { start := start, order := order + n }) := by
  intro n
  induction n with
  | zero =>
    intro s _
    simp only [push_halves, Nat.add_zero, true_and]
    refine ⟨fun j => ?_, fun _ _ => trivial⟩
    rw [if_neg (by omega)]
  | succ n ih =>
    intro s hlen
    have hlt : order + n < s.chunks.length := by omega
    obtain ⟨k1, k2, k3, k4, k5⟩ := ih (s.append { start := start + 2 ^ (order + n), order := order + n })
      (by rw [length_append]; omega)
    simp only [push_halves]
    refine ⟨by rw [k1, length_append], by rw [k2, allocated_append], by rw [k3, free_append],
      ?_, ?_⟩
    · intro j
      rw [k4 j, flist_append s _ j hlt]
      simp only
      by_cases hj : j = order + n
      · subst hj
        rw [if_neg (by omega), if_pos rfl, if_pos ⟨by omega, by omega⟩]
      · rw [if_neg hj]
        by_cases h2 : order ≤ j ∧ j < order + n
        · rw [if_pos h2, if_pos ⟨h2.1, by omega⟩]
        · rw [if_neg h2, if_neg (by omega)]
    · intro f hf
      have e1 := k5 f hf
      have e2 := total_append f s { start := start + 2 ^ (order + n), order := order + n } hlt
      have e3 := hf start (order + n)
      rw [← Nat.add_assoc]
      omega

theorem listsOk_push_halves {MAX_ORDER : Nat} (start order : Nat) :
    ∀ (n : Nat) (s : buddy), ListsOk MAX_ORDER s → order + n ≤ MAX_ORDER + 1 →
      start % 2 ^ (order + n) = 0 → ListsOk MAX_ORDER (push_halves start order n s) := by
  intro n
  induction n with
  | zero => intro s h _ _; exact h
  | succ n ih =>
    intro s h hn ha
    simp only [push_halves]
    have hd : start % 2 ^ (order + n) = 0 := by
      have : 2 ^ (order + n) ∣ 2 ^ (order + (n + 1)) := pow_dvd_pow 2 (by omega)
      exact Nat.eq_zero_of_dvd_of_lt
        (by
          have h1 : 2 ^ (order + n) ∣ start :=
            this.trans (Nat.dvd_of_mod_eq_zero ha)
          exact (Nat.dvd_mod_iff (dvd_refl _)).2 h1)
        (Nat.mod_lt _ (Nat.pos_pow_of_pos _ (by decide)))
    refine ih _ (listsOk_append _ h (by simp only; omega) ?_) (by omega) hd
    simp only
    rw [Nat.add_mod, hd, Nat.mod_self]
    simp

/-! ## Measures of chunks and the buddy address -/

theorem splitAdditive_pages : SplitAdditive chunk.pages := by
  intro start order
  simp only [chunk.pages, pow_succ]
  omega

theorem splitAdditive_cover (x : Nat) : SplitAdditive (chunk.cover x) := by
  intro start order
  simp only [chunk.cover, pow_succ]
  split_ifs <;> omega

theorem cover_eq_one {x : Nat} {c : chunk} (h1 : c.start ≤ x) (h2 : x < c.start + 2 ^ c.order) :
    chunk.cover x c = 1 := by
  simp [chunk.cover, h1, h2]

theorem cover_start (c : chunk) : chunk.cover c.start c = 1 :=
  cover_eq_one (le_refl _) (Nat.lt_add_of_pos_right (Nat.pos_pow_of_pos _ (by decide)))

theorem pairwise_of_cover_le_one (l : List chunk)
    (h : ∀ x, (l.map (chunk.cover x)).sum ≤ 1) : l.Pairwise chunk.Disjoint := by
  induction l with
  | nil => exact List.Pairwise.nil
  | cons c l ih =>
    rw [List.pairwise_cons]
    constructor
    · intro d hd
      by_contra hnd
      simp only [chunk.Disjoint, not_or, not_le] at hnd
      have hx := h (max c.start d.start)
      simp only [List.map_cons, List.sum_cons] at hx
      have hc : chunk.cover (max c.start d.start) c = 1 :=
        cover_eq_one (le_max_left _ _) (by
          rcases le_total c.start d.start with h1 | h1
          · rw [max_eq_right h1]; exact hnd.1
          · rw [max_eq_left h1]; exact Nat.lt_add_of_pos_right (Nat.pos_pow_of_pos _ (by decide)))
      have hdd : chunk.cover (max c.start d.start) d = 1 :=
        cover_eq_one (le_max_right _ _) (by
          rcases le_total c.start d.start with h1 | h1
          · rw [max_eq_right h1]; exact Nat.lt_add_of_pos_right (Nat.pos_pow_of_pos _ (by decide))
          · rw [max_eq_left h1]; exact hnd.2)
      have hle : chunk.cover (max c.start d.start) d ≤
          (l.map (chunk.cover (max c.start d.start))).sum :=
        List.single_le_sum (fun _ _ => Nat.zero_le _) _ (List.mem_map.2 ⟨d, hd, rfl⟩)
      omega
    · apply ih
      intro x
      have hx := h x
      simp only [List.map_cons, List.sum_cons] at hx
      omega

theorem inside_of_cover (l : List chunk) (N : Nat)
    (h : ∀ x, (l.map (chunk.cover x)).sum ≤ if x < N then 1 else 0) :
    ∀ c ∈ l, c.start + 2 ^ c.order ≤ N := by
  intro c hc
  have hp : 0 < 2 ^ c.order := Nat.pos_pow_of_pos _ (by decide)
  have hx := h (c.start + 2 ^ c.order - 1)
  have h1 : chunk.cover (c.start + 2 ^ c.order - 1) c = 1 :=
    cover_eq_one (by omega) (by omega)
  have hle : chunk.cover (c.start + 2 ^ c.order - 1) c ≤
      (l.map (chunk.cover (c.start + 2 ^ c.order - 1))).sum :=
    List.single_le_sum (fun _ _ => Nat.zero_le _) _ (List.mem_map.2 ⟨c, hc, rfl⟩)
  split_ifs at hx with hlt
  · omega
  · omega

theorem disjoint_start_ne {c d : chunk} (h : chunk.Disjoint c d) : c.start ≠ d.start := by
  intro he
  have hp : 0 < 2 ^ c.order := Nat.pos_pow_of_pos _ (by decide)
  have hq : 0 < 2 ^ d.order := Nat.pos_pow_of_pos _ (by decide)
  rcases h with h | h <;> omega

theorem buddy_start_ne (x j : Nat) : buddy_start x j ≠ x := by
  have hp : 0 < 2 ^ j := Nat.pos_pow_of_pos _ (by decide)
  unfold buddy_start
  split_ifs with h
  · omega
  · have : 2 ^ j ≤ x := by
      by_contra hlt
      have : x / 2 ^ j = 0 := Nat.div_eq_of_lt (by omega)
      rw [this] at h
      simp at h
    omega

theorem buddy_start_invol (x j : Nat) : buddy_start (buddy_start x j) j = x := by
  have hp : 0 < 2 ^ j := Nat.pos_pow_of_pos _ (by decide)
  by_cases h : (x / 2 ^ j) % 2 = 0
  · have h1 : buddy_start x j = x + 2 ^ j := by simp [buddy_start, h]
    have h2 : (x + 2 ^ j) / 2 ^ j = x / 2 ^ j + 1 := Nat.add_div_right x hp
    have h3 : ¬ ((x + 2 ^ j) / 2 ^ j) % 2 = 0 := by rw [h2]; omega
    rw [h1]
    simp only [buddy_start, h3, if_false]
    omega
  · have hle : 2 ^ j ≤ x := by
      by_contra hlt
      have : x / 2 ^ j = 0 := Nat.div_eq_of_lt (by omega)
      rw [this] at h
      simp at h
    have h1 : buddy_start x j = x - 2 ^ j := by simp [buddy_start, h]
    have h2 : (x - 2 ^ j + 2 ^ j) / 2 ^ j = (x - 2 ^ j) / 2 ^ j + 1 :=
      Nat.add_div_right (x - 2 ^ j) hp
    have h4 : x - 2 ^ j + 2 ^ j = x := by omega
    rw [h4] at h2
    have h3 : ((x - 2 ^ j) / 2 ^ j) % 2 = 0 := by omega
    rw [h1]
    simp only [buddy_start, h3, if_true]
    omega

/-- Flipping bit `j` of `x` is the exclusive or with `2 ^ j`. -/
theorem buddy_start_eq_xor (j : Nat) : ∀ x : Nat, buddy_start x j = x ^^^ 2 ^ j := by
  induction j with
  | zero =>
    intro x
    have h := Nat.div_add_mod (x ^^^ 2 ^ 0) 2
    rw [Nat.xor_div_two, Nat.xor_mod_two_eq] at h
    simp only [pow_zero, Nat.reduceDiv, Nat.xor_zero] at h
    simp only [buddy_start, pow_zero, Nat.div_one]
    split_ifs <;> omega
  | succ j ih =>
    intro x
    have hp : 0 < 2 ^ j := Nat.pos_pow_of_pos _ (by decide)
    have h := Nat.div_add_mod (x ^^^ 2 ^ (j + 1)) 2
    have hd : 2 ^ (j + 1) / 2 = 2 ^ j := by rw [pow_succ]; simp
    have hm : (x + 2 ^ (j + 1)) % 2 = x % 2 := by rw [pow_succ]; omega
    rw [Nat.xor_div_two, Nat.xor_mod_two_eq, hd, hm, ← ih (x / 2)] at h
    have hq : x / 2 ^ (j + 1) = x / 2 / 2 ^ j := by
      rw [pow_succ, Nat.mul_comm, Nat.div_div_eq_div_mul]
    rw [← h]
    simp only [buddy_start, hq]
    have h2 : 2 ^ (j + 1) = 2 * 2 ^ j := by rw [pow_succ]; omega
    split_ifs with hc
    · omega
    · have hle : 2 ^ j ≤ x / 2 := by
        by_contra hlt
        have : x / 2 / 2 ^ j = 0 := Nat.div_eq_of_lt (by omega)
        rw [this] at hc
        simp at hc
      omega

/-! ## The invariant of the reachable states -/

theorem flist_congr {s t : buddy} (h : s.chunks = t.chunks) (j : Nat) : flist s j = flist t j := by
  simp [flist, h]

theorem total_congr {s t : buddy} (h : s.chunks = t.chunks) (f : chunk → Nat) :
    total f s = total f t := by
  simp [total, h]

theorem listsOk_congr {MAX_ORDER : Nat} {s t : buddy} (h : s.chunks = t.chunks)
    (hs : ListsOk MAX_ORDER s) : ListsOk MAX_ORDER t :=
  ⟨h ▸ hs.len, fun o cl hcl => hs.cnt o cl (h ▸ hcl),
    fun o c hc => hs.ord o c (by rw [flist_congr h]; exact hc),
    fun o c hc => hs.align o c (by rw [flist_congr h]; exact hc)⟩

theorem free_disjoint_of_tiling {s : buddy} {out : List chunk} {N : Nat}
    (h : ∀ x, total (chunk.cover x) s + (out.map (chunk.cover x)).sum = if x < N then 1 else 0) :
    (free_chunks s ++ out).Pairwise chunk.Disjoint := by
  apply pairwise_of_cover_le_one
  intro x
  have := h x
  rw [total_eq_free_chunks] at this
  rw [List.map_append, List.sum_append, this]
  split_ifs <;> omega

theorem uniq_of_tiling {s : buddy} {out : List chunk} {N : Nat}
    (h : ∀ x, total (chunk.cover x) s + (out.map (chunk.cover x)).sum = if x < N then 1 else 0) :
    ∀ j, (flist s j).Pairwise fun c d => c.start ≠ d.start := by
  intro j
  have h1 := (List.pairwise_append.1 (free_disjoint_of_tiling h)).1
  exact (h1.sublist (flist_sublist s j)).imp fun hd => disjoint_start_ne hd

theorem mod_pow_of_le {x a b : Nat} (hab : a ≤ b) (h : x % 2 ^ b = 0) : x % 2 ^ a = 0 := by
  have h1 : 2 ^ a ∣ 2 ^ b := pow_dvd_pow 2 hab
  exact Nat.mod_eq_zero_of_dvd (h1.trans (Nat.dvd_of_mod_eq_zero h))

theorem inv_alloc {MAX_ORDER nr : Nat} {s : buddy} {out : List chunk} {order page : Nat}
    {s1 : buddy} (hi : Inv MAX_ORDER nr s out)
    (h : alloc_pages MAX_ORDER s order = some { ret := 0, page := some page, st := s1 }) :
    Inv MAX_ORDER nr s1 ({ start := page, order := order } :: out) ∧
      s1.allocated + s1.free = s.allocated + s.free := by
  obtain ⟨k, c, rest, hok, hk, hempty, hfl, hp, hs1⟩ :=
    alloc_pages_inv MAX_ORDER s order page s1 hi.lists (le_of_eq hi.free_eq.symm) h
  have hcord : c.order = k := hi.lists.ord k c (by rw [hfl]; simp)
  have hcal : c.start % 2 ^ k = 0 := hi.lists.align k c (by rw [hfl]; simp)
  have hc : c = { start := c.start, order := order + (k - order) } := by
    cases c; simp at hcord ⊢; omega
  have hlen : order + (k - order) ≤ (s.pop k).chunks.length := by
    rw [length_pop, hi.lists.len, NR_ORDERS]; omega
  obtain ⟨p1, p2, p3, p4, p5⟩ := push_halves_props c.start order (k - order) (s.pop k) hlen
  have hchunks : s1.chunks = (push_halves c.start order (k - order) (s.pop k)).chunks := by
    rw [hs1]; rfl
  have hlists : ListsOk MAX_ORDER s1 :=
    listsOk_congr hchunks.symm
      (listsOk_push_halves c.start order (k - order) _ (listsOk_pop k c rest hi.lists hfl)
        (by omega) (by rw [show order + (k - order) = k by omega]; exact hcal))
  have hmeasure : ∀ f, SplitAdditive f →
      total f s1 + f { start := page, order := order } = total f s := by
    intro f hf
    rw [total_congr hchunks, hp]
    have e1 := p5 f hf
    have e2 := total_pop f s k c rest hfl
    rw [← hc] at e1
    omega
  have hpages := hmeasure chunk.pages splitAdditive_pages
  have hflist : ∀ j, flist s1 j =
      if order ≤ j ∧ j < k then [{ start := c.start + 2 ^ j, order := j }]
      else if j = k then rest else flist s j := by
    intro j
    rw [flist_congr hchunks, p4 j, flist_pop]
    by_cases h1 : order ≤ j ∧ j < k
    · rw [if_pos ⟨h1.1, by omega⟩, if_pos h1, if_neg (by omega), hempty j h1.1 h1.2]
      rfl
    · rw [if_neg (by omega), if_neg h1]
      split_ifs with h2
      · subst h2; rw [hfl]; rfl
      · rfl
  have hal : s1.allocated = s.allocated + 2 ^ order := by
    rw [hs1]; simp only [alloc_done, p2, allocated_pop]
  have hfr : s1.free = s.free - 2 ^ order := by
    rw [hs1]; simp only [alloc_done, p3, free_pop]
  have hfge : 2 ^ order ≤ s.free := by
    rw [hi.free_eq]
    simp only [chunk.pages] at hpages
    omega
  refine ⟨⟨hlists, ?_, ?_, ?_, ?_, ?_⟩, by omega⟩
  · intro x
    have e1 := hmeasure (chunk.cover x) (splitAdditive_cover x)
    have e2 := hi.tiling x
    simp only [List.map_cons, List.sum_cons]
    omega
  · intro o ho a ha b hb
    rw [hflist o] at ha hb
    by_cases h1 : order ≤ o ∧ o < k
    · rw [if_pos h1] at ha hb
      simp only [List.mem_singleton] at ha hb
      rw [ha, hb]
      exact (buddy_start_ne _ _).symm
    · rw [if_neg h1] at ha hb
      by_cases h2 : o = k
      · rw [if_pos h2] at ha hb
        subst h2
        exact hi.no_pairs o ho a (by rw [hfl]; exact List.mem_cons_of_mem _ ha) b
          (by rw [hfl]; exact List.mem_cons_of_mem _ hb)
      · rw [if_neg h2] at ha hb
        exact hi.no_pairs o ho a ha b hb
  · rw [hfr, hi.free_eq]
    simp only [chunk.pages] at hpages
    omega
  · rw [hal, hi.alloc_eq]
    simp only [List.map_cons, List.sum_cons, chunk.pages]
    omega
  · intro d hd
    rcases List.mem_cons.1 hd with hd | hd
    · subst hd
      simp only
      exact ⟨by omega, by rw [hp]; exact mod_pow_of_le hok hcal⟩
    · exact hi.out_ok d hd

theorem inv_free {MAX_ORDER nr : Nat} {s : buddy} {out : List chunk} {page order : Nat}
    (hi : Inv MAX_ORDER nr s out) (hmem : { start := page, order := order } ∈ out) :
    free_pages MAX_ORDER s page order = some (free_pages_ref MAX_ORDER s page order) ∧
    Inv MAX_ORDER nr (free_pages_ref MAX_ORDER s page order)
      (out.erase { start := page, order := order }) ∧
    (free_pages_ref MAX_ORDER s page order).allocated +
      (free_pages_ref MAX_ORDER s page order).free = s.allocated + s.free := by
  obtain ⟨ho, ha⟩ := hi.out_ok _ hmem
  simp only at ho ha
  have hu := uniq_of_tiling hi.tiling
  obtain ⟨k1, k2, k3, k4, k5, k6, k7, k8, k9, k10⟩ :=
    merge_ref_props MAX_ORDER MAX_ORDER order page s hi.lists hu ho ha
  have hchunks : (free_pages_ref MAX_ORDER s page order).chunks =
      ((merge_ref MAX_ORDER MAX_ORDER { start := page, order := order } s).2.append
        (merge_ref MAX_ORDER MAX_ORDER { start := page, order := order } s).1).chunks := rfl
  have hlt : (merge_ref MAX_ORDER MAX_ORDER { start := page, order := order } s).1.order <
      (merge_ref MAX_ORDER MAX_ORDER { start := page, order := order } s).2.chunks.length := by
    rw [k1.len, NR_ORDERS]; omega
  have hmeasure : ∀ f, SplitAdditive f →
      total f (free_pages_ref MAX_ORDER s page order) =
        total f s + f { start := page, order := order } := by
    intro f hf
    rw [total_congr hchunks, total_append f _ _ hlt]
    exact k9 f hf
  have hsum : ∀ f : chunk → Nat,
      f { start := page, order := order } +
        ((out.erase { start := page, order := order }).map f).sum = (out.map f).sum :=
    fun f => List.sum_map_erase f hmem
  have hpages := hmeasure chunk.pages splitAdditive_pages
  have hal : (free_pages_ref MAX_ORDER s page order).allocated = s.allocated - 2 ^ order := rfl
  have hfr : (free_pages_ref MAX_ORDER s page order).free = s.free + 2 ^ order := rfl
  have hage : 2 ^ order ≤ s.allocated := by
    rw [hi.alloc_eq]
    have := hsum chunk.pages
    simp only [chunk.pages] at this
    omega
  refine ⟨free_pages_eq_ref MAX_ORDER s page order hi.lists hu ho ha,
    ⟨listsOk_congr hchunks.symm (listsOk_append _ k1 k3 k5), ?_, ?_, ?_, ?_, ?_⟩, by omega⟩
  · intro x
    have e1 := hmeasure (chunk.cover x) (splitAdditive_cover x)
    have e2 := hi.tiling x
    have e3 := hsum (chunk.cover x)
    omega
  · intro o ho1 a ha1 b hb1
    rw [flist_congr hchunks, flist_append _ _ _ hlt] at ha1 hb1
    have hold : ∀ c, c ∈ flist (merge_ref MAX_ORDER MAX_ORDER
        { start := page, order := order } s).2 o → c ∈ flist s o :=
      fun c hc => (k8 o).subset hc
    by_cases h1 : o = (merge_ref MAX_ORDER MAX_ORDER { start := page, order := order } s).1.order
    · rw [if_pos h1] at ha1 hb1
      have hno := k10 (by omega) (h1 ▸ ho1)
      rw [← h1] at hno
      rcases List.mem_append.1 ha1 with ha2 | ha2
      · rcases List.mem_append.1 hb1 with hb2 | hb2
        · exact hi.no_pairs o ho1 a (hold a ha2) b (hold b hb2)
        · simp only [List.mem_singleton] at hb2
          intro he
          apply hno
          refine ⟨a, ha2, ?_⟩
          rw [← hb2, he, buddy_start_invol]
      · simp only [List.mem_singleton] at ha2
        rcases List.mem_append.1 hb1 with hb2 | hb2
        · intro he
          apply hno
          exact ⟨b, hb2, by rw [he, ha2]⟩
        · simp only [List.mem_singleton] at hb2
          rw [ha2, hb2]
          exact (buddy_start_ne _ _).symm
    · rw [if_neg h1] at ha1 hb1
      exact hi.no_pairs o ho1 a (hold a ha1) b (hold b hb1)
  · rw [hfr, hpages, hi.free_eq]
    rfl
  · rw [hal, hi.alloc_eq]
    have := hsum chunk.pages
    simp only [chunk.pages] at this ⊢
    omega
  · intro d hd
    exact hi.out_ok d (List.mem_of_mem_erase hd)

/-! ## `init_buddy` -/

theorem init_seed_spec (MAX_ORDER nr : Nat) :
    ∀ (n fuel a : Nat) (cl : chunk_list), n ≤ fuel →
      (∀ x : Nat, a ≤ x →
        ((x : Int) < wrap_int (2 ^ (nr - NR_ORDERS MAX_ORDER + 1)) ↔ x < a + n)) →
      init_seed MAX_ORDER nr fuel a cl =
        some { order := cl.order,
               numofchunkinfreelist := cl.numofchunkinfreelist + n,
               freech := cl.freech ++ (List.range' a n).map fun a : Nat =>
                 { start := seed_add32 MAX_ORDER nr (a : Int),
                   order := NR_ORDERS MAX_ORDER - 1 } } := by
  intro n
  induction n with
  | zero =>
    intro fuel a cl _ ha
    have hlt : ¬ (a : Int) < wrap_int (2 ^ (nr - NR_ORDERS MAX_ORDER + 1)) := by
      rw [ha a (le_refl _)]; omega
    cases fuel <;> simp [init_seed, hlt]
  | succ n ih =>
    intro fuel a cl hf ha
    obtain ⟨fuel, rfl⟩ : ∃ k, fuel = k + 1 := ⟨fuel - 1, by omega⟩
    have hlt : (a : Int) < wrap_int (2 ^ (nr - NR_ORDERS MAX_ORDER + 1)) :=
      (ha a (le_refl _)).2 (by omega)
    simp only [init_seed, if_pos hlt]
    rw [ih fuel (a + 1) _ (by omega) (fun x hx => by rw [ha x (by omega)]; omega)]
    simp only [chunk_list.push, List.range'_succ, List.map_cons, List.append_assoc,
      List.singleton_append, Option.some.injEq, chunk_list.mk.injEq, true_and, and_true]
    omega

theorem seed_start (MAX_ORDER nr a : Nat) (h : MAX_ORDER < nr) :
    a * 2 ^ (nr - 1) / 2 ^ (nr - NR_ORDERS MAX_ORDER) = a * 2 ^ MAX_ORDER := by
  have h1 : nr - 1 = MAX_ORDER + (nr - NR_ORDERS MAX_ORDER) := by
    simp only [NR_ORDERS]; omega
  rw [h1, pow_add, ← Nat.mul_assoc]
  exact Nat.mul_div_cancel _ (Nat.pos_pow_of_pos _ (by decide))

theorem wrap_int_of_lt {x : Int} (h0 : 0 ≤ x) (h1 : x < 2 ^ 31) : wrap_int x = x := by
  unfold wrap_int
  rw [Int.emod_eq_of_lt (by omega) (by omega)]
  omega

/-- While the product `a * 2^(nr - 1)` stays below `2^31`, line 500 computes
`a * 2^MAX_ORDER` in 32-bit arithmetic as well. -/
theorem seed_add32_small (MAX_ORDER nr a : Nat) (h : MAX_ORDER < nr)
    (hsmall : a * 2 ^ (nr - 1) < 2 ^ 31) (ha : 1 ≤ a) :
    seed_add32 MAX_ORDER nr (a : Int) = a * 2 ^ MAX_ORDER := by
  have hp1 : 0 < 2 ^ (nr - 1) := Nat.pos_pow_of_pos _ (by decide)
  have hpow1 : 2 ^ (nr - 1) < 2 ^ 31 := by
    calc 2 ^ (nr - 1) = 1 * 2 ^ (nr - 1) := by ring
      _ ≤ a * 2 ^ (nr - 1) := Nat.mul_le_mul_right _ ha
      _ < 2 ^ 31 := hsmall
  have hle : 2 ^ (nr - NR_ORDERS MAX_ORDER) ≤ 2 ^ (nr - 1) :=
    Nat.pow_le_pow_right (by decide) (by simp only [NR_ORDERS]; omega)
  have hseed := seed_start MAX_ORDER nr a h
  have hres : a * 2 ^ MAX_ORDER < 2 ^ 31 := by
    rw [← hseed]
    exact lt_of_le_of_lt (Nat.div_le_self _ _) hsmall
  have e1 : wrap_int (2 ^ (nr - 1)) = ((2 ^ (nr - 1) : Nat) : Int) := by
    rw [wrap_int_of_lt (by positivity) (by exact_mod_cast hpow1)]
    push_cast
    rfl
  have e2 : wrap_int (2 ^ (nr - NR_ORDERS MAX_ORDER)) =
      ((2 ^ (nr - NR_ORDERS MAX_ORDER) : Nat) : Int) := by
    rw [wrap_int_of_lt (by positivity) (by exact_mod_cast lt_of_le_of_lt hle hpow1)]
    push_cast
    rfl
  have e3 : wrap_int ((a : Int) * ((2 ^ (nr - 1) : Nat) : Int)) =
      ((a * 2 ^ (nr - 1) : Nat) : Int) := by
    rw [wrap_int_of_lt (by positivity) (by exact_mod_cast hsmall)]
    push_cast
    rfl
  unfold seed_add32 to_unsigned
  rw [e1, e2, e3, ← Int.ofNat_tdiv, hseed,
    Int.emod_eq_of_lt (by positivity) (by
      have : ((a * 2 ^ MAX_ORDER : Nat) : Int) < 2 ^ 31 := by exact_mod_cast hres
      omega)]
  exact Int.toNat_ofNat _

theorem wrap_int_le {x : Int} (h0 : 0 ≤ x) : wrap_int x ≤ x := by
  unfold wrap_int
  omega

theorem wrap_int_pow (k : Nat) (hk : k ≤ 30) : wrap_int (2 ^ k) = 2 ^ k := by
  have h1 : (2 : Int) ^ k ≤ 2 ^ 30 := by
    exact_mod_cast Nat.pow_le_pow_right (by decide) hk
  exact wrap_int_of_lt (by positivity) (by omega)

theorem seed_add32_zero (MAX_ORDER nr : Nat) : seed_add32 MAX_ORDER nr 0 = 0 := by
  simp [seed_add32, wrap_int, to_unsigned]

theorem seed_add32_lt (MAX_ORDER nr : Nat) (a : Int) : seed_add32 MAX_ORDER nr a < 2 ^ 32 := by
  unfold seed_add32 to_unsigned
  have := Int.emod_lt_of_pos (Int.tdiv (wrap_int (a * wrap_int (2 ^ (nr - 1))))
    (wrap_int (2 ^ (nr - NR_ORDERS MAX_ORDER)))) (b := 2 ^ 32) (by norm_num)
  have h0 := Int.emod_nonneg (Int.tdiv (wrap_int (a * wrap_int (2 ^ (nr - 1))))
    (wrap_int (2 ^ (nr - NR_ORDERS MAX_ORDER)))) (b := 2 ^ 32) (by norm_num)
  omega

/-- The value of line 500 is a multiple of `2^MAX_ORDER`, with or without
overflow of the product. -/
theorem seed_add32_aligned (MAX_ORDER nr : Nat) (a : Int) (h : MAX_ORDER < nr) (hnr : nr < 32) :
    seed_add32 MAX_ORDER nr a % 2 ^ MAX_ORDER = 0 := by
  have hE : nr - 1 = MAX_ORDER + (nr - NR_ORDERS MAX_ORDER) := by
    simp only [NR_ORDERS]; omega
  have e1 : wrap_int (2 ^ (nr - 1)) = 2 ^ (nr - 1) := wrap_int_pow _ (by omega)
  have e2 : wrap_int (2 ^ (nr - NR_ORDERS MAX_ORDER)) = 2 ^ (nr - NR_ORDERS MAX_ORDER) :=
    wrap_int_pow _ (by simp only [NR_ORDERS]; omega)
  have hd32 : (2 : Int) ^ (nr - 1) ∣ 2 ^ 32 := pow_dvd_pow 2 (by omega)
  have hdX : (2 : Int) ^ (nr - 1) ∣ wrap_int (a * 2 ^ (nr - 1)) := by
    unfold wrap_int
    rw [Int.emod_def]
    have h1 : (2 : Int) ^ (nr - 1) ∣ a * 2 ^ (nr - 1) := Dvd.intro_left a rfl
    have h2 : (2 : Int) ^ (nr - 1) ∣ 2 ^ 32 * ((a * 2 ^ (nr - 1) + 2 ^ 31) / 2 ^ 32) :=
      Dvd.dvd.mul_right hd32 _
    have : a * 2 ^ (nr - 1) + 2 ^ 31 - 2 ^ 32 * ((a * 2 ^ (nr - 1) + 2 ^ 31) / 2 ^ 32) - 2 ^ 31 =
        a * 2 ^ (nr - 1) - 2 ^ 32 * ((a * 2 ^ (nr - 1) + 2 ^ 31) / 2 ^ 32) := by ring
    rw [this]
    exact Int.dvd_sub h1 h2
  obtain ⟨Y, hY⟩ := hdX
  have hZ : Int.tdiv (wrap_int (a * 2 ^ (nr - 1))) (2 ^ (nr - NR_ORDERS MAX_ORDER)) =
      2 ^ MAX_ORDER * Y := by
    rw [hY, hE, pow_add]
    have : (2 : Int) ^ MAX_ORDER * 2 ^ (nr - NR_ORDERS MAX_ORDER) * Y =
        2 ^ (nr - NR_ORDERS MAX_ORDER) * (2 ^ MAX_ORDER * Y) := by ring
    rw [this]
    exact Int.mul_tdiv_cancel_left _ (by positivity)
  unfold seed_add32 to_unsigned
  rw [e1, e2, hZ]
  have hM32 : (2 : Int) ^ MAX_ORDER ∣ 2 ^ 32 := pow_dvd_pow 2 (by omega)
  have hdvd : (2 : Int) ^ MAX_ORDER ∣ (2 ^ MAX_ORDER * Y) % 2 ^ 32 := by
    rw [Int.emod_def]
    exact Int.dvd_sub (Dvd.intro _ rfl) (Dvd.dvd.mul_right hM32 _)
  have hnn : 0 ≤ (2 ^ MAX_ORDER * Y) % 2 ^ 32 := Int.emod_nonneg _ (by norm_num)
  rw [← Int.toNat_of_nonneg hnn] at hdvd
  have h2 : ((2 ^ MAX_ORDER : Nat) : Int) ∣ (((2 ^ MAX_ORDER * Y) % 2 ^ 32).toNat : Int) := by
    push_cast
    exact hdvd
  exact Nat.mod_eq_zero_of_dvd (Int.ofNat_dvd.1 h2)

theorem free_init (nr : Nat) (hnr : nr < 32) : to_unsigned (wrap_int (2 ^ nr)) = 2 ^ nr := by
  rcases Nat.lt_or_ge nr 31 with h | h
  · rw [wrap_int_pow nr (by omega)]
    unfold to_unsigned
    have h1 : (2 : Int) ^ nr ≤ 2 ^ 30 := by
      exact_mod_cast Nat.pow_le_pow_right (by decide) (show nr ≤ 30 by omega)
    rw [Int.emod_eq_of_lt (by positivity) (by omega)]
    have : ((2 : Int) ^ nr) = ((2 ^ nr : Nat) : Int) := by push_cast; rfl
    rw [this]
    exact Int.toNat_ofNat _
  · have : nr = 31 := by omega
    subst this
    decide

theorem seed_count_pos (MAX_ORDER nr : Nat) : 1 ≤ seed_count MAX_ORDER nr := by
  unfold seed_count
  exact le_max_left _ _

theorem seed_count_le (MAX_ORDER nr : Nat) : seed_count MAX_ORDER nr ≤ 2 ^ (nr - MAX_ORDER) := by
  unfold seed_count
  have h2 : 1 ≤ 2 ^ (nr - MAX_ORDER) := Nat.one_le_two_pow
  have h1 : wrap_int (2 ^ (nr - MAX_ORDER)) ≤ ((2 ^ (nr - MAX_ORDER) : Nat) : Int) := by
    have := wrap_int_le (x := 2 ^ (nr - MAX_ORDER)) (by positivity)
    push_cast
    exact this
  apply max_le h2
  omega

theorem seed_count_exact (MAX_ORDER nr : Nat) (h : nr - MAX_ORDER ≤ 30) :
    seed_count MAX_ORDER nr = 2 ^ (nr - MAX_ORDER) := by
  unfold seed_count
  rw [wrap_int_pow _ h]
  have h2 : 1 ≤ 2 ^ (nr - MAX_ORDER) := Nat.one_le_two_pow
  have h3 : ((2 : Int) ^ (nr - MAX_ORDER)) = ((2 ^ (nr - MAX_ORDER) : Nat) : Int) := by
    push_cast; rfl
  rw [h3, Int.toNat_ofNat]
  exact max_eq_right h2

/-- The state that a successful `init_buddy` leaves: the lists below the top are
empty and the top list holds the chunks numbered 0, 1, ... at the starts that
line 500 computes in 32-bit arithmetic. -/
theorem init_buddy_spec32 (MAX_ORDER nr : Nat) (s0 : buddy) (h : MAX_ORDER ≤ nr) :
    ∃ s, init_buddy MAX_ORDER s0 nr = some (0, s) ∧ s.allocated = 0 ∧
      s.free = to_unsigned (wrap_int (2 ^ nr)) ∧ s.chunks.length = MAX_ORDER + 1 ∧
      ∀ j, j ≤ MAX_ORDER → s.chunks[j]? = some
        (if j = MAX_ORDER then
          { order := MAX_ORDER, numofchunkinfreelist := seed_count MAX_ORDER nr,
            freech := (List.range (seed_count MAX_ORDER nr)).map fun a : Nat =>
              { start := seed_add32 MAX_ORDER nr (a : Int), order := MAX_ORDER } }
         else { order := j, numofchunkinfreelist := 0, freech := [] }) := by
  have hget : ∀ j, j ≤ MAX_ORDER →
      ((List.range (NR_ORDERS MAX_ORDER)).map fun i =>
        ({ order := i, numofchunkinfreelist := 0, freech := [] } : chunk_list))[j]? =
        some { order := j, numofchunkinfreelist := 0, freech := [] } := by
    intro j hj
    rw [List.getElem?_map, List.getElem?_range (by simp [NR_ORDERS]; omega)]
    rfl
  have hlist : ∀ n : Nat,
      ({ start := 0, order := MAX_ORDER } : chunk) ::
        ((List.range' 1 n).map fun a : Nat =>
          ({ start := seed_add32 MAX_ORDER nr (a : Int), order := MAX_ORDER } : chunk)) =
        (List.range (n + 1)).map fun a : Nat =>
          { start := seed_add32 MAX_ORDER nr (a : Int), order := MAX_ORDER } := by
    intro n
    rw [List.range_eq_range', List.range'_succ]
    simp only [List.map_cons, Nat.cast_zero, seed_add32_zero, Nat.zero_add]
  unfold init_buddy
  simp only
  rw [if_neg (by simp [NR_ORDERS]; omega)]
  by_cases heq : nr = MAX_ORDER
  · subst heq
    have hc : seed_count nr nr = 1 := by
      simp [seed_count, wrap_int]
    rw [if_pos (by simp [NR_ORDERS])]
    simp only [hget nr (le_refl _)]
    refine ⟨_, rfl, rfl, rfl, by simp [NR_ORDERS], ?_⟩
    intro j hj
    simp only [chunks_setList, List.length_map, List.length_range, NR_ORDERS]
    by_cases hjn : nr = j
    · subst hjn
      have hr1 : List.range 1 = [0] := rfl
      simp [chunk_list.push, hr1, hc, seed_add32_zero]
    · rw [if_neg hjn, if_neg (Ne.symm hjn)]
      have := hget j hj
      simp only [NR_ORDERS] at this
      exact this
  · have hlt : MAX_ORDER < nr := by omega
    rw [if_neg (by simp [NR_ORDERS]; omega)]
    simp only [NR_ORDERS, Nat.add_sub_cancel] at hget ⊢
    simp only [hget MAX_ORDER (le_refl _)]
    have hB : nr - (MAX_ORDER + 1) + 1 = nr - MAX_ORDER := by omega
    have hpos := seed_count_pos MAX_ORDER nr
    have hle := seed_count_le MAX_ORDER nr
    have hseed := init_seed_spec MAX_ORDER nr (seed_count MAX_ORDER nr - 1)
      (2 ^ (nr - MAX_ORDER)) 1
      (chunk_list.push { order := MAX_ORDER, numofchunkinfreelist := 0, freech := [] }
        { start := 0, order := MAX_ORDER }) (le_trans (Nat.sub_le _ _) hle)
      (by
        intro x hx
        simp only [NR_ORDERS]
        rw [hB]
        unfold seed_count at hpos ⊢
        rcases le_total 1 (wrap_int (2 ^ (nr - MAX_ORDER))).toNat with h1 | h1
        · rw [max_eq_right h1]
          omega
        · rw [max_eq_left h1]
          omega)
    simp only [NR_ORDERS, Nat.add_sub_cancel] at hseed
    rw [hB, hseed]
    simp only
    refine ⟨_, rfl, rfl, rfl, by simp, ?_⟩
    intro j hj
    simp only [chunks_setList, List.length_map, List.length_range]
    by_cases hjn : MAX_ORDER = j
    · subst hjn
      have hr := hlist (seed_count MAX_ORDER nr - 1)
      have h1 : seed_count MAX_ORDER nr - 1 + 1 = seed_count MAX_ORDER nr := by omega
      rw [h1] at hr
      simp only [chunk_list.push, List.nil_append, List.singleton_append, hr, if_true,
        Nat.lt_succ_self, Nat.zero_add, Option.some.injEq, chunk_list.mk.injEq, true_and,
        and_true]
      omega
    · rw [if_neg hjn, if_neg (Ne.symm hjn)]
      exact hget j hj

/-- While `2 * nr` is at most `MAX_ORDER + 32`, no product of line 500 overflows,
and the seeds are the multiples of `2^MAX_ORDER` below `2^nr`. -/
theorem init_buddy_spec (MAX_ORDER nr : Nat) (s0 : buddy) (h : MAX_ORDER ≤ nr)
    (hnr : nr < 32) (hno : 2 * nr ≤ MAX_ORDER + 32) :
    ∃ s, init_buddy MAX_ORDER s0 nr = some (0, s) ∧ s.allocated = 0 ∧ s.free = 2 ^ nr ∧
      s.chunks.length = MAX_ORDER + 1 ∧
      ∀ j, j ≤ MAX_ORDER → s.chunks[j]? = some
        (if j = MAX_ORDER then
          { order := MAX_ORDER, numofchunkinfreelist := 2 ^ (nr - MAX_ORDER),
            freech := (List.range (2 ^ (nr - MAX_ORDER))).map fun a =>
              { start := a * 2 ^ MAX_ORDER, order := MAX_ORDER } }
         else { order := j, numofchunkinfreelist := 0, freech := [] }) := by
  obtain ⟨s, h0, h1, h2, h3, h4⟩ := init_buddy_spec32 MAX_ORDER nr s0 h
  have hcount : seed_count MAX_ORDER nr = 2 ^ (nr - MAX_ORDER) :=
    seed_count_exact MAX_ORDER nr (by omega)
  have hmap : ((List.range (2 ^ (nr - MAX_ORDER))).map fun a : Nat =>
        ({ start := seed_add32 MAX_ORDER nr (a : Int), order := MAX_ORDER } : chunk)) =
      (List.range (2 ^ (nr - MAX_ORDER))).map fun a =>
        { start := a * 2 ^ MAX_ORDER, order := MAX_ORDER } := by
    apply List.map_congr_left
    intro a ha
    have ha := List.mem_range.1 ha
    rcases Nat.eq_zero_or_pos a with rfl | hpos
    · simp [seed_add32_zero]
    · have hlt : MAX_ORDER < nr := by
        by_contra hge
        have : nr - MAX_ORDER = 0 := by omega
        rw [this] at ha
        simp at ha
        omega
      have hsmall : a * 2 ^ (nr - 1) < 2 ^ 31 := by
        have h5 : a * 2 ^ (nr - 1) < 2 ^ (nr - MAX_ORDER) * 2 ^ (nr - 1) :=
          Nat.mul_lt_mul_of_pos_right ha (Nat.pos_pow_of_pos _ (by decide))
        have h6 : 2 ^ (nr - MAX_ORDER) * 2 ^ (nr - 1) ≤ 2 ^ 31 := by
          rw [← pow_add]
          exact Nat.pow_le_pow_right (by decide) (by omega)
        omega
      rw [seed_add32_small MAX_ORDER nr a hlt hsmall hpos]
  refine ⟨s, h0, h1, by rw [h2, free_init nr hnr], h3, ?_⟩
  intro j hj
  rw [h4 j hj, hcount]
  simp only [hmap]

theorem total_zero (f : chunk → Nat) (s : buddy) (h : ∀ j, flist s j = []) : total f s = 0 := by
  unfold total
  apply List.sum_eq_zero
  intro x hx
  rcases List.mem_map.1 hx with ⟨cl, hcl, rfl⟩
  rcases List.mem_iff_getElem?.1 hcl with ⟨j, hj⟩
  have := h j
  rw [flist_of_some hj] at this
  simp [this]

theorem total_top (f : chunk → Nat) (s : buddy) (M : Nat) (hM : M < s.chunks.length)
    (h : ∀ j, j ≠ M → flist s j = []) : total f s = ((flist s M).map f).sum := by
  have hcl : s.chunks[M]? = some s.chunks[M] := List.getElem?_eq_getElem hM
  have h1 := total_setList f s M { order := 0, numofchunkinfreelist := 0, freech := [] } _ hcl
  have h2 : total f (s.setList M { order := 0, numofchunkinfreelist := 0, freech := [] }) = 0 := by
    apply total_zero
    intro j
    by_cases hj : M = j
    · subst hj; rw [flist_setList_self s M _ _ hcl]
    · rw [flist_setList_ne s M j _ hj]; exact h j (Ne.symm hj)
  rw [flist_of_some hcl]
  simp only [List.map_nil, List.sum_nil] at h1
  omega

theorem sum_cover_range (x M : Nat) : ∀ n : Nat,
    (((List.range n).map fun a => ({ start := a * 2 ^ M, order := M } : chunk)).map
      (chunk.cover x)).sum = if x < n * 2 ^ M then 1 else 0 := by
  intro n
  induction n with
  | zero => simp
  | succ n ih =>
    rw [List.range_succ, List.map_append, List.map_append, List.sum_append, ih]
    simp only [List.map_cons, List.map_nil, List.sum_cons, List.sum_nil, chunk.cover,
      Nat.add_zero, Nat.succ_mul]
    have hp : 0 < 2 ^ M := Nat.pos_pow_of_pos _ (by decide)
    generalize 2 ^ M = p at hp ⊢
    generalize n * p = q
    split_ifs <;> omega

theorem sum_pages_range (M : Nat) : ∀ n : Nat,
    (((List.range n).map fun a => ({ start := a * 2 ^ M, order := M } : chunk)).map
      chunk.pages).sum = n * 2 ^ M := by
  intro n
  induction n with
  | zero => simp
  | succ n ih =>
    rw [List.range_succ, List.map_append, List.map_append, List.sum_append, ih]
    simp only [List.map_cons, List.map_nil, List.sum_cons, List.sum_nil, chunk.pages,
      Nat.add_zero, Nat.succ_mul]

theorem init_buddy_ok_le {MAX_ORDER nr : Nat} {s0 s : buddy}
    (h : init_buddy MAX_ORDER s0 nr = some (0, s)) : MAX_ORDER ≤ nr := by
  by_contra hlt
  unfold init_buddy at h
  simp only at h
  rw [if_pos (by simp [NR_ORDERS]; omega)] at h
  simp [EINVAL] at h

theorem inv_init {MAX_ORDER nr : Nat} {s0 s : buddy}
    (h : init_buddy MAX_ORDER s0 nr = some (0, s)) (hnr : nr < 32)
    (hno : 2 * nr ≤ MAX_ORDER + 32) :
    Inv MAX_ORDER nr s [] ∧ s.allocated + s.free = 2 ^ nr := by
  have hle := init_buddy_ok_le h
  obtain ⟨t, ht, h1, h2, h3, h4⟩ := init_buddy_spec MAX_ORDER nr s0 hle hnr hno
  rw [h] at ht
  simp only [Option.some.injEq, Prod.mk.injEq, true_and] at ht
  subst ht
  have hfl : ∀ j, flist s j =
      if j = MAX_ORDER then
        (List.range (2 ^ (nr - MAX_ORDER))).map fun a =>
          { start := a * 2 ^ MAX_ORDER, order := MAX_ORDER }
      else [] := by
    intro j
    by_cases hj : j ≤ MAX_ORDER
    · rw [flist_of_some (h4 j hj)]
      split_ifs <;> rfl
    · rw [flist_of_none (List.getElem?_eq_none (by omega)), if_neg (by omega)]
  have hpow : 2 ^ (nr - MAX_ORDER) * 2 ^ MAX_ORDER = 2 ^ nr := by
    rw [← pow_add]; congr 1; omega
  have htot : ∀ f, total f s = ((flist s MAX_ORDER).map f).sum :=
    fun f => total_top f s MAX_ORDER (by omega) (fun j hj => by rw [hfl j, if_neg hj])
  refine ⟨⟨⟨h3, ?_, ?_, ?_⟩, ?_, ?_, ?_, ?_, ?_⟩, by rw [h1, h2]; omega⟩
  · intro o cl hcl
    have ho : o ≤ MAX_ORDER := by
      have := (List.getElem?_eq_some.1 hcl).1
      omega
    rw [h4 o ho] at hcl
    cases hcl
    split_ifs <;> simp
  · intro o c hc
    rw [hfl o] at hc
    split_ifs at hc with ho
    · rcases List.mem_map.1 hc with ⟨a, _, rfl⟩
      exact ho.symm
    · simp at hc
  · intro o c hc
    rw [hfl o] at hc
    split_ifs at hc with ho
    · rcases List.mem_map.1 hc with ⟨a, _, rfl⟩
      subst ho
      exact Nat.mul_mod_left _ _
    · simp at hc
  · intro x
    rw [htot, hfl MAX_ORDER, if_pos rfl, sum_cover_range, hpow]
    simp
  · intro o ho c hc
    rw [hfl o, if_neg (by omega)] at hc
    simp at hc
  · rw [h2, htot, hfl MAX_ORDER, if_pos rfl, sum_pages_range, hpow]
  · rw [h1]; rfl
  · intro c hc
    simp at hc

/-- While `2 * nr` is at most `MAX_ORDER + 32`, so that no product of line 500
overflows, every reachable state satisfies the tiling invariant, and its two
counters add up to the number of pages of the pool. -/
theorem reach_inv {MAX_ORDER nr : Nat} {s : buddy} {out : List chunk}
    (h : Reach MAX_ORDER nr s out) (hno : 2 * nr ≤ MAX_ORDER + 32) :
    Inv MAX_ORDER nr s out ∧ s.allocated + s.free = 2 ^ nr := by
  induction h with
  | init s0 s hnr h => exact inv_init h hnr hno
  | alloc s out order page s1 _ h ih =>
    obtain ⟨h1, h2⟩ := inv_alloc ih.1 h
    exact ⟨h1, by rw [h2]; exact ih.2⟩
  | free s out page order s1 _ hmem h ih =>
    obtain ⟨h1, h2, h3⟩ := inv_free ih.1 hmem
    rw [h1] at h
    cases h
    exact ⟨h2, by rw [h3]; exact ih.2⟩

/-! ## Counting pages -/

theorem cover_le_one_of_pairwise (l : List chunk) (h : l.Pairwise chunk.Disjoint) (x : Nat) :
    (l.map (chunk.cover x)).sum ≤ 1 := by
  induction l with
  | nil => simp
  | cons c l ih =>
    rw [List.pairwise_cons] at h
    simp only [List.map_cons, List.sum_cons]
    by_cases hc : c.start ≤ x ∧ x < c.start + 2 ^ c.order
    · have hz : (l.map (chunk.cover x)).sum = 0 := by
        apply List.sum_eq_zero
        intro y hy
        rcases List.mem_map.1 hy with ⟨d, hd, rfl⟩
        have := h.1 d hd
        simp only [chunk.Disjoint] at this
        simp only [chunk.cover]
        rw [if_neg]
        omega
      have : chunk.cover x c ≤ 1 := by simp only [chunk.cover]; rw [if_pos hc]
      omega
    · have : chunk.cover x c = 0 := by simp only [chunk.cover]; rw [if_neg hc]
      have := ih h.2
      omega

theorem sum_cover_eq_pages (c : chunk) (N : Nat) (h : c.start + 2 ^ c.order ≤ N) :
    ∑ x ∈ Finset.range N, chunk.cover x c = chunk.pages c := by
  simp only [chunk.cover, chunk.pages]
  rw [Finset.sum_boole]
  have : (Finset.range N).filter (fun x => c.start ≤ x ∧ x < c.start + 2 ^ c.order) =
      Finset.Ico c.start (c.start + 2 ^ c.order) := by
    ext x
    simp only [Finset.mem_filter, Finset.mem_range, Finset.mem_Ico]
    omega
  rw [this]
  simp

theorem sum_pages_le (l : List chunk) (N : Nat) (hd : l.Pairwise chunk.Disjoint)
    (hin : ∀ c ∈ l, c.start + 2 ^ c.order ≤ N) : (l.map chunk.pages).sum ≤ N := by
  have hswap : (l.map chunk.pages).sum = ∑ x ∈ Finset.range N, (l.map (chunk.cover x)).sum := by
    clear hd
    induction l with
    | nil => simp
    | cons c l ih =>
      simp only [List.map_cons, List.sum_cons, Finset.sum_add_distrib]
      rw [ih (fun d hd => hin d (List.mem_cons_of_mem _ hd)),
        sum_cover_eq_pages c N (hin c (List.mem_cons_self _ _))]
  rw [hswap]
  calc ∑ x ∈ Finset.range N, (l.map (chunk.cover x)).sum
      ≤ ∑ _x ∈ Finset.range N, 1 :=
        Finset.sum_le_sum fun x _ => cover_le_one_of_pairwise l hd x
    _ = N := by simp

theorem sum_pages_of_order (l : List chunk) (o : Nat) (h : ∀ c ∈ l, c.order = o) :
    (l.map chunk.pages).sum = l.length * 2 ^ o := by
  induction l with
  | nil => simp
  | cons c l ih =>
    simp only [List.map_cons, List.sum_cons, List.length_cons, Nat.succ_mul, chunk.pages]
    rw [ih (fun d hd => h d (List.mem_cons_of_mem _ hd)), h c (List.mem_cons_self _ _)]
    omega

theorem list_sum_eq_range (l : List Nat) :
    l.sum = ∑ i ∈ Finset.range l.length, l.getD i 0 := by
  induction l with
  | nil => simp
  | cons a l ih =>
    rw [List.length_cons, Finset.sum_range_succ', List.sum_cons, ih]
    simp only [List.getD_cons_succ, List.getD_cons_zero]
    omega

/-- With consistent lists, the pages of all free chunks are the sum over the
orders of the length of the list times the pages of a chunk of the order. -/
theorem total_pages_eq {MAX_ORDER : Nat} {s : buddy} (h : ListsOk MAX_ORDER s) :
    total chunk.pages s = ∑ o ∈ Finset.range (MAX_ORDER + 1), (flist s o).length * 2 ^ o := by
  unfold total
  rw [list_sum_eq_range, List.length_map, h.len, NR_ORDERS]
  apply Finset.sum_congr rfl
  intro o ho
  have hlt : o < s.chunks.length := by
    rw [h.len, NR_ORDERS]; exact Finset.mem_range.1 ho
  have hcl : s.chunks[o]? = some s.chunks[o] := List.getElem?_eq_getElem hlt
  rw [List.getD_eq_getElem?_getD, List.getElem?_map, hcl]
  simp only [Option.map_some', Option.getD_some]
  rw [← flist_of_some hcl]
  exact sum_pages_of_order _ o (h.ord o)

/-- While `2 * nr` is at most `MAX_ORDER + 32`, a reachable state is well
formed. -/
theorem wellFormed_of_reach {MAX_ORDER nr : Nat} {s : buddy} {out : List chunk}
    (h : Reach MAX_ORDER nr s out) (hno : 2 * nr ≤ MAX_ORDER + 32) :
    WellFormed MAX_ORDER nr s := by
  obtain ⟨hi, hsum⟩ := reach_inv h hno
  have hd := free_disjoint_of_tiling hi.tiling
  refine ⟨hi.lists, (List.pairwise_append.1 hd).1, ?_, hi.no_pairs, hi.free_eq, hsum⟩
  have hin := inside_of_cover (free_chunks s ++ out) (2 ^ nr) (by
    intro x
    have := hi.tiling x
    rw [total_eq_free_chunks] at this
    rw [List.map_append, List.sum_append, this])
  exact fun c hc => hin c (List.mem_append_left _ hc)

theorem multiple_le {m x y : Nat} (hx : x % m = 0) (hy : y % m = 0)
    (h : x < y + m) : x ≤ y := by
  by_contra hlt
  have hd : m ∣ x - y := Nat.dvd_sub' (Nat.dvd_of_mod_eq_zero hx) (Nat.dvd_of_mod_eq_zero hy)
  have := Nat.le_of_dvd (by omega) hd
  omega

theorem aligned_block_inside {P k nr : Nat} (hP : P % 2 ^ k = 0) (hk : k ≤ nr)
    (hlt : P < 2 ^ nr) : P + 2 ^ k ≤ 2 ^ nr := by
  have h1 : (2 ^ nr) % 2 ^ k = 0 := Nat.mod_eq_zero_of_dvd (pow_dvd_pow 2 hk)
  have h2 : (P + 2 ^ k) % 2 ^ k = 0 := by
    rw [Nat.add_mod, hP, Nat.mod_self]
    simp
  have hp : 0 < 2 ^ k := Nat.pos_pow_of_pos _ (by decide)
  exact multiple_le h2 h1 (by omega)

/-! ## The invariant of all reachable states -/

theorem sound_init {MAX_ORDER nr : Nat} {s0 s : buddy} (hnr : nr < 32)
    (h : init_buddy MAX_ORDER s0 nr = some (0, s)) : Sound MAX_ORDER nr s [] := by
  have hle := init_buddy_ok_le h
  obtain ⟨t, ht, h1, h2, h3, h4⟩ := init_buddy_spec32 MAX_ORDER nr s0 hle
  rw [h] at ht
  simp only [Option.some.injEq, Prod.mk.injEq, true_and] at ht
  subst ht
  have hfl : ∀ j, flist s j =
      if j = MAX_ORDER then
        (List.range (seed_count MAX_ORDER nr)).map fun a : Nat =>
          { start := seed_add32 MAX_ORDER nr (a : Int), order := MAX_ORDER }
      else [] := by
    intro j
    by_cases hj : j ≤ MAX_ORDER
    · rw [flist_of_some (h4 j hj)]
      split_ifs <;> rfl
    · rw [flist_of_none (List.getElem?_eq_none (by omega)), if_neg (by omega)]
  have htop : ∀ c ∈ flist s MAX_ORDER,
      c.order = MAX_ORDER ∧ c.start % 2 ^ MAX_ORDER = 0 ∧ c.start < 2 ^ 32 := by
    intro c hc
    rw [hfl MAX_ORDER, if_pos rfl] at hc
    rcases List.mem_map.1 hc with ⟨a, ha, rfl⟩
    refine ⟨rfl, ?_, seed_add32_lt _ _ _⟩
    simp only
    rcases Nat.eq_or_lt_of_le hle with heq | hlt
    · subst heq
      have hc1 : seed_count MAX_ORDER MAX_ORDER = 1 := by simp [seed_count, wrap_int]
      rw [hc1] at ha
      have : a = 0 := by simpa using ha
      subst this
      simp [seed_add32_zero]
    · exact seed_add32_aligned MAX_ORDER nr _ hlt hnr
  have hpow : 2 ^ (nr - MAX_ORDER) * 2 ^ MAX_ORDER = 2 ^ nr := by
    rw [← pow_add]; congr 1; omega
  have htot : ∀ f, total f s = ((flist s MAX_ORDER).map f).sum :=
    fun f => total_top f s MAX_ORDER (by omega) (fun j hj => by rw [hfl j, if_neg hj])
  have hfree : s.free = 2 ^ nr := by rw [h2, free_init nr hnr]
  refine ⟨⟨h3, ?_, ?_, ?_⟩, ?_, ?_, ?_, ?_, ?_, ?_⟩
  · intro o cl hcl
    have ho : o ≤ MAX_ORDER := by
      have := (List.getElem?_eq_some.1 hcl).1
      omega
    rw [h4 o ho] at hcl
    cases hcl
    split_ifs <;> simp
  · intro o c hc
    by_cases ho : o = MAX_ORDER
    · subst ho; exact (htop c hc).1
    · rw [hfl o, if_neg ho] at hc
      simp at hc
  · intro o c hc
    by_cases ho : o = MAX_ORDER
    · subst ho; exact (htop c hc).2.1
    · rw [hfl o, if_neg ho] at hc
      simp at hc
  · intro o ho c hc
    rw [hfl o, if_neg (by omega)] at hc
    simp at hc
  · rw [hfree, htot, sum_pages_of_order _ MAX_ORDER (fun c hc => (htop c hc).1), hfl MAX_ORDER,
      if_pos rfl, List.length_map, List.length_range, ← hpow]
    exact Nat.mul_le_mul_right _ (seed_count_le MAX_ORDER nr)
  · rw [h1]; rfl
  · rw [h1, hfree]; omega
  · intro c hc
    simp at hc
  · intro c hc
    rw [List.append_nil] at hc
    obtain ⟨o, ho⟩ := mem_free_chunks.1 hc
    by_cases hom : o = MAX_ORDER
    · subst hom
      obtain ⟨p1, p2, p3⟩ := htop c ho
      rw [p1]
      exact aligned_block_inside p2 (by omega) p3
    · rw [hfl o, if_neg hom] at ho
      simp at ho

theorem sound_alloc {MAX_ORDER nr : Nat} {s : buddy} {out : List chunk} {order page : Nat}
    {s1 : buddy} (hi : Sound MAX_ORDER nr s out)
    (h : alloc_pages MAX_ORDER s order = some { ret := 0, page := some page, st := s1 }) :
    Sound MAX_ORDER nr s1 ({ start := page, order := order } :: out) := by
  obtain ⟨k, c, rest, hok, hk, hempty, hfl, hp, hs1⟩ :=
    alloc_pages_inv MAX_ORDER s order page s1 hi.lists hi.free_ge h
  have hcmem : c ∈ flist s k := by rw [hfl]; simp
  have hcord : c.order = k := hi.lists.ord k c hcmem
  have hcal : c.start % 2 ^ k = 0 := hi.lists.align k c hcmem
  have hcfit : c.start + 2 ^ k ≤ 2 ^ 32 := by
    have := hi.fits c (List.mem_append_left _ (mem_free_chunks.2 ⟨k, hcmem⟩))
    rw [hcord] at this
    exact this
  have hc : c = { start := c.start, order := order + (k - order) } := by
    cases c; simp at hcord ⊢; omega
  have hlen : order + (k - order) ≤ (s.pop k).chunks.length := by
    rw [length_pop, hi.lists.len, NR_ORDERS]; omega
  obtain ⟨p1, p2, p3, p4, p5⟩ := push_halves_props c.start order (k - order) (s.pop k) hlen
  have hchunks : s1.chunks = (push_halves c.start order (k - order) (s.pop k)).chunks := by
    rw [hs1]; rfl
  have hlists : ListsOk MAX_ORDER s1 :=
    listsOk_congr hchunks.symm
      (listsOk_push_halves c.start order (k - order) _ (listsOk_pop k c rest hi.lists hfl)
        (by omega) (by rw [show order + (k - order) = k by omega]; exact hcal))
  have hmeasure : ∀ f, SplitAdditive f →
      total f s1 + f { start := page, order := order } = total f s := by
    intro f hf
    rw [total_congr hchunks, hp]
    have e1 := p5 f hf
    have e2 := total_pop f s k c rest hfl
    rw [← hc] at e1
    omega
  have hpages := hmeasure chunk.pages splitAdditive_pages
  have hflist : ∀ j, flist s1 j =
      if order ≤ j ∧ j < k then [{ start := c.start + 2 ^ j, order := j }]
      else if j = k then rest else flist s j := by
    intro j
    rw [flist_congr hchunks, p4 j, flist_pop]
    by_cases h1 : order ≤ j ∧ j < k
    · rw [if_pos ⟨h1.1, by omega⟩, if_pos h1, if_neg (by omega), hempty j h1.1 h1.2]
      rfl
    · rw [if_neg (by omega), if_neg h1]
      split_ifs with h2
      · subst h2; rw [hfl]; rfl
      · rfl
  have hal : s1.allocated = s.allocated + 2 ^ order := by
    rw [hs1]; simp only [alloc_done, p2, allocated_pop]
  have hfr : s1.free = s.free - 2 ^ order := by
    rw [hs1]; simp only [alloc_done, p3, free_pop]
  have hfge : 2 ^ order ≤ s.free := by
    have := hi.free_ge
    simp only [chunk.pages] at hpages
    omega
  have hpk : 2 ^ order ≤ 2 ^ k := Nat.pow_le_pow_right (by decide) hok
  refine ⟨hlists, ?_, ?_, ?_, ?_, ?_, ?_⟩
  · intro o ho a ha b hb
    rw [hflist o] at ha hb
    by_cases h1 : order ≤ o ∧ o < k
    · rw [if_pos h1] at ha hb
      simp only [List.mem_singleton] at ha hb
      rw [ha, hb]
      exact (buddy_start_ne _ _).symm
    · rw [if_neg h1] at ha hb
      by_cases h2 : o = k
      · rw [if_pos h2] at ha hb
        subst h2
        exact hi.no_pairs o ho a (by rw [hfl]; exact List.mem_cons_of_mem _ ha) b
          (by rw [hfl]; exact List.mem_cons_of_mem _ hb)
      · rw [if_neg h2] at ha hb
        exact hi.no_pairs o ho a ha b hb
  · have := hi.free_ge
    rw [hfr]
    simp only [chunk.pages] at hpages
    omega
  · rw [hal, hi.alloc_eq]
    simp only [List.map_cons, List.sum_cons, chunk.pages]
    omega
  · have := hi.sum_eq
    omega
  · intro d hd
    rcases List.mem_cons.1 hd with hd | hd
    · subst hd
      simp only
      exact ⟨by omega, by rw [hp]; exact mod_pow_of_le hok hcal⟩
    · exact hi.out_ok d hd
  · intro d hd
    rcases List.mem_append.1 hd with hd | hd
    · obtain ⟨j, hj⟩ := mem_free_chunks.1 hd
      rw [hflist j] at hj
      by_cases h1 : order ≤ j ∧ j < k
      · rw [if_pos h1] at hj
        simp only [List.mem_singleton] at hj
        subst hj
        simp only
        have : 2 ^ (j + 1) ≤ 2 ^ k := Nat.pow_le_pow_right (by decide) (by omega)
        rw [pow_succ] at this
        omega
      · rw [if_neg h1] at hj
        have hmem : d ∈ flist s j := by
          by_cases h2 : j = k
          · rw [if_pos h2] at hj
            rw [h2, hfl]
            exact List.mem_cons_of_mem _ hj
          · rw [if_neg h2] at hj
            exact hj
        exact hi.fits d (List.mem_append_left _ (mem_free_chunks.2 ⟨j, hmem⟩))
    · rcases List.mem_cons.1 hd with hd | hd
      · subst hd
        simp only
        rw [hp]
        omega
      · exact hi.fits d (List.mem_append_right _ hd)

theorem sound_free {MAX_ORDER nr : Nat} {s : buddy} {out : List chunk} {page order : Nat}
    (hi : Sound MAX_ORDER nr s out) (hmem : { start := page, order := order } ∈ out) :
    free_pages MAX_ORDER s page order = some (free_pages_all MAX_ORDER s page order) ∧
    Sound MAX_ORDER nr (free_pages_all MAX_ORDER s page order)
      (out.erase { start := page, order := order }) := by
  obtain ⟨ho, ha⟩ := hi.out_ok _ hmem
  simp only at ho ha
  obtain ⟨cur, t, k0, k1, k3, k4, k5, k6, k7, k8, k9, k10, k11⟩ :=
    merge_all_props MAX_ORDER MAX_ORDER order page s hi.lists ho ha
  have hchunks : (free_pages_all MAX_ORDER s page order).chunks = (t.append cur).chunks := by
    simp only [free_pages_all, k0]
  have hlt : cur.order < t.chunks.length := by
    rw [k1.len, NR_ORDERS]; omega
  have hsum : ∀ f : chunk → Nat,
      f { start := page, order := order } +
        ((out.erase { start := page, order := order }).map f).sum = (out.map f).sum :=
    fun f => List.sum_map_erase f hmem
  have hpages := k9 chunk.pages splitAdditive_pages
  have hal : (free_pages_all MAX_ORDER s page order).allocated = s.allocated - 2 ^ order := rfl
  have hfr : (free_pages_all MAX_ORDER s page order).free = s.free + 2 ^ order := rfl
  have hage : 2 ^ order ≤ s.allocated := by
    rw [hi.alloc_eq]
    have := hsum chunk.pages
    simp only [chunk.pages] at this
    omega
  refine ⟨free_pages_eq_all MAX_ORDER s page order hi.lists ho ha,
    ⟨listsOk_congr hchunks.symm (listsOk_append _ k1 k3 k5), ?_, ?_, ?_, ?_, ?_, ?_⟩⟩
  · intro o ho1 a ha1 b hb1
    rw [flist_congr hchunks, flist_append _ _ _ hlt] at ha1 hb1
    have hold : ∀ c, c ∈ flist t o → c ∈ flist s o := fun c hc => (k8 o).subset hc
    by_cases h1 : o = cur.order
    · rw [if_pos h1] at ha1 hb1
      have hno := k11 (by omega) (h1 ▸ ho1)
      rw [← h1] at hno
      rcases List.mem_append.1 ha1 with ha2 | ha2
      · rcases List.mem_append.1 hb1 with hb2 | hb2
        · exact hi.no_pairs o ho1 a (hold a ha2) b (hold b hb2)
        · simp only [List.mem_singleton] at hb2
          intro he
          apply hno
          refine ⟨a, ha2, ?_⟩
          rw [← hb2, he, buddy_start_invol]
      · simp only [List.mem_singleton] at ha2
        rcases List.mem_append.1 hb1 with hb2 | hb2
        · intro he
          apply hno
          exact ⟨b, hb2, by rw [he, ha2]⟩
        · simp only [List.mem_singleton] at hb2
          rw [ha2, hb2]
          exact (buddy_start_ne _ _).symm
    · rw [if_neg h1] at ha1 hb1
      exact hi.no_pairs o ho1 a (hold a ha1) b (hold b hb1)
  · rw [hfr, total_congr hchunks, total_append chunk.pages _ _ hlt]
    have := hi.free_ge
    simp only [chunk.pages] at hpages ⊢
    omega
  · rw [hal, hi.alloc_eq]
    have := hsum chunk.pages
    simp only [chunk.pages] at this ⊢
    omega
  · have := hi.sum_eq
    omega
  · intro d hd
    exact hi.out_ok d (List.mem_of_mem_erase hd)
  · have hfree : ∀ j, ∀ c ∈ flist s j, c.start + 2 ^ c.order ≤ 2 ^ 32 :=
      fun j c hc => hi.fits c (List.mem_append_left _ (mem_free_chunks.2 ⟨j, hc⟩))
    intro d hd
    rcases List.mem_append.1 hd with hd | hd
    · obtain ⟨j, hj⟩ := mem_free_chunks.1 hd
      rw [flist_congr hchunks, flist_append _ _ _ hlt] at hj
      have hcur : cur.start + 2 ^ cur.order ≤ 2 ^ 32 :=
        k10 (2 ^ 32) (hi.fits _ (List.mem_append_right _ hmem)) hfree
      by_cases h1 : j = cur.order
      · rw [if_pos h1] at hj
        rcases List.mem_append.1 hj with hj | hj
        · exact hfree j d ((k8 j).subset hj)
        · simp only [List.mem_singleton] at hj
          rw [hj]
          exact hcur
      · rw [if_neg h1] at hj
        exact hfree j d ((k8 j).subset hj)
    · exact hi.fits d (List.mem_append_right _ (List.mem_of_mem_erase hd))

/-- Every reachable state satisfies the invariant `Sound`. -/
theorem reach_sound {MAX_ORDER nr : Nat} {s : buddy} {out : List chunk}
    (h : Reach MAX_ORDER nr s out) : Sound MAX_ORDER nr s out := by
  induction h with
  | init s0 s hnr h => exact sound_init hnr h
  | alloc s out order page s1 _ h ih => exact sound_alloc ih h
  | free s out page order s1 _ hmem h ih =>
    obtain ⟨h1, h2⟩ := sound_free ih hmem
    rw [h1] at h
    cases h
    exact h2

theorem reach_lt {MAX_ORDER nr : Nat} {s : buddy} {out : List chunk}
    (h : Reach MAX_ORDER nr s out) : nr < 32 := by
  induction h with
  | init s0 s hnr h => exact hnr
  | alloc _ _ _ _ _ _ _ ih => exact ih
  | free _ _ _ _ _ _ _ _ ih => exact ih

/-- In a reachable state `free_pages` of an outstanding chunk returns. -/
theorem free_pages_returns {MAX_ORDER nr : Nat} {s : buddy} {out : List chunk}
    (h : Reach MAX_ORDER nr s out) (page order : Nat)
    (hmem : { start := page, order := order } ∈ out) :
    ∃ s1, free_pages MAX_ORDER s page order = some s1 :=
  ⟨_, (sound_free (reach_sound h) hmem).1⟩

/-- In a reachable state every number fits its C type: the counters are at most
the number `2 ^ nr` of pages, which is at most `2 ^ 31`, and every free or
outstanding chunk ends at or below `2 ^ 32`. -/
theorem reach_bounds {MAX_ORDER nr : Nat} {s : buddy} {out : List chunk}
    (h : Reach MAX_ORDER nr s out) :
    s.allocated ≤ 2 ^ nr ∧ s.free ≤ 2 ^ nr ∧ 2 ^ nr ≤ 2 ^ 31 ∧
      ∀ c ∈ free_chunks s ++ out, c.start + 2 ^ c.order ≤ 2 ^ 32 := by
  have hi := reach_sound h
  have hnr := reach_lt h
  have := hi.sum_eq
  exact ⟨by omega, by omega, Nat.pow_le_pow_right (by decide) (by omega), hi.fits⟩

/-! ## Reachability of the sample states -/

theorem reach_pool32 : Reach 4 5 pool32 [] :=
  Reach.init (zeroed 4) pool32 (by decide) (by decide)

theorem reach_pool16 : Reach 4 4 pool16 [] :=
  Reach.init (zeroed 4) pool16 (by decide) (by decide)

theorem reach_pool16_a2 : Reach 4 4 pool16_a2 [⟨0, 2⟩] :=
  Reach.alloc pool16 [] 2 0 pool16_a2 reach_pool16 (by decide)

theorem reach_pool16_fragmented : Reach 4 4 pool16_fragmented [⟨4, 2⟩, ⟨8, 3⟩, ⟨0, 0⟩] :=
  Reach.alloc _ _ 2 4 _
    (Reach.alloc _ _ 3 8
      { chunks := [⟨0, 1, [⟨1, 0⟩]⟩, ⟨1, 1, [⟨2, 1⟩]⟩, ⟨2, 1, [⟨4, 2⟩]⟩, ⟨3, 0, []⟩, ⟨4, 0, []⟩],
        allocated := 9, free := 7 }
      (Reach.alloc pool16 [] 0 0
        { chunks := [⟨0, 1, [⟨1, 0⟩]⟩, ⟨1, 1, [⟨2, 1⟩]⟩, ⟨2, 1, [⟨4, 2⟩]⟩, ⟨3, 1, [⟨8, 3⟩]⟩,
            ⟨4, 0, []⟩],
          allocated := 1, free := 15 }
        reach_pool16 (by decide))
      (by decide))
    (by decide)

theorem reach_example_state : Reach 4 5 example_state [⟨0x1c, 0⟩, ⟨0x14, 2⟩] := by
  have h1 : Reach 4 5 _ _ := Reach.alloc pool32 [] 4 0
    { chunks := [⟨0, 0, []⟩, ⟨1, 0, []⟩, ⟨2, 0, []⟩, ⟨3, 0, []⟩, ⟨4, 1, [⟨16, 4⟩]⟩],
      allocated := 16, free := 16 } reach_pool32 (by decide)
  have h2 : Reach 4 5 _ _ := Reach.alloc _ _ 2 0x10
    { chunks := [⟨0, 0, []⟩, ⟨1, 0, []⟩, ⟨2, 1, [⟨0x14, 2⟩]⟩, ⟨3, 1, [⟨0x18, 3⟩]⟩, ⟨4, 0, []⟩],
      allocated := 20, free := 12 } h1 (by decide)
  have h3 : Reach 4 5 _ _ := Reach.alloc _ _ 2 0x14
    { chunks := [⟨0, 0, []⟩, ⟨1, 0, []⟩, ⟨2, 0, []⟩, ⟨3, 1, [⟨0x18, 3⟩]⟩, ⟨4, 0, []⟩],
      allocated := 24, free := 8 } h2 (by decide)
  have h4 : Reach 4 5 _ _ := Reach.alloc _ _ 2 0x18
    { chunks := [⟨0, 0, []⟩, ⟨1, 0, []⟩, ⟨2, 1, [⟨0x1c, 2⟩]⟩, ⟨3, 0, []⟩, ⟨4, 0, []⟩],
      allocated := 28, free := 4 } h3 (by decide)
  have h5 : Reach 4 5 _ _ := Reach.alloc _ _ 0 0x1c
    { chunks := [⟨0, 1, [⟨0x1d, 0⟩]⟩, ⟨1, 1, [⟨0x1e, 1⟩]⟩, ⟨2, 0, []⟩, ⟨3, 0, []⟩, ⟨4, 0, []⟩],
      allocated := 29, free := 3 } h4 (by decide)
  have h6 : Reach 4 5 _ _ := Reach.free _ _ 0x10 2
    { chunks := [⟨0, 1, [⟨0x1d, 0⟩]⟩, ⟨1, 1, [⟨0x1e, 1⟩]⟩, ⟨2, 1, [⟨0x10, 2⟩]⟩, ⟨3, 0, []⟩,
        ⟨4, 0, []⟩],
      allocated := 25, free := 7 } h5 (by decide) (by decide)
  have h7 : Reach 4 5 _ _ := Reach.free _ _ 0x18 2
    { chunks := [⟨0, 1, [⟨0x1d, 0⟩]⟩, ⟨1, 1, [⟨0x1e, 1⟩]⟩, ⟨2, 2, [⟨0x10, 2⟩, ⟨0x18, 2⟩]⟩,
        ⟨3, 0, []⟩, ⟨4, 0, []⟩],
      allocated := 21, free := 11 } h6 (by decide) (by decide)
  exact Reach.free _ _ 0x00 4 example_state h7 (by decide) (by decide)

/-! ## The claims of the specification -/

/-- In every reachable state the two counters add up to `2^nr`, the stored
length of every list is the number of chunks in its queue, and the pages in the
free lists are at most `free`. -/
theorem conservation_counters {MAX_ORDER nr : Nat} {s : buddy} {out : List chunk}
    (h : Reach MAX_ORDER nr s out) :
    s.allocated + s.free = 2 ^ nr ∧
      ∑ o ∈ Finset.range (MAX_ORDER + 1), (flist s o).length * 2 ^ o ≤ s.free ∧
      ∀ (o : Nat) (cl : chunk_list), s.chunks[o]? = some cl →
        cl.numofchunkinfreelist = (flist s o).length := by
  have hi := reach_sound h
  refine ⟨hi.sum_eq, by rw [← total_pages_eq hi.lists]; exact hi.free_ge, ?_⟩
  intro o cl hcl
  rw [flist_of_some hcl]
  exact hi.lists.cnt o cl hcl

/-- Conservation while no product of line 500 overflows (`2 * nr` is at most
`MAX_ORDER + 32`): in every reachable state `allocated + free = 2^nr`, and `free`
is the sum over the orders `o` in `0 .. MAX_ORDER` of the number of chunks in the
order-`o` free list times `2^o`. -/
theorem conservation_of_exact_seeds (MAX_ORDER nr : Nat) (s : buddy) (out : List chunk)
    (h : Reach MAX_ORDER nr s out) (hno : 2 * nr ≤ MAX_ORDER + 32) :
    s.allocated + s.free = 2 ^ nr ∧
      s.free = ∑ o ∈ Finset.range (MAX_ORDER + 1), (flist s o).length * 2 ^ o := by
  obtain ⟨hi, hsum⟩ := reach_inv h hno
  exact ⟨hsum, by rw [hi.free_eq, total_pages_eq hi.lists]⟩

/-- C3 (FIFO allocation). In every state in which the order-`o` free list, with
`o` at most `MAX_ORDER`, is non-empty (its stored length is positive and its
queue is `c :: rest`), `alloc_pages(o)` succeeds and returns the start of the head
`c`, the earliest-inserted chunk; the list becomes its former tail `rest`, and
every other list is left as it was, so no split happens. -/
theorem alloc_fifo (MAX_ORDER : Nat) (s : buddy) (o : Nat) (cl : chunk_list) (c : chunk)
    (rest : List chunk) (ho : o ≤ MAX_ORDER) (hcl : s.chunks[o]? = some cl)
    (hcnt : 0 < cl.numofchunkinfreelist) (hq : cl.freech = c :: rest) :
    ∃ s1, alloc_pages MAX_ORDER s o = some { ret := 0, page := some c.start, st := s1 } ∧
      flist s1 o = rest ∧ (∀ j, j ≠ o → s1.chunks[j]? = s.chunks[j]?) ∧
      (∀ j, j ≠ o → flist s1 j = flist s j) ∧ s1.chunks.length = s.chunks.length := by
  refine ⟨(alloc_done (s.setList o ⟨cl.order, cl.numofchunkinfreelist - 1, rest⟩)
    o c.start).st, ?_, ?_, ?_, ?_, ?_⟩
  · unfold alloc_pages
    rw [if_neg (by simp [NR_ORDERS]; omega), hcl]
    simp only
    rw [if_pos hcnt, hq]
    rfl
  · exact flist_setList_self s o _ cl hcl
  · intro j hj
    exact chunks_setList_ne s o j _ (Ne.symm hj)
  · intro j hj
    exact flist_setList_ne s o j _ (Ne.symm hj)
  · exact length_setList s o _

/-- The example of the source: with the order-2 list `[0x10, 0x18]`,
`alloc_pages(2)` returns `0x10`, not `0x18`, and leaves `[0x18]`. -/
theorem alloc_fifo_witness :
    example_state.chunks[2]? = some ⟨2, 2, [⟨0x10, 2⟩, ⟨0x18, 2⟩]⟩ ∧
      ∃ s1, alloc_pages 4 example_state 2 = some { ret := 0, page := some 0x10, st := s1 } ∧
        flist s1 2 = [⟨0x18, 2⟩] ∧ (∀ j, j ≠ 2 → s1.chunks[j]? = example_state.chunks[j]?) ∧
        (∀ j, j ≠ 2 → flist s1 j = flist example_state j) ∧
        s1.chunks.length = example_state.chunks.length :=
  ⟨rfl, alloc_fifo 4 example_state 2 ⟨2, 2, [⟨0x10, 2⟩, ⟨0x18, 2⟩]⟩ ⟨0x10, 2⟩ [⟨0x18, 2⟩]
    (by decide) rfl (by decide) rfl⟩

/-- C4 (out of memory), the failing input. The state `pool16_fragmented` is
reachable (`init_buddy(4)`, then `alloc_pages` of the orders 0, 3 and 2), no list
of an order from 2 to `MAX_ORDER = 4` holds a chunk, and 3 pages are free in
smaller chunks. There `alloc_pages(2)` does not return `ENOMEM`: the scan of
`b` ends at the top order 4, the test `buddy.free == 0` fails, and the null head
of the empty top list goes to `TAILQ_REMOVE`. -/
theorem alloc_pages_null_head :
    Reach 4 4 pool16_fragmented [⟨4, 2⟩, ⟨8, 3⟩, ⟨0, 0⟩] ∧
      (∀ j, 2 ≤ j → flist pool16_fragmented j = []) ∧ pool16_fragmented.free = 3 ∧
      alloc_scan 4 pool16_fragmented (NR_ORDERS 4) (2 + 1) = some 4 ∧
      pool16_fragmented.chunks[4]? = some ⟨4, 0, []⟩ ∧
      alloc_pages 4 pool16_fragmented 2 = none := by
  refine ⟨reach_pool16_fragmented, ?_, rfl, by decide, rfl, by decide⟩
  intro j hj
  by_cases h : j < 5
  · interval_cases j <;> rfl
  · exact flist_of_none (List.getElem?_eq_none (by simp [pool16_fragmented]; omega))

theorem merge_ref_more_fuel (MAX_ORDER : Nat) :
    ∀ (fuel : Nat) (cur : chunk) (s : buddy), MAX_ORDER - cur.order ≤ fuel →
      merge_ref MAX_ORDER (fuel + 1) cur s = merge_ref MAX_ORDER fuel cur s := by
  intro fuel
  induction fuel with
  | zero =>
    intro cur s h
    have : ¬ cur.order < MAX_ORDER := by omega
    simp [merge_ref, this]
  | succ fuel ih =>
    intro cur s h
    rw [merge_ref]
    conv_rhs => rw [merge_ref]
    split_ifs with hc
    · exact ih _ _ (by simp only; omega)
    · rfl

/-- C5 (cascading merge on free). In a well-formed state, for an aligned chunk
`(p, o)` of the pool with `o` at most `MAX_ORDER` that overlaps no free chunk,
`free_pages(p, o)` returns and leaves the state of the reference cascade
`free_pages_ref`: from `cur = (p, o)`, while the order of `cur` is below
`MAX_ORDER` and the list of that order holds a chunk at the buddy address of
`cur`, that chunk is removed and `cur` becomes the merged chunk of the next
order; then `cur` goes to the tail of the list of its order. `allocated` drops by
`2^o` and `free` grows by `2^o`, for the order `o` of the call. -/
theorem free_cascade (MAX_ORDER nr : Nat) (s : buddy) (p o : Nat)
    (hw : WellFormed MAX_ORDER nr s) (ho : o ≤ MAX_ORDER) (ha : p % 2 ^ o = 0)
    (hin : p + 2 ^ o ≤ 2 ^ nr)
    (hnf : ∀ c ∈ free_chunks s, chunk.Disjoint { start := p, order := o } c) :
    free_pages MAX_ORDER s p o = some (free_pages_ref MAX_ORDER s p o) ∧
      (free_pages_ref MAX_ORDER s p o).allocated + 2 ^ o = s.allocated ∧
      (free_pages_ref MAX_ORDER s p o).free = s.free + 2 ^ o := by
  have hu : ∀ j, (flist s j).Pairwise fun c d => c.start ≠ d.start := fun j =>
    (hw.disjoint.sublist (flist_sublist s j)).imp fun hd => disjoint_start_ne hd
  have hcount := sum_pages_le ({ start := p, order := o } :: free_chunks s) (2 ^ nr)
    (List.pairwise_cons.2 ⟨hnf, hw.disjoint⟩)
    (by
      intro c hc
      rcases List.mem_cons.1 hc with rfl | hc
      · exact hin
      · exact hw.inside c hc)
  simp only [List.map_cons, List.sum_cons, chunk.pages] at hcount
  have hfree := hw.free_eq
  rw [total_eq_free_chunks] at hfree
  have hsum := hw.sum_eq
  refine ⟨free_pages_eq_ref MAX_ORDER s p o hw.lists hu ho ha, ?_, rfl⟩
  change s.allocated - 2 ^ o + 2 ^ o = s.allocated
  have hpg : ((free_chunks s).map chunk.pages).sum =
      ((free_chunks s).map fun c => 2 ^ c.order).sum := rfl
  omega

/-- The cascade of the documentation of `free_pages`: in the 16-page pool with
`0:2` allocated, `free_pages(0, 2)` merges `0:2` with `4:2`, then `0:3` with
`8:3`, and puts `0:4` into the top list. -/
theorem free_cascade_witness :
    WellFormed 4 4 pool16_a2 ∧
      (∀ c ∈ free_chunks pool16_a2, chunk.Disjoint { start := 0, order := 2 } c) ∧
      free_pages 4 pool16_a2 0 2 = some (free_pages_ref 4 pool16_a2 0 2) ∧
      (free_pages_ref 4 pool16_a2 0 2).allocated + 2 ^ 2 = pool16_a2.allocated ∧
      (free_pages_ref 4 pool16_a2 0 2).free = pool16_a2.free + 2 ^ 2 :=
  ⟨wellFormed_of_reach reach_pool16_a2 (by decide), by decide,
    free_cascade 4 4 pool16_a2 0 2 (wellFormed_of_reach reach_pool16_a2 (by decide)) (by decide)
      (by decide) (by decide) (by decide)⟩

/-- The reference cascade on the sample state gives back the fresh pool. -/
theorem free_pages_ref_sample : free_pages_ref 4 pool16_a2 0 2 = pool16 := by decide

/-! ## Allocation followed by the release of the same chunk -/

theorem merge_all_stop (MAX_ORDER fuel : Nat) (cur : chunk) (s : buddy)
    (h : cur.order < MAX_ORDER →
      ¬ ∃ c ∈ flist s cur.order, c.start = buddy_start cur.start cur.order) :
    merge_all MAX_ORDER fuel cur s = (cur, s) := by
  cases fuel with
  | zero => rfl
  | succ fuel =>
    rw [merge_all, if_neg]
    rintro ⟨h1, h2⟩
    exact h h1 h2

theorem merge_all_unsplit (MAX_ORDER start : Nat) :
    ∀ (n o : Nat) (t : buddy) (fuel : Nat), n ≤ fuel → o + n ≤ MAX_ORDER →
      start % 2 ^ (o + n) = 0 →
      (∀ j, o ≤ j → j < o + n → flist t j = [{ start := start + 2 ^ j, order := j }]) →
      ∃ t1, merge_all MAX_ORDER fuel { start := start, order := o } t =
          merge_all MAX_ORDER (fuel - n) { start := start, order := o + n } t1 ∧
        (∀ j, flist t1 j = if o ≤ j ∧ j < o + n then [] else flist t j) ∧
        t1.chunks.length = t.chunks.length ∧ t1.allocated = t.allocated ∧
        t1.free = t.free := by
  intro n
  induction n with
  | zero =>
    intro o t fuel _ _ _ _
    refine ⟨t, rfl, fun j => ?_, rfl, rfl, rfl⟩
    rw [if_neg (by omega)]
  | succ n ih =>
    intro o t fuel hf hmax ha hlists
    obtain ⟨fuel, rfl⟩ : ∃ k, fuel = k + 1 := ⟨fuel - 1, by omega⟩
    have ha0 : start % 2 ^ o = 0 := mod_pow_of_le (by omega) ha
    have ha1 : start % 2 ^ (o + 1) = 0 := mod_pow_of_le (by omega) ha
    have hb : buddy_start start o = start + 2 ^ o := buddy_start_left ha0 ha1
    have hlo := hlists o (le_refl _) (by omega)
    have hcond : ({ start := start, order := o } : chunk).order < MAX_ORDER ∧
        ∃ c ∈ flist t ({ start := start, order := o } : chunk).order,
          c.start = buddy_start ({ start := start, order := o } : chunk).start
            ({ start := start, order := o } : chunk).order := by
      refine ⟨by simp only; omega, ?_⟩
      simp only [hlo, hb]
      exact ⟨_, List.mem_singleton.2 rfl, rfl⟩
    rw [merge_all, if_pos hcond]
    simp only [hb]
    have hmin : min start (start + 2 ^ o) = start := by omega
    rw [hmin]
    obtain ⟨t1, e1, e2, e3, e4, e5⟩ := ih (o + 1) (t.removeAll o (start + 2 ^ o)) fuel (by omega)
      (by omega) (by rw [show o + 1 + n = o + (n + 1) by omega]; exact ha)
      (by
        intro j h1 h2
        rw [flist_removeAll, if_neg (by omega)]
        exact hlists j (by omega) (by omega))
    refine ⟨t1, ?_, ?_, by rw [e3, length_removeAll], by rw [e4, allocated_removeAll],
      by rw [e5, free_removeAll]⟩
    · have hfuel : fuel + 1 - (n + 1) = fuel - n := by omega
      have hord : o + 1 + n = o + (n + 1) := by omega
      rw [e1, hfuel, hord]
    · intro j
      rw [e2 j, flist_removeAll]
      by_cases hj : j = o
      · subst hj
        rw [if_neg (by omega), if_pos rfl, if_pos ⟨le_refl _, by omega⟩, hlo]
        simp
      · rw [if_neg hj]
        by_cases h2 : o + 1 ≤ j ∧ j < o + 1 + n
        · rw [if_pos h2, if_pos ⟨by omega, by omega⟩]
        · rw [if_neg h2, if_neg (by omega)]

/-- After a successful `alloc_pages(o)` that took the chunk `c` off list `k`,
`free_pages` of the returned chunk puts `c` back at the tail of list `k` and
restores every other list and both counters. -/
theorem alloc_free_lists {MAX_ORDER nr : Nat} {s : buddy} {out : List chunk} {o p : Nat}
    {s1 : buddy} (hi : Sound MAX_ORDER nr s out)
    (h : alloc_pages MAX_ORDER s o = some { ret := 0, page := some p, st := s1 }) :
    ∃ (k : Nat) (c : chunk) (rest : List chunk), o ≤ k ∧ k ≤ MAX_ORDER ∧
      (∀ j, o ≤ j → j < k → flist s j = []) ∧ flist s k = c :: rest ∧ c.start = p ∧
      free_pages MAX_ORDER s1 p o = some (free_pages_all MAX_ORDER s1 p o) ∧
      (∀ j, flist (free_pages_all MAX_ORDER s1 p o) j =
        if j = k then rest ++ [c] else flist s j) ∧
      (free_pages_all MAX_ORDER s1 p o).allocated = s.allocated ∧
      (free_pages_all MAX_ORDER s1 p o).free = s.free := by
  obtain ⟨k, c, rest, hok, hk, hempty, hfl, hp, hs1⟩ :=
    alloc_pages_inv MAX_ORDER s o p s1 hi.lists hi.free_ge h
  have hi1 := sound_alloc hi h
  obtain ⟨hfree, _⟩ := sound_free hi1 (List.mem_cons_self _ _)
  have hcord : c.order = k := hi.lists.ord k c (by rw [hfl]; simp)
  have hcal : c.start % 2 ^ k = 0 := hi.lists.align k c (by rw [hfl]; simp)
  have hceq : c = { start := p, order := k } := by
    cases c; simp only at hcord hp; simp [hcord, hp]
  have hkn : o + (k - o) = k := by omega
  obtain ⟨p1, p2, p3, p4, _⟩ := push_halves_props c.start o (k - o) (s.pop k)
    (by rw [length_pop, hi.lists.len, NR_ORDERS]; omega)
  have hchunks : s1.chunks = (push_halves c.start o (k - o) (s.pop k)).chunks := by
    rw [hs1]; rfl
  have hflist : ∀ j, flist s1 j =
      if o ≤ j ∧ j < k then [{ start := p + 2 ^ j, order := j }]
      else if j = k then rest else flist s j := by
    intro j
    rw [flist_congr hchunks, p4 j, flist_pop, hkn, ← hp]
    by_cases h1 : o ≤ j ∧ j < k
    · rw [if_pos h1, if_pos h1, if_neg (by omega), hempty j h1.1 h1.2]
      rfl
    · rw [if_neg h1, if_neg h1]
      split_ifs with h2
      · subst h2; rw [hfl]; rfl
      · rfl
  have hal : s1.allocated = s.allocated + 2 ^ o := by
    rw [hs1]; simp only [alloc_done, p2, allocated_pop]
  have hfr : s1.free = s.free - 2 ^ o := by
    rw [hs1]; simp only [alloc_done, p3, free_pop]
  have hfge : 2 ^ o ≤ s.free := by
    have h1 := le_total_of_mem chunk.pages s k c (by rw [hfl]; simp)
    have h3 := hi.free_ge
    have h2 : 2 ^ o ≤ 2 ^ k := Nat.pow_le_pow_right (by decide) hok
    simp only [chunk.pages, hcord] at h1
    omega
  obtain ⟨t1, e1, e2, e3, _, _⟩ := merge_all_unsplit MAX_ORDER p (k - o) o s1 MAX_ORDER
    (by omega) (by omega) (by rw [hkn, hp]; exact hcal)
    (by
      intro j h1 h2
      rw [hflist j, if_pos ⟨h1, by omega⟩])
  rw [hkn] at e1 e2
  have hstop := merge_all_stop MAX_ORDER (MAX_ORDER - (k - o)) { start := p, order := k } t1
    (by
      intro hlt
      rintro ⟨d, hd, hdb⟩
      simp only at hd hdb
      rw [e2 k, if_neg (by omega), hflist k, if_neg (by omega), if_pos rfl] at hd
      exact hi.no_pairs k hlt c (by rw [hfl]; simp) d
        (by rw [hfl]; exact List.mem_cons_of_mem _ hd) (by rw [hdb, hceq]))
  have hm : merge_all MAX_ORDER MAX_ORDER { start := p, order := o } s1 =
      ({ start := p, order := k }, t1) := by rw [e1, hstop]
  have href : (free_pages_all MAX_ORDER s1 p o).chunks =
      (t1.append { start := p, order := k }).chunks := by
    simp only [free_pages_all, hm]
  have hlen1 : s1.chunks.length = MAX_ORDER + 1 := by
    rw [hchunks, p1, length_pop, hi.lists.len, NR_ORDERS]
  refine ⟨k, c, rest, hok, hk, hempty, hfl, hp.symm, hfree, ?_, ?_, ?_⟩
  · intro j
    rw [flist_congr href, flist_append t1 _ j (by simp only; omega), e2 j, hflist j]
    simp only
    by_cases hj : j = k
    · subst hj
      have hn : ¬ (o ≤ j ∧ j < j) := by omega
      simp only [if_neg hn, if_true]
      rw [hceq]
    · by_cases h1 : o ≤ j ∧ j < k
      · simp only [if_neg hj, if_pos h1, hempty j h1.1 h1.2]
      · simp only [if_neg hj, if_neg h1]
  · change s1.allocated - 2 ^ o = s.allocated
    omega
  · change s1.free + 2 ^ o = s.free
    omega

/-- C7 (no free buddy pairs). In every reachable state and for every order `o`
below `MAX_ORDER`, the order-`o` free list does not contain both a chunk
`(start, o)` and its buddy `(start XOR 2^o, o)`. -/
theorem no_free_buddy_pairs (MAX_ORDER nr : Nat) (s : buddy) (out : List chunk) (o start : Nat)
    (h : Reach MAX_ORDER nr s out) (ho : o < MAX_ORDER) :
    ¬ (({ start := start, order := o } : chunk) ∈ flist s o ∧
        ({ start := start ^^^ 2 ^ o, order := o } : chunk) ∈ flist s o) := by
  have hi := reach_sound h
  rintro ⟨h1, h2⟩
  exact hi.no_pairs o ho _ h1 _ h2 (by simp only; rw [buddy_start_eq_xor])

/-- In the state of the worked example the order-2 list holds `0x10` and `0x18`;
the buddy of `0x10` is `0x14`, which is allocated. -/
theorem no_free_buddy_pairs_witness :
    Reach 4 5 example_state [⟨0x1c, 0⟩, ⟨0x14, 2⟩] ∧ 2 < 4 ∧
      ¬ (({ start := 0x10, order := 2 } : chunk) ∈ flist example_state 2 ∧
          ({ start := 0x10 ^^^ 2 ^ 2, order := 2 } : chunk) ∈ flist example_state 2) :=
  ⟨reach_example_state, by decide,
    no_free_buddy_pairs 4 5 example_state _ 2 0x10 reach_example_state (by decide)⟩

/-- C8 (alignment). In every reachable state every chunk stored in the order-`o`
free list has order field `o` and a start divisible by `2^o`, and the page that a
successful `alloc_pages(order)` returns is divisible by `2^order`. -/
theorem alignment (MAX_ORDER nr : Nat) (s : buddy) (out : List chunk)
    (h : Reach MAX_ORDER nr s out) :
    (∀ o, ∀ c ∈ flist s o, c.order = o ∧ 2 ^ o ∣ c.start) ∧
      ∀ (order page : Nat) (s1 : buddy),
        alloc_pages MAX_ORDER s order = some { ret := 0, page := some page, st := s1 } →
        2 ^ order ∣ page := by
  have hi := reach_sound h
  refine ⟨fun o c hc => ⟨hi.lists.ord o c hc, Nat.dvd_of_mod_eq_zero (hi.lists.align o c hc)⟩, ?_⟩
  intro order page s1 ha
  have hi1 := sound_alloc hi ha
  exact Nat.dvd_of_mod_eq_zero (hi1.out_ok _ (List.mem_cons_self _ _)).2

/-- Alignment in the state of the worked example, where `alloc_pages(2)` returns
`0x10`. -/
theorem alignment_witness :
    Reach 4 5 example_state [⟨0x1c, 0⟩, ⟨0x14, 2⟩] ∧
      alloc_pages 4 example_state 2 =
        some { ret := 0, page := some 0x10, st := example_state_a2 } ∧
      (∀ o, ∀ c ∈ flist example_state o, c.order = o ∧ 2 ^ o ∣ c.start) ∧ 2 ^ 2 ∣ 0x10 :=
  ⟨reach_example_state, by decide,
    (alignment 4 5 example_state _ reach_example_state).1,
    (alignment 4 5 example_state _ reach_example_state).2 2 0x10 example_state_a2 (by decide)⟩

/-- Disjointness while no product of line 500 overflows (`2 * nr` is at most
`MAX_ORDER + 32`). In every reachable state, with `out` the chunks returned by
`alloc_pages` and not yet freed, the page ranges of the free chunks of all orders
are pairwise non-overlapping, lie inside `[0, 2^nr)` and overlap no outstanding
chunk; and the chunk that a successful `alloc_pages` returns overlaps no
outstanding chunk. -/
theorem disjointness_of_exact_seeds (MAX_ORDER nr : Nat) (s : buddy) (out : List chunk)
    (h : Reach MAX_ORDER nr s out) (hno : 2 * nr ≤ MAX_ORDER + 32) :
    (free_chunks s).Pairwise chunk.Disjoint ∧
      (∀ c ∈ free_chunks s, c.start + 2 ^ c.order ≤ 2 ^ nr) ∧
      (∀ c ∈ free_chunks s, ∀ d ∈ out, chunk.Disjoint c d) ∧
      ∀ (order page : Nat) (s1 : buddy),
        alloc_pages MAX_ORDER s order = some { ret := 0, page := some page, st := s1 } →
        ∀ d ∈ out, chunk.Disjoint { start := page, order := order } d := by
  obtain ⟨hi, _⟩ := reach_inv h hno
  have hw := wellFormed_of_reach h hno
  have hd := List.pairwise_append.1 (free_disjoint_of_tiling hi.tiling)
  refine ⟨hw.disjoint, hw.inside, hd.2.2, ?_⟩
  intro order page s1 ha d hdo
  obtain ⟨hi1, _⟩ := inv_alloc hi ha
  have hd1 := List.pairwise_append.1 (free_disjoint_of_tiling hi1.tiling)
  exact (List.pairwise_cons.1 hd1.2.1).1 d hdo

/-- The seeding while no product of line 500 overflows. For `nr_pages_in_order`
from `MAX_ORDER` to 31 with `2 * nr` at most `MAX_ORDER + 32`, `init_buddy`
returns 0 and leaves `allocated = 0`, `free = 2^nr`, every list of an order below
`MAX_ORDER` empty, and in the top list the `2^(nr - MAX_ORDER)` chunks
`(0, MAX_ORDER)`, `(2^MAX_ORDER, MAX_ORDER)`, `(2 * 2^MAX_ORDER, MAX_ORDER)`, ...
in ascending order of their starts, with that number as the stored length. -/
theorem initial_seeding_of_exact_seeds (MAX_ORDER nr : Nat) (s0 : buddy) (h : MAX_ORDER ≤ nr)
    (hnr : nr < 32) (hno : 2 * nr ≤ MAX_ORDER + 32) :
    ∃ s, init_buddy MAX_ORDER s0 nr = some (0, s) ∧ s.allocated = 0 ∧ s.free = 2 ^ nr ∧
      (∀ o, o < MAX_ORDER → flist s o = []) ∧
      flist s MAX_ORDER = (List.range (2 ^ (nr - MAX_ORDER))).map
        (fun a => { start := a * 2 ^ MAX_ORDER, order := MAX_ORDER }) ∧
      (flist s MAX_ORDER).length = 2 ^ (nr - MAX_ORDER) ∧
      ∀ cl, s.chunks[MAX_ORDER]? = some cl →
        cl.numofchunkinfreelist = 2 ^ (nr - MAX_ORDER) := by
  obtain ⟨s, h0, h1, h2, _, h4⟩ := init_buddy_spec MAX_ORDER nr s0 h hnr hno
  have htop : flist s MAX_ORDER = (List.range (2 ^ (nr - MAX_ORDER))).map
      (fun a => { start := a * 2 ^ MAX_ORDER, order := MAX_ORDER }) := by
    rw [flist_of_some (h4 MAX_ORDER (le_refl _)), if_pos rfl]
  refine ⟨s, h0, h1, h2, ?_, htop, by rw [htop]; simp, ?_⟩
  · intro o ho
    rw [flist_of_some (h4 o (by omega)), if_neg (by omega)]
  · intro cl hcl
    rw [h4 MAX_ORDER (le_refl _), if_pos rfl] at hcl
    cases hcl
    rfl

/-! ## Failure paths -/

/-- For `nr_pages_in_order` below `MAX_ORDER`, `init_buddy` returns the positive
`EINVAL` after it has overwritten the state: `allocated` is 0, `free` is the
32-bit value of `1 << nr_pages_in_order` and every list is empty, whatever the
state was. -/
theorem init_buddy_invalid (MAX_ORDER nr : Nat) (s0 : buddy) (h : nr < MAX_ORDER) :
    ∃ s, init_buddy MAX_ORDER s0 nr = some (EINVAL, s) ∧ s.allocated = 0 ∧
      s.free = to_unsigned (wrap_int (2 ^ nr)) ∧ ∀ o, flist s o = [] := by
  unfold init_buddy
  simp only
  rw [if_pos (by simp [NR_ORDERS]; omega)]
  refine ⟨_, rfl, rfl, rfl, ?_⟩
  intro o
  unfold flist
  simp only [List.getElem?_map]
  cases (List.range (NR_ORDERS MAX_ORDER))[o]? <;> rfl

/-- C11 (init failure), the counterexample. With `MAX_ORDER = 4`, the first call
`init_buddy(3)` on the zero-initialised allocator fails and has changed the
state: `free` was 0 and is 8 afterwards. The same call in the state of the worked
example empties all five lists. -/
theorem init_buddy_failure_changes_state :
    (zeroed 4).free = 0 ∧
      init_buddy 4 (zeroed 4) 3 = some (22,
        { chunks := [⟨0, 0, []⟩, ⟨1, 0, []⟩, ⟨2, 0, []⟩, ⟨3, 0, []⟩, ⟨4, 0, []⟩],
          allocated := 0, free := 8 }) ∧
      init_buddy 4 example_state 3 = some (22,
        { chunks := [⟨0, 0, []⟩, ⟨1, 0, []⟩, ⟨2, 0, []⟩, ⟨3, 0, []⟩, ⟨4, 0, []⟩],
          allocated := 0, free := 8 }) :=
  ⟨rfl, by decide, by decide⟩

/-- C11 (init failure), as amended. For every `nr_pages_in_order` below
`MAX_ORDER`, `init_buddy` fails with the error code `EINVAL`, and it does so after
it has reset the allocator: whatever the state before the call, afterwards there
are `NR_ORDERS` lists, every free list is empty and `allocated` is 0. -/
theorem init_buddy_rejects (MAX_ORDER nr : Nat) (s0 : buddy) (h : nr < MAX_ORDER) :
    ∃ (r : Int) (s : buddy), init_buddy MAX_ORDER s0 nr = some (r, s) ∧
      (r = EINVAL ∨ r = -EINVAL) ∧ s.chunks.length = NR_ORDERS MAX_ORDER ∧
      (∀ o, flist s o = []) ∧ s.allocated = 0 := by
  obtain ⟨s, h1, h2, _, h4⟩ := init_buddy_invalid MAX_ORDER nr s0 h
  refine ⟨EINVAL, s, h1, Or.inl rfl, ?_, h4, h2⟩
  unfold init_buddy at h1
  simp only at h1
  rw [if_pos (by simp [NR_ORDERS]; omega)] at h1
  simp only [Option.some.injEq, Prod.mk.injEq, true_and] at h1
  rw [← h1]
  simp

/-- The call `init_buddy(3)` with `MAX_ORDER = 4` in the state of the worked
example. -/
theorem init_buddy_rejects_witness :
    3 < 4 ∧
      ∃ (r : Int) (s : buddy), init_buddy 4 example_state 3 = some (r, s) ∧
        (r = EINVAL ∨ r = -EINVAL) ∧ s.chunks.length = NR_ORDERS 4 ∧
        (∀ o, flist s o = []) ∧ s.allocated = 0 :=
  ⟨by decide, init_buddy_rejects 4 3 example_state (by decide)⟩

/-- For an order above `MAX_ORDER`, `alloc_pages` returns the positive `EINVAL`,
stores no page and leaves the state as it was. -/
theorem alloc_pages_invalid_order (MAX_ORDER : Nat) (s : buddy) (order : Nat)
    (h : MAX_ORDER < order) :
    alloc_pages MAX_ORDER s order = some { ret := EINVAL, page := none, st := s } := by
  unfold alloc_pages
  rw [if_pos (by simp [NR_ORDERS]; omega)]

/-- C12 (invalid order), the failing input. With `MAX_ORDER = 4`, `alloc_pages(5)`
on the fresh 32-page pool leaves the state as it was and returns 22, the positive
`EINVAL`, where the documentation of the function promises `-EINVAL`. -/
theorem alloc_pages_einval_positive :
    alloc_pages 4 pool32 5 = some { ret := 22, page := none, st := pool32 } ∧
      EINVAL = 22 ∧ (22 : Int) ≠ -EINVAL :=
  ⟨by decide, rfl, by decide⟩

/-- C17 (buddy removal keeps FIFO order), the counterexample. With
`MAX_ORDER = 4` and the order-2 list `[0xfffffffc:2]`, whose stored length 1 is
its length, `Buddyornot(1, 2, 0)` returns 1 and empties the list, although no
chunk of the list starts at the integer `0 - 2^2`: the comparison is made in
`unsigned int`, where `-4` is `0xfffffffc`. -/
theorem Buddyornot_wraps :
    wrapped_sample.chunks[2]? = some ⟨2, 1, [⟨0xfffffffc, 2⟩]⟩ ∧
      Buddyornot 4 wrapped_sample 1 2 0 = some (1,
        { chunks := [⟨0, 0, []⟩, ⟨1, 0, []⟩, ⟨2, 0, []⟩, ⟨3, 0, []⟩, ⟨4, 0, []⟩],
          allocated := 12, free := 4 }) ∧
      ¬ ∃ c ∈ [(⟨0xfffffffc, 2⟩ : chunk)], (c.start : Int) = (0 : Int) - 2 ^ 2 := by
  refine ⟨rfl, by decide, by decide⟩

/-- C17 (buddy removal keeps FIFO order), as amended. Let the order-`o` list
`cl` have a stored length equal to the length of its queue, and let `target` be
`p + 2^o` when the side flag `f` is 0 and `p - 2^o` otherwise, converted to
`unsigned int` (a negative value is that value plus `2^32`). For `o` below
`MAX_ORDER`, `Buddyornot(f, o, p)` returns 1 if the queue holds a chunk that
starts at `target` and 0 if not; afterwards the order-`o` queue is the old one
without the chunks at `target`, the other chunks in their old order, its stored
length is its new length, and every other list and both counters are as before.
For `o = MAX_ORDER` it returns 0 and changes nothing. -/
theorem Buddyornot_removes (MAX_ORDER : Nat) (s : buddy) (f : Int) (o : Nat) (p : Int)
    (cl : chunk_list) (hcl : s.chunks[o]? = some cl)
    (hcnt : cl.numofchunkinfreelist = cl.freech.length) :
    (o < MAX_ORDER →
      ∃ (r : Int) (s1 : buddy) (cl1 : chunk_list),
        Buddyornot MAX_ORDER s f o p = some (r, s1) ∧
        (r = 1 ↔ ∃ c ∈ cl.freech,
          c.start = as_unsigned (if f = 0 then p + 2 ^ o else p - 2 ^ o)) ∧
        (r = 0 ∨ r = 1) ∧
        s1.chunks[o]? = some cl1 ∧
        cl1.freech = cl.freech.filter
          (fun c => decide (c.start ≠ as_unsigned (if f = 0 then p + 2 ^ o else p - 2 ^ o))) ∧
        cl1.numofchunkinfreelist = cl1.freech.length ∧
        (∀ j, j ≠ o → s1.chunks[j]? = s.chunks[j]?) ∧
        s1.chunks.length = s.chunks.length ∧
        s1.allocated = s.allocated ∧ s1.free = s.free) ∧
    (o = MAX_ORDER → Buddyornot MAX_ORDER s f o p = some (0, s)) := by
  constructor
  · intro ho
    have hB := Buddyornot_spec MAX_ORDER s f o p cl hcl hcnt (by omega)
      (if f = 0 then p + 2 ^ o else p - 2 ^ o) rfl
    refine ⟨_, _, _, hB, ?_, ?_, chunks_setList_self s o _ cl hcl, rfl, rfl, ?_, ?_, rfl, rfl⟩
    · by_cases hex : ∃ c ∈ cl.freech,
          c.start = as_unsigned (if f = 0 then p + 2 ^ o else p - 2 ^ o)
      · rw [if_pos hex]
        exact ⟨fun _ => hex, fun _ => rfl⟩
      · rw [if_neg hex]
        exact ⟨fun h => absurd h (by decide), fun h => absurd h hex⟩
    · by_cases hex : ∃ c ∈ cl.freech,
          c.start = as_unsigned (if f = 0 then p + 2 ^ o else p - 2 ^ o)
      · rw [if_pos hex]
        exact Or.inr rfl
      · rw [if_neg hex]
        exact Or.inl rfl
    · intro j hj
      exact chunks_setList_ne s o j _ (Ne.symm hj)
    · exact length_setList s o _
  · intro ho
    unfold Buddyornot
    rw [hcl]
    simp only
    rw [if_pos (by simp [NR_ORDERS, ho])]

/-- In the state of the worked example, whose order-2 list is `[0x10, 0x18]`,
`Buddyornot(0, 2, 0x14)` looks for `0x18`. -/
theorem Buddyornot_removes_witness :
    example_state.chunks[2]? = some ⟨2, 2, [⟨0x10, 2⟩, ⟨0x18, 2⟩]⟩ ∧
      Buddyornot 4 example_state 0 2 0x14 = some (1,
        { chunks := [⟨0, 1, [⟨0x1d, 0⟩]⟩, ⟨1, 1, [⟨0x1e, 1⟩]⟩, ⟨2, 1, [⟨0x10, 2⟩]⟩,
            ⟨3, 0, []⟩, ⟨4, 1, [⟨0x00, 4⟩]⟩],
          allocated := 5, free := 27 }) ∧
      as_unsigned (if (0 : Int) = 0 then 0x14 + 2 ^ 2 else 0x14 - 2 ^ 2) = 0x18 ∧
      (2 < 4 →
        ∃ (r : Int) (s1 : buddy) (cl1 : chunk_list),
          Buddyornot 4 example_state 0 2 0x14 = some (r, s1) ∧
          (r = 1 ↔ ∃ c ∈ [(⟨0x10, 2⟩ : chunk), ⟨0x18, 2⟩],
            c.start = as_unsigned (if (0 : Int) = 0 then 0x14 + 2 ^ 2 else 0x14 - 2 ^ 2)) ∧
          (r = 0 ∨ r = 1) ∧
          s1.chunks[2]? = some cl1 ∧
          cl1.freech = [(⟨0x10, 2⟩ : chunk), ⟨0x18, 2⟩].filter
            (fun c => decide (c.start ≠
              as_unsigned (if (0 : Int) = 0 then 0x14 + 2 ^ 2 else 0x14 - 2 ^ 2))) ∧
          cl1.numofchunkinfreelist = cl1.freech.length ∧
          (∀ j, j ≠ 2 → s1.chunks[j]? = example_state.chunks[j]?) ∧
          s1.chunks.length = example_state.chunks.length ∧
          s1.allocated = example_state.allocated ∧ s1.free = example_state.free) :=
  ⟨rfl, by decide, by decide,
    (Buddyornot_removes 4 example_state 0 2 0x14 ⟨2, 2, [⟨0x10, 2⟩, ⟨0x18, 2⟩]⟩ rfl rfl).1⟩

theorem print_loop_spec (order : Nat) (pre : List chunk) :
    ∀ (kept : List chunk) (out : List (Nat × Nat)) (o n : Nat), pre.length ≤ n →
      print_loop order pre.length
          { order := o, numofchunkinfreelist := n, freech := pre ++ kept } out =
        some (out ++ pre.map (fun c => (c.start, order)),
          { order := o, numofchunkinfreelist := n, freech := kept ++ pre }) := by
  induction pre with
  | nil => intro kept out o n _; simp [print_loop]
  | cons c pre ih =>
    intro kept out o n hn
    simp only [List.length_cons] at hn
    simp only [List.length_cons, print_loop, List.cons_append, chunk_list.push]
    have h1 : n - 1 + 1 = n := by omega
    rw [h1]
    have := ih (kept ++ [c]) (out ++ [(c.start, order)]) o n (by omega)
    simp only [List.append_assoc, List.singleton_append] at this ⊢
    rw [this]
    simp

/-- C13 (non-destructive listing). In a state with `NR_ORDERS` lists in which the
stored length of each list is the length of its queue, and for every order `o` up
to `MAX_ORDER`, `print_free_pages(o)` writes one line per chunk of the order-`o`
list, from the oldest chunk to the newest, each with the start of the chunk and
the order `o`, and leaves the state exactly as it was: every free list with its
contents and sequence, and both counters. So a second call right after writes
the same lines. -/
theorem print_free_pages_listing (MAX_ORDER : Nat) (s : buddy) (o : Nat)
    (hlen : s.chunks.length = NR_ORDERS MAX_ORDER)
    (hcnt : ∀ (j : Nat) (cl : chunk_list), s.chunks[j]? = some cl →
      cl.numofchunkinfreelist = cl.freech.length)
    (ho : o ≤ MAX_ORDER) :
    print_free_pages s o = some ((flist s o).map (fun c => (c.start, o)), s) ∧
      ∀ (out : List (Nat × Nat)) (s1 : buddy), print_free_pages s o = some (out, s1) →
        print_free_pages s1 o = some (out, s1) := by
  have hi : o < s.chunks.length := by rw [hlen, NR_ORDERS]; omega
  have hcl : s.chunks[o]? = some s.chunks[o] := List.getElem?_eq_getElem hi
  have hc := hcnt o _ hcl
  have key : print_free_pages s o = some ((flist s o).map (fun c => (c.start, o)), s) := by
    unfold print_free_pages
    rw [hcl, flist_of_some hcl]
    simp only
    by_cases h0 : s.chunks[o].numofchunkinfreelist > 0
    · rw [if_pos h0]
      have hl := print_loop_spec o s.chunks[o].freech [] [] s.chunks[o].order
        s.chunks[o].numofchunkinfreelist (by omega)
      simp only [List.append_nil, List.nil_append] at hl
      rw [← hc] at hl
      rw [hl]
      simp only
      rw [setList_self s o _ hcl]
    · rw [if_neg h0]
      have : s.chunks[o].freech = [] := by
        apply List.eq_nil_of_length_eq_zero; omega
      rw [this]
      rfl
  refine ⟨key, ?_⟩
  intro out s1 h
  rw [key] at h
  cases h
  exact key

/-- The listings of the documentation of `print_free_pages`: in the state of the
worked example, `print_free_pages(2)` writes `0x10:2` and then `0x18:2`. -/
theorem print_free_pages_listing_witness :
    example_state.chunks.length = NR_ORDERS 4 ∧
      (flist example_state 2).map (fun c => (c.start, 2)) = [(0x10, 2), (0x18, 2)] ∧
      print_free_pages example_state 2 =
        some ((flist example_state 2).map (fun c => (c.start, 2)), example_state) ∧
      ∀ (out : List (Nat × Nat)) (s1 : buddy),
        print_free_pages example_state 2 = some (out, s1) →
        print_free_pages s1 2 = some (out, s1) :=
  ⟨rfl, rfl,
    print_free_pages_listing 4 example_state 2 rfl
      (fun j cl hcl => by
        have hj : j < 5 := (List.getElem?_eq_some.1 hcl).1
        interval_cases j <;> (cases hcl; rfl))
      (by decide)⟩

/-! ## `get_unusable_index` -/

theorem unusable_loop_spec (MAX_ORDER : Nat) (s : buddy) (hl : ListsOk MAX_ORDER s) :
    ∀ (n a : Nat) (sum : ℚ), a + n ≤ MAX_ORDER + 1 →
      unusable_loop s n a sum =
        some (sum + ((∑ i ∈ Finset.range n, (flist s (a + i)).length * 2 ^ (a + i) : Nat) : ℚ)) := by
  intro n
  induction n with
  | zero => intro a sum _; simp [unusable_loop]
  | succ n ih =>
    intro a sum han
    have hi : a < s.chunks.length := by rw [hl.len, NR_ORDERS]; omega
    have hcl : s.chunks[a]? = some s.chunks[a] := List.getElem?_eq_getElem hi
    simp only [unusable_loop, hcl]
    rw [ih (a + 1) _ (by omega), Finset.sum_range_succ', hl.cnt a _ hcl, ← flist_of_some hcl]
    simp only [Nat.add_zero, Option.some.injEq]
    have : ∀ i, a + 1 + i = a + (i + 1) := fun i => by omega
    simp only [this]
    push_cast
    ring

theorem unusable_sum_le {MAX_ORDER nr : Nat} {s : buddy} {out : List chunk}
    (h : Reach MAX_ORDER nr s out) (o : Nat) (ho : o ≤ MAX_ORDER + 1) :
    ∑ i ∈ Finset.range o, (flist s i).length * 2 ^ i ≤ s.free := by
  have hi := reach_sound h
  refine le_trans ?_ hi.free_ge
  rw [total_pages_eq hi.lists]
  exact Finset.sum_le_sum_of_subset (Finset.range_mono ho)

theorem get_unusable_index_eq {MAX_ORDER nr : Nat} {s : buddy} {out : List chunk}
    (h : Reach MAX_ORDER nr s out) (hfree : 0 < s.free) (o : Nat) (ho1 : 1 ≤ o)
    (ho : o ≤ MAX_ORDER + 1) :
    get_unusable_index s o =
      some (((∑ i ∈ Finset.range o, (flist s i).length * 2 ^ i : Nat) : ℚ) / (s.free : ℚ)) := by
  have hi := reach_sound h
  unfold get_unusable_index
  rw [if_neg (by omega), unusable_loop_spec MAX_ORDER s hi.lists o 0 0 (by omega)]
  simp only [Nat.zero_add, zero_add]
  rw [if_neg (by omega)]

/-- C14 (unusable index). In a reachable state with `free > 0` and in exact
rational arithmetic: `get_unusable_index(0)` is 0; for every order `o` from 1 to
`MAX_ORDER` (and for `MAX_ORDER + 1`) the result is the sum over `i < o` of the
number of chunks in the order-`i` list times `2^i`, divided by `free`; every
result lies between 0 and 1; and the result for `o` is at most the result for
`o + 1`. -/
theorem unusable_index (MAX_ORDER nr : Nat) (s : buddy) (out : List chunk)
    (h : Reach MAX_ORDER nr s out) (hfree : 0 < s.free) :
    get_unusable_index s 0 = some 0 ∧
      (∀ o, 1 ≤ o → o ≤ MAX_ORDER + 1 →
        get_unusable_index s o =
          some (((∑ i ∈ Finset.range o, (flist s i).length * 2 ^ i : Nat) : ℚ) /
            (s.free : ℚ))) ∧
      (∀ o, o ≤ MAX_ORDER + 1 →
        ∃ u, get_unusable_index s o = some u ∧ 0 ≤ u ∧ u ≤ 1) ∧
      (∀ o, o ≤ MAX_ORDER →
        ∃ u v, get_unusable_index s o = some u ∧ get_unusable_index s (o + 1) = some v ∧
          u ≤ v) := by
  have hpos : (0 : ℚ) < (s.free : ℚ) := by exact_mod_cast hfree
  have hbound : ∀ o, 1 ≤ o → o ≤ MAX_ORDER + 1 →
      (0 : ℚ) ≤ ((∑ i ∈ Finset.range o, (flist s i).length * 2 ^ i : Nat) : ℚ) / (s.free : ℚ) ∧
      ((∑ i ∈ Finset.range o, (flist s i).length * 2 ^ i : Nat) : ℚ) / (s.free : ℚ) ≤ 1 := by
    intro o _ ho
    refine ⟨div_nonneg (Nat.cast_nonneg _) hpos.le, ?_⟩
    rw [div_le_one hpos]
    exact_mod_cast unusable_sum_le h o ho
  have h0 : get_unusable_index s 0 = some 0 := by simp [get_unusable_index]
  refine ⟨h0, fun o h1 h2 => get_unusable_index_eq h hfree o h1 h2, ?_, ?_⟩
  · intro o ho
    rcases Nat.eq_zero_or_pos o with rfl | hp
    · exact ⟨0, h0, le_refl _, by norm_num⟩
    · exact ⟨_, get_unusable_index_eq h hfree o hp ho, hbound o hp ho⟩
  · intro o ho
    rcases Nat.eq_zero_or_pos o with rfl | hp
    · exact ⟨0, _, h0, get_unusable_index_eq h hfree 1 (le_refl _) (by omega),
        (hbound 1 (le_refl _) (by omega)).1⟩
    · refine ⟨_, _, get_unusable_index_eq h hfree o hp (by omega),
        get_unusable_index_eq h hfree (o + 1) (by omega) (by omega), ?_⟩
      apply div_le_div_of_nonneg_right _ hpos.le
      rw [Finset.sum_range_succ]
      push_cast
      have : (0 : ℚ) ≤ ((flist s o).length : ℚ) * 2 ^ o := by positivity
      linarith

/-- The unusable index in the state of the worked example, with 27 free pages. -/
theorem unusable_index_witness :
    Reach 4 5 example_state [⟨0x1c, 0⟩, ⟨0x14, 2⟩] ∧ 0 < example_state.free ∧
      get_unusable_index example_state 0 = some 0 ∧
      (∀ o, 1 ≤ o → o ≤ 4 + 1 →
        get_unusable_index example_state o =
          some (((∑ i ∈ Finset.range o, (flist example_state i).length * 2 ^ i : Nat) : ℚ) /
            (example_state.free : ℚ))) ∧
      (∀ o, o ≤ 4 + 1 →
        ∃ u, get_unusable_index example_state o = some u ∧ 0 ≤ u ∧ u ≤ 1) ∧
      (∀ o, o ≤ 4 →
        ∃ u v, get_unusable_index example_state o = some u ∧
          get_unusable_index example_state (o + 1) = some v ∧ u ≤ v) :=
  ⟨reach_example_state, by decide,
    unusable_index 4 5 example_state _ reach_example_state (by decide)⟩

/-- C15 (canonical scenario). With `MAX_ORDER = 4`, after `init_buddy(5)` the calls
`alloc_pages(4) = 0x00`, `alloc_pages(2) = 0x10`, `alloc_pages(2) = 0x14`,
`alloc_pages(2) = 0x18`, `alloc_pages(0) = 0x1c`, `free_pages(0x10, 2)`,
`free_pages(0x18, 2)` and `free_pages(0x00, 4)` leave the chunks `0x14:2` and
`0x1c:0` outstanding and the free lists of the worked example of the source:
order 4 `[0x00]`, order 3 empty, order 2 `[0x10, 0x18]`, order 1 `[0x1e]`,
order 0 `[0x1d]`, with 27 free pages, and `get_unusable_index(2)` is `3/27`. -/
theorem worked_example :
    init_buddy 4 (zeroed 4) 5 = some (0, pool32) ∧
      alloc_pages 4 pool32 4 = some { ret := 0, page := some 0x00, st := pool32_a4 } ∧
      alloc_pages 4 pool32_a4 2 = some { ret := 0, page := some 0x10, st :=
        { chunks := [⟨0, 0, []⟩, ⟨1, 0, []⟩, ⟨2, 1, [⟨0x14, 2⟩]⟩, ⟨3, 1, [⟨0x18, 3⟩]⟩,
            ⟨4, 0, []⟩],
          allocated := 20, free := 12 } } ∧
      alloc_pages 4
        { chunks := [⟨0, 0, []⟩, ⟨1, 0, []⟩, ⟨2, 1, [⟨0x14, 2⟩]⟩, ⟨3, 1, [⟨0x18, 3⟩]⟩,
            ⟨4, 0, []⟩],
          allocated := 20, free := 12 } 2 = some { ret := 0, page := some 0x14, st :=
        { chunks := [⟨0, 0, []⟩, ⟨1, 0, []⟩, ⟨2, 0, []⟩, ⟨3, 1, [⟨0x18, 3⟩]⟩, ⟨4, 0, []⟩],
          allocated := 24, free := 8 } } ∧
      alloc_pages 4
        { chunks := [⟨0, 0, []⟩, ⟨1, 0, []⟩, ⟨2, 0, []⟩, ⟨3, 1, [⟨0x18, 3⟩]⟩, ⟨4, 0, []⟩],
          allocated := 24, free := 8 } 2 = some { ret := 0, page := some 0x18, st :=
        { chunks := [⟨0, 0, []⟩, ⟨1, 0, []⟩, ⟨2, 1, [⟨0x1c, 2⟩]⟩, ⟨3, 0, []⟩, ⟨4, 0, []⟩],
          allocated := 28, free := 4 } } ∧
      alloc_pages 4
        { chunks := [⟨0, 0, []⟩, ⟨1, 0, []⟩, ⟨2, 1, [⟨0x1c, 2⟩]⟩, ⟨3, 0, []⟩, ⟨4, 0, []⟩],
          allocated := 28, free := 4 } 0 = some { ret := 0, page := some 0x1c, st :=
        { chunks := [⟨0, 1, [⟨0x1d, 0⟩]⟩, ⟨1, 1, [⟨0x1e, 1⟩]⟩, ⟨2, 0, []⟩, ⟨3, 0, []⟩,
            ⟨4, 0, []⟩],
          allocated := 29, free := 3 } } ∧
      free_pages 4
        { chunks := [⟨0, 1, [⟨0x1d, 0⟩]⟩, ⟨1, 1, [⟨0x1e, 1⟩]⟩, ⟨2, 0, []⟩, ⟨3, 0, []⟩,
            ⟨4, 0, []⟩],
          allocated := 29, free := 3 } 0x10 2 = some
        { chunks := [⟨0, 1, [⟨0x1d, 0⟩]⟩, ⟨1, 1, [⟨0x1e, 1⟩]⟩, ⟨2, 1, [⟨0x10, 2⟩]⟩,
            ⟨3, 0, []⟩, ⟨4, 0, []⟩],
          allocated := 25, free := 7 } ∧
      free_pages 4
        { chunks := [⟨0, 1, [⟨0x1d, 0⟩]⟩, ⟨1, 1, [⟨0x1e, 1⟩]⟩, ⟨2, 1, [⟨0x10, 2⟩]⟩,
            ⟨3, 0, []⟩, ⟨4, 0, []⟩],
          allocated := 25, free := 7 } 0x18 2 = some
        { chunks := [⟨0, 1, [⟨0x1d, 0⟩]⟩, ⟨1, 1, [⟨0x1e, 1⟩]⟩,
            ⟨2, 2, [⟨0x10, 2⟩, ⟨0x18, 2⟩]⟩, ⟨3, 0, []⟩, ⟨4, 0, []⟩],
          allocated := 21, free := 11 } ∧
      free_pages 4
        { chunks := [⟨0, 1, [⟨0x1d, 0⟩]⟩, ⟨1, 1, [⟨0x1e, 1⟩]⟩,
            ⟨2, 2, [⟨0x10, 2⟩, ⟨0x18, 2⟩]⟩, ⟨3, 0, []⟩, ⟨4, 0, []⟩],
          allocated := 21, free := 11 } 0x00 4 = some example_state ∧
      Reach 4 5 example_state [⟨0x1c, 0⟩, ⟨0x14, 2⟩] ∧
      flist example_state 4 = [⟨0x00, 4⟩] ∧ flist example_state 3 = [] ∧
      flist example_state 2 = [⟨0x10, 2⟩, ⟨0x18, 2⟩] ∧ flist example_state 1 = [⟨0x1e, 1⟩] ∧
      flist example_state 0 = [⟨0x1d, 0⟩] ∧
      example_state.allocated = 5 ∧ example_state.free = 27 ∧
      get_unusable_index example_state 2 = some (3 / 27) := by
  refine ⟨by decide, by decide, by decide, by decide, by decide, by decide, by decide,
    by decide, by decide, reach_example_state, rfl, rfl, rfl, rfl, rfl, rfl, rfl, ?_⟩
  norm_num [get_unusable_index, unusable_loop, example_state]

/-! ## A pool without outstanding chunks -/

theorem reach_le {MAX_ORDER nr : Nat} {s : buddy} {out : List chunk}
    (h : Reach MAX_ORDER nr s out) : MAX_ORDER ≤ nr := by
  induction h with
  | init s0 s _ h => exact init_buddy_ok_le h
  | alloc _ _ _ _ _ _ _ ih => exact ih
  | free _ _ _ _ _ _ _ _ ih => exact ih

theorem exists_cover_of_total {s : buddy} {x : Nat} (h : total (chunk.cover x) s = 1) :
    ∃ (o : Nat) (d : chunk), d ∈ flist s o ∧ d.start ≤ x ∧ x < d.start + 2 ^ d.order := by
  rw [total_eq_free_chunks] at h
  have hne : ((free_chunks s).map (chunk.cover x)).sum ≠ 0 := by omega
  obtain ⟨y, hy, hy0⟩ := List.exists_mem_ne_zero_of_sum_ne_zero hne
  obtain ⟨d, hd, rfl⟩ := List.mem_map.1 hy
  obtain ⟨o, ho⟩ := mem_free_chunks.1 hd
  refine ⟨o, d, ho, ?_⟩
  simp only [chunk.cover] at hy0
  by_contra hcon
  exact hy0 (if_neg hcon)

theorem disjoint_symm : Symmetric chunk.Disjoint := by
  intro c d h
  rcases h with h | h
  · exact Or.inr h
  · exact Or.inl h

theorem out_nil_of_allocated_zero {MAX_ORDER nr : Nat} {s : buddy} {out : List chunk}
    (hi : Inv MAX_ORDER nr s out) (h0 : s.allocated = 0) : out = [] := by
  cases out with
  | nil => rfl
  | cons c out =>
    have := hi.alloc_eq
    rw [h0] at this
    simp only [List.map_cons, List.sum_cons, chunk.pages] at this
    have hp : 0 < 2 ^ c.order := Nat.pos_pow_of_pos _ (by decide)
    omega

/-- While no product of line 500 overflows, in a reachable state without
outstanding chunks the lists below the top order are empty. -/
theorem lower_lists_empty {MAX_ORDER nr : Nat} {s : buddy} {out : List chunk}
    (h : Reach MAX_ORDER nr s out) (hno : 2 * nr ≤ MAX_ORDER + 32) (h0 : s.allocated = 0) :
    ∀ o, o < MAX_ORDER → flist s o = [] := by
  obtain ⟨hi, _⟩ := reach_inv h hno
  have hw := wellFormed_of_reach h hno
  have hnr := reach_le h
  have hout := out_nil_of_allocated_zero hi h0
  subst hout
  have htile : ∀ x, x < 2 ^ nr → total (chunk.cover x) s = 1 := by
    intro x hx
    have := hi.tiling x
    simp only [List.map_nil, List.sum_nil, Nat.add_zero, if_pos hx] at this
    exact this
  have hdis : ∀ c d, c ∈ free_chunks s → d ∈ free_chunks s → c ≠ d → chunk.Disjoint c d :=
    fun c d hc hd hne => hw.disjoint.forall disjoint_symm hc hd hne
  intro o
  induction o using Nat.strong_induction_on with
  | _ o ih =>
    intro ho
    by_contra hne
    obtain ⟨c, rest, hcr⟩ := List.exists_cons_of_ne_nil hne
    have hc : c ∈ flist s o := by rw [hcr]; exact List.mem_cons_self _ _
    have hcord := hi.lists.ord o c hc
    have hcal := hi.lists.align o c hc
    have hcin := hw.inside c (mem_free_chunks.2 ⟨o, hc⟩)
    rw [hcord] at hcin
    have hp : 0 < 2 ^ o := Nat.pos_pow_of_pos _ (by decide)
    have hpp : 2 ^ (o + 1) = 2 ^ o + 2 ^ o := by rw [pow_succ]; omega
    -- the parent block `[P, P + 2^(o+1))` of `c` holds `c` and its buddy
    have hparent : ∃ P, P % 2 ^ (o + 1) = 0 ∧ P ≤ c.start ∧ c.start < P + 2 ^ (o + 1) ∧
        P ≤ buddy_start c.start o ∧ buddy_start c.start o < P + 2 ^ (o + 1) ∧
        buddy_start c.start o % 2 ^ o = 0 := by
      by_cases h2 : c.start % 2 ^ (o + 1) = 0
      · have hb := buddy_start_left hcal h2
        refine ⟨c.start, h2, le_refl _, by omega, by omega, by omega, ?_⟩
        rw [hb, Nat.add_mod, hcal, Nat.mod_self]
        simp
      · obtain ⟨hb, hle, ha1⟩ := buddy_start_right hcal h2
        refine ⟨c.start - 2 ^ o, ha1, by omega, by omega, by omega, by omega, ?_⟩
        rw [hb]
        exact mod_pow_of_le (Nat.le_succ o) ha1
    obtain ⟨P, hP0, hP1, hP2, hP3, hP4, hbal⟩ := hparent
    have hPin : P + 2 ^ (o + 1) ≤ 2 ^ nr := aligned_block_inside hP0 (by omega) (by omega)
    obtain ⟨od, d, hd, hd1, hd2⟩ := exists_cover_of_total (htile (buddy_start c.start o) (by omega))
    have hdord := hi.lists.ord od d hd
    have hdal := hi.lists.align od d hd
    rw [hdord] at hd2
    have hod : o ≤ od := by
      by_contra hlt
      have := ih od (by omega) (by omega)
      rw [this] at hd
      simp at hd
    rcases Nat.eq_or_lt_of_le hod with heq | hlt
    · -- a chunk of the same order that holds the buddy address is the buddy
      subst heq
      have h1 : buddy_start c.start o ≤ d.start := multiple_le hbal hdal (by omega)
      exact hi.no_pairs o ho c hc d hd (by omega)
    · -- a chunk of a higher order that holds the buddy address holds `c` too
      have hdal1 : d.start % 2 ^ (o + 1) = 0 := mod_pow_of_le (by omega) hdal
      have hend : (d.start + 2 ^ od) % 2 ^ (o + 1) = 0 := by
        have : (2 ^ od) % 2 ^ (o + 1) = 0 :=
          Nat.mod_eq_zero_of_dvd (pow_dvd_pow 2 (by omega))
        rw [Nat.add_mod, hdal1, this]
        simp
      have h1 : d.start ≤ P := multiple_le hdal1 hP0 (by omega)
      have hP5 : (P + 2 ^ (o + 1)) % 2 ^ (o + 1) = 0 := by
        rw [Nat.add_mod, hP0, Nat.mod_self]
        simp
      have h2 : P + 2 ^ (o + 1) ≤ d.start + 2 ^ od := multiple_le hP5 hend (by omega)
      have hne : c ≠ d := by
        intro he
        rw [he] at hcord
        omega
      have := hdis c d (mem_free_chunks.2 ⟨o, hc⟩) (mem_free_chunks.2 ⟨od, hd⟩) hne
      simp only [chunk.Disjoint, hcord, hdord] at this
      omega

/-- Full coalescing while no product of line 500 overflows (`2 * nr` is at most
`MAX_ORDER + 32`). In every state reachable from `init_buddy(nr)` in which no
allocation is outstanding (`allocated = 0`), every free list of an order below
`MAX_ORDER` is empty, and the top list holds exactly the `2^(nr - MAX_ORDER)`
chunks with the starts `0`, `2^MAX_ORDER`, `2 * 2^MAX_ORDER`, ..., each once, in
some order. -/
theorem full_coalescing_of_exact_seeds (MAX_ORDER nr : Nat) (s : buddy) (out : List chunk)
    (h : Reach MAX_ORDER nr s out) (hno : 2 * nr ≤ MAX_ORDER + 32) (h0 : s.allocated = 0) :
    MAX_ORDER ≤ nr ∧ (∀ o, o < MAX_ORDER → flist s o = []) ∧
      (flist s MAX_ORDER).Perm ((List.range (2 ^ (nr - MAX_ORDER))).map
        (fun a => { start := a * 2 ^ MAX_ORDER, order := MAX_ORDER })) := by
  have hlow := lower_lists_empty h hno h0
  obtain ⟨hi, _⟩ := reach_inv h hno
  have hw := wellFormed_of_reach h hno
  have hnr := reach_le h
  have hout := out_nil_of_allocated_zero hi h0
  subst hout
  have hp : 0 < 2 ^ MAX_ORDER := Nat.pos_pow_of_pos _ (by decide)
  have hpow : 2 ^ (nr - MAX_ORDER) * 2 ^ MAX_ORDER = 2 ^ nr := by
    rw [← pow_add]; congr 1; omega
  refine ⟨hnr, hlow, ?_⟩
  have hnd1 : (flist s MAX_ORDER).Nodup :=
    (uniq_of_tiling hi.tiling MAX_ORDER).imp fun hne he => hne (by rw [he])
  have hnd2 : ((List.range (2 ^ (nr - MAX_ORDER))).map
      (fun a => ({ start := a * 2 ^ MAX_ORDER, order := MAX_ORDER } : chunk))).Nodup := by
    apply List.Nodup.map _ (List.nodup_range _)
    intro a b hab
    simp only [chunk.mk.injEq, and_true] at hab
    exact Nat.eq_of_mul_eq_mul_right hp hab
  rw [List.perm_ext_iff_of_nodup hnd1 hnd2]
  intro c
  simp only [List.mem_map, List.mem_range]
  constructor
  · intro hc
    have hcord := hi.lists.ord MAX_ORDER c hc
    have hcal := hi.lists.align MAX_ORDER c hc
    have hcin := hw.inside c (mem_free_chunks.2 ⟨MAX_ORDER, hc⟩)
    rw [hcord] at hcin
    have hdiv : c.start / 2 ^ MAX_ORDER * 2 ^ MAX_ORDER = c.start :=
      Nat.div_mul_cancel (Nat.dvd_of_mod_eq_zero hcal)
    refine ⟨c.start / 2 ^ MAX_ORDER, ?_, ?_⟩
    · apply Nat.lt_of_mul_lt_mul_right (a := 2 ^ MAX_ORDER)
      rw [hdiv, hpow]
      omega
    · cases c
      simp only at hcord hdiv
      simp [hcord, hdiv]
  · rintro ⟨a, ha, rfl⟩
    have hx : a * 2 ^ MAX_ORDER < 2 ^ nr := by
      rw [← hpow]
      exact Nat.mul_lt_mul_of_pos_right ha hp
    have htile := hi.tiling (a * 2 ^ MAX_ORDER)
    simp only [List.map_nil, List.sum_nil, Nat.add_zero, if_pos hx] at htile
    obtain ⟨od, d, hd, hd1, hd2⟩ := exists_cover_of_total htile
    have hdord := hi.lists.ord od d hd
    have hdal := hi.lists.align od d hd
    have hod : od = MAX_ORDER := by
      have h1 : ¬ od < MAX_ORDER := by
        intro hlt
        rw [hlow od hlt] at hd
        simp at hd
      have h2 : od < MAX_ORDER + 1 := by
        by_contra hge
        rw [flist_of_none (List.getElem?_eq_none (by rw [hi.lists.len, NR_ORDERS]; omega))] at hd
        simp at hd
      omega
    subst hod
    rw [hdord] at hd2
    have hxal : (a * 2 ^ od) % 2 ^ od = 0 := Nat.mul_mod_left _ _
    have hle : a * 2 ^ od ≤ d.start := multiple_le hxal hdal hd2
    have : d = { start := a * 2 ^ od, order := od } := by
      cases d
      simp only at hdord hle hd1
      simp only [chunk.mk.injEq]
      omega
    rw [← this]
    exact hd

/-! ## The seed address in 32-bit arithmetic -/

/-- C20 (seed address arithmetic), the failing input. With `MAX_ORDER = 4` and
`nr_pages_in_order = 19`, the chunk number `a = 8192` is one of the `2^15` seeded
chunks. In exact integers line 500 gives `8192 * 2^4 = 0x20000`. In the 32-bit
`int` arithmetic of the code the product `8192 * 2^18 = 2^31` wraps to `-2^31`,
the quotient by `2^14` is `-2^17`, and the start stored in the `unsigned int` is
`0xfffe0000`. -/
theorem seed_add32_overflows :
    4 < 19 ∧ 19 ≤ 30 ∧ (1 : Int) ≤ 8192 ∧ (8192 : Int) < 2 ^ (19 - 4) ∧
      8192 * 2 ^ (19 - 1) / 2 ^ (19 - NR_ORDERS 4) = 8192 * 2 ^ 4 ∧
      wrap_int (8192 * wrap_int (2 ^ (19 - 1))) = -2 ^ 31 ∧
      seed_add32 4 19 8192 = 0xfffe0000 ∧
      seed_add32 4 19 8192 ≠ 8192 * 2 ^ 4 := by
  refine ⟨by decide, by decide, by decide, by decide, by decide, by decide, by decide,
    by decide⟩

/-! ## The calls of the trace example -/

/-- C16 (trace records), the failing input. With `MAX_ORDER = 4`, after
`init_buddy(4)`, `alloc_pages(2)` returns page 0 and leaves `8:3` and `4:2` in
their lists, and `free_pages(0, 2)` leaves `0:4` in the top list. The return
value, the page and the state are all that either call produces: the bodies of
`alloc_pages`, `Buddyornot` and `free_pages` hold no `PRINTF` and no other output
call, so no record of a split, a put, an allocation or a merge is written. -/
theorem trace_example_calls :
    init_buddy 4 (zeroed 4) 4 = some (0, pool16) ∧
      alloc_pages 4 pool16 2 = some { ret := 0, page := some 0, st := pool16_a2 } ∧
      flist pool16_a2 3 = [⟨8, 3⟩] ∧ flist pool16_a2 2 = [⟨4, 2⟩] ∧
      free_pages 4 pool16_a2 0 2 = some pool16 ∧ flist pool16 4 = [⟨0, 4⟩] :=
  ⟨by decide, by decide, rfl, rfl, by decide, rfl⟩

/-! ## Single calls in a reachable state -/

/-- A successful `alloc_pages(o)` step from a reachable state, when the lists of
the orders `o .. k - 1` are empty and list `k` is `c :: rest`. -/
theorem reach_alloc_step {MAX_ORDER nr : Nat} {s : buddy} {out : List chunk}
    (h : Reach MAX_ORDER nr s out) (o k : Nat) (c : chunk) (rest : List chunk)
    (hok : o ≤ k) (hk : k ≤ MAX_ORDER) (hempty : ∀ j, o ≤ j → j < k → flist s j = [])
    (hfl : flist s k = c :: rest) :
    ∃ s1, Reach MAX_ORDER nr s1 ({ start := c.start, order := o } :: out) ∧
      (∀ j, flist s1 j =
        if o ≤ j ∧ j < k then [{ start := c.start + 2 ^ j, order := j }]
        else if j = k then rest else flist s j) ∧
      s1.free + 2 ^ o = s.free := by
  have hi := reach_sound h
  have hcmem : c ∈ flist s k := by rw [hfl]; simp
  have hge : 2 ^ k ≤ s.free := by
    have h1 := le_total_of_mem chunk.pages s k c hcmem
    have h2 := hi.free_ge
    simp only [chunk.pages, hi.lists.ord k c hcmem] at h1
    omega
  have hpk : 2 ^ o ≤ 2 ^ k := Nat.pow_le_pow_right (by decide) hok
  have hpos : 0 < 2 ^ o := Nat.pos_pow_of_pos _ (by decide)
  have hok1 := alloc_pages_ok MAX_ORDER s o k c rest hi.lists hok hk hempty hfl
    (fun _ => by omega)
  obtain ⟨_, _, p3, p4, _⟩ := push_halves_props c.start o (k - o) (s.pop k)
    (by rw [length_pop, hi.lists.len, NR_ORDERS]; omega)
  refine ⟨_, Reach.alloc s out o c.start _ h hok1, ?_, ?_⟩
  · intro j
    change flist (push_halves c.start o (k - o) (s.pop k)) j = _
    rw [p4 j, flist_pop]
    by_cases h1 : o ≤ j ∧ j < k
    · rw [if_pos ⟨h1.1, by omega⟩, if_pos h1, if_neg (by omega), hempty j h1.1 h1.2]
      rfl
    · rw [if_neg (by omega), if_neg h1]
      split_ifs with h2
      · subst h2; rw [hfl]; rfl
      · rfl
  · simp only [alloc_done, p3, free_pop]
    omega

/-- Successive calls `alloc_pages(MAX_ORDER)` take the chunks off the head of the
top list one after the other. -/
theorem reach_alloc_top {MAX_ORDER nr : Nat} (pre : List chunk) :
    ∀ {s : buddy} {out : List chunk} (post : List chunk), Reach MAX_ORDER nr s out →
      flist s MAX_ORDER = pre ++ post →
      ∃ (s1 : buddy) (mid : List chunk), Reach MAX_ORDER nr s1 (mid ++ out) ∧
        flist s1 MAX_ORDER = post ∧ (∀ j, j ≠ MAX_ORDER → flist s1 j = flist s j) ∧
        s1.free + pre.length * 2 ^ MAX_ORDER = s.free := by
  induction pre with
  | nil =>
    intro s out post h hfl
    exact ⟨s, [], h, by simpa using hfl, fun _ _ => rfl, by simp⟩
  | cons c pre ih =>
    intro s out post h hfl
    obtain ⟨s1, h1, hl1, hf1⟩ := reach_alloc_step h MAX_ORDER MAX_ORDER c (pre ++ post)
      (le_refl _) (le_refl _) (fun j h1 h2 => by omega) (by simpa using hfl)
    have htop : flist s1 MAX_ORDER = pre ++ post := by
      rw [hl1 MAX_ORDER, if_neg (by omega), if_pos rfl]
    obtain ⟨s2, mid, h2, hl2, hl3, hf2⟩ := ih post h1 htop
    refine ⟨s2, mid ++ [{ start := c.start, order := MAX_ORDER }], ?_, hl2, ?_, ?_⟩
    · simpa using h2
    · intro j hj
      rw [hl3 j hj, hl1 j, if_neg (by omega), if_neg hj]
    · simp only [List.length_cons, Nat.succ_mul]
      omega

/-- A `free_pages` step from a reachable state. -/
theorem reach_free_step {MAX_ORDER nr : Nat} {s : buddy} {out : List chunk}
    (h : Reach MAX_ORDER nr s out) (p o : Nat) (hmem : { start := p, order := o } ∈ out) :
    Reach MAX_ORDER nr (free_pages_all MAX_ORDER s p o) (out.erase { start := p, order := o }) :=
  Reach.free s out p o _ h hmem (sound_free (reach_sound h) hmem).1

/-- `free_pages` of a chunk whose buddy is not in the list of its order: the
chunk goes to the tail of that list. -/
theorem free_pages_all_stop {MAX_ORDER : Nat} {s : buddy} (p o : Nat)
    (ho : o < s.chunks.length)
    (hb : o < MAX_ORDER → ¬ ∃ c ∈ flist s o, c.start = buddy_start p o) :
    (∀ j, flist (free_pages_all MAX_ORDER s p o) j =
      if j = o then flist s o ++ [{ start := p, order := o }] else flist s j) ∧
      (free_pages_all MAX_ORDER s p o).free = s.free + 2 ^ o := by
  have hm := merge_all_stop MAX_ORDER MAX_ORDER { start := p, order := o } s hb
  refine ⟨?_, rfl⟩
  intro j
  have hchunks : (free_pages_all MAX_ORDER s p o).chunks =
      (s.append { start := p, order := o }).chunks := by
    simp only [free_pages_all, hm]
  rw [flist_congr hchunks, flist_append s _ j ho]
  simp only
  split_ifs with hj
  · rw [hj]
  · rfl

/-- `free_pages` of a chunk of order `MAX_ORDER - 1` whose buddy is free: every
chunk at the buddy address leaves its list, and the merged chunk goes to the tail
of the top list. -/
theorem free_pages_all_merge_top {MAX_ORDER : Nat} {s : buddy} (p o : Nat)
    (hmax : o + 1 = MAX_ORDER) (hlen : s.chunks.length = MAX_ORDER + 1)
    (hb : ∃ c ∈ flist s o, c.start = buddy_start p o) :
    (∀ j, flist (free_pages_all MAX_ORDER s p o) j =
      if j = MAX_ORDER then
        flist s MAX_ORDER ++ [{ start := min p (buddy_start p o), order := MAX_ORDER }]
      else if j = o then (flist s o).filter fun c => decide (c.start ≠ buddy_start p o)
      else flist s j) ∧
      (free_pages_all MAX_ORDER s p o).free = s.free + 2 ^ o := by
  have hm : merge_all MAX_ORDER MAX_ORDER { start := p, order := o } s =
      ({ start := min p (buddy_start p o), order := MAX_ORDER },
        s.removeAll o (buddy_start p o)) := by
    subst hmax
    rw [merge_all, if_pos ⟨by simp, hb⟩]
    exact merge_all_stop _ _ _ _ (fun hlt => absurd hlt (by simp))
  refine ⟨?_, rfl⟩
  intro j
  have hchunks : (free_pages_all MAX_ORDER s p o).chunks =
      ((s.removeAll o (buddy_start p o)).append
        { start := min p (buddy_start p o), order := MAX_ORDER }).chunks := by
    simp only [free_pages_all, hm]
  rw [flist_congr hchunks, flist_append _ _ j (by simp only [length_removeAll]; omega)]
  simp only
  by_cases hj : j = MAX_ORDER
  · subst hj
    rw [if_pos rfl, if_pos rfl, flist_removeAll, if_neg (by omega)]
  · rw [if_neg hj, if_neg hj, flist_removeAll]

/-! ## The pool of `init_buddy(19)` with `MAX_ORDER = 4`, whose seeds overflow -/

theorem init_pool19 : init_buddy 4 (zeroed 4) 19 = some (0, pool19) := by
  obtain ⟨s, h0, h1, h2, h3, h4⟩ := init_buddy_spec32 4 19 (zeroed 4) (by decide)
  have hc : seed_count 4 19 = 32768 := by
    rw [seed_count_exact 4 19 (by decide)]
    norm_num
  have hs : s = pool19 := by
    apply buddy_ext
    · intro j
      by_cases hj : j ≤ 4
      · rw [h4 j hj, hc]
        interval_cases j <;>
          simp only [pool19, List.getElem?_cons_succ, List.getElem?_cons_zero] <;> simp
      · have hl : s.chunks.length ≤ j := by omega
        have hl2 : pool19.chunks.length ≤ j := by
          simp only [pool19, List.length_cons, List.length_nil]; omega
        rw [List.getElem?_eq_none hl, List.getElem?_eq_none hl2]
    · rw [h1]; simp only [pool19]
    · rw [h2, free_init 19 (by decide)]
      simp only [pool19]
      norm_num
  rw [h0, hs]

theorem reach_pool19 : Reach 4 19 pool19 [] :=
  Reach.init (zeroed 4) pool19 (by decide) init_pool19

theorem flist_pool19_top :
    flist pool19 4 = (List.range 32768).map fun a : Nat =>
      ({ start := seed_add32 4 19 (a : Int), order := 4 } : chunk) := by
  simp only [flist, pool19, List.getElem?_cons_succ, List.getElem?_cons_zero]

theorem flist_pool19_low (j : Nat) (hj : j ≠ 4) : flist pool19 j = [] := by
  by_cases h : j < 4
  · interval_cases j <;> simp only [flist, pool19, List.getElem?_cons_succ, List.getElem?_cons_zero]
  · exact flist_of_none (List.getElem?_eq_none (by simp only [pool19, List.length_cons, List.length_nil]; omega))

theorem getElem_pool19 (a : Nat) (ha : a < 32768) :
    (flist pool19 4)[a]? = some { start := seed_add32 4 19 (a : Int), order := 4 } := by
  rw [flist_pool19_top, List.getElem?_map, List.getElem?_range ha]
  rfl

theorem mem_pool19 (a : Nat) (ha : a < 32768) :
    ({ start := seed_add32 4 19 (a : Int), order := 4 } : chunk) ∈ flist pool19 4 := by
  rw [flist_pool19_top]
  exact List.mem_map.2 ⟨a, List.mem_range.2 ha, rfl⟩

/-- C10 (initial seeding), the failing input. With `MAX_ORDER = 4`,
`init_buddy(19)` returns 0 and seeds the top list with `2^15` chunks, but the
chunk number 8192 does not start at `8192 * 2^4 = 0x20000`: the product
`8192 * 2^18` of line 500 overflows the `int`, and the chunk is put at
`0xfffe0000`. -/
theorem initial_seeding_overflows :
    init_buddy 4 (zeroed 4) 19 = some (0, pool19) ∧ (flist pool19 4).length = 2 ^ (19 - 4) ∧
      (flist pool19 4)[8192]? = some ⟨0xfffe0000, 4⟩ ∧
      (List.range (2 ^ (19 - 4))).map (fun a => ({ start := a * 2 ^ 4, order := 4 } : chunk)) ≠
        flist pool19 4 := by
  have h1 : (flist pool19 4)[8192]? = some ⟨0xfffe0000, 4⟩ := by
    rw [getElem_pool19 8192 (by decide)]
    have he : seed_add32 4 19 ((8192 : Nat) : Int) = 0xfffe0000 := by decide
    rw [he]
  refine ⟨init_pool19, by rw [flist_pool19_top]; simp, h1, ?_⟩
  intro he
  rw [← he, List.getElem?_map, List.getElem?_range (by decide)] at h1
  simp at h1

/-- C9 (disjointness), the failing input. With `MAX_ORDER = 4`, right after
`init_buddy(19)` nothing is allocated, and the free chunk number 8192 starts at
`0xfffe0000`, outside the pool `[0, 2^19)`; the chunks number 0 and number 16384
are both `0:4`, so the free chunks are not pairwise disjoint. -/
theorem disjointness_broken :
    Reach 4 19 pool19 [] ∧
      ({ start := 0xfffe0000, order := 4 } : chunk) ∈ free_chunks pool19 ∧
      ¬ (0xfffe0000 + 2 ^ 4 ≤ 2 ^ 19) ∧
      (flist pool19 4)[0]? = some ⟨0, 4⟩ ∧ (flist pool19 4)[16384]? = some ⟨0, 4⟩ ∧
      ¬ (free_chunks pool19).Pairwise chunk.Disjoint := by
  have h0 : (flist pool19 4)[0]? = some ⟨0, 4⟩ := by
    rw [getElem_pool19 0 (by decide)]
    have he : seed_add32 4 19 ((0 : Nat) : Int) = 0 := by decide
    rw [he]
  have h1 : (flist pool19 4)[16384]? = some ⟨0, 4⟩ := by
    rw [getElem_pool19 16384 (by decide)]
    have he : seed_add32 4 19 ((16384 : Nat) : Int) = 0 := by decide
    rw [he]
  have hm : ({ start := 0xfffe0000, order := 4 } : chunk) ∈ flist pool19 4 := by
    have := mem_pool19 8192 (by decide)
    have he : seed_add32 4 19 ((8192 : Nat) : Int) = 0xfffe0000 := by decide
    rw [he] at this
    exact this
  refine ⟨reach_pool19, mem_free_chunks.2 ⟨4, hm⟩, by decide, h0, h1, ?_⟩
  intro hp
  have hp4 := hp.sublist (flist_sublist pool19 4)
  rw [List.pairwise_iff_getElem] at hp4
  have hlen : (flist pool19 4).length = 32768 := by rw [flist_pool19_top]; simp
  have := hp4 0 16384 (by rw [hlen]; decide) (by rw [hlen]; decide) (by decide)
  rw [List.getElem_eq_iff.2 h0, List.getElem_eq_iff.2 h1] at this
  revert this
  decide

/-- C18 (full coalescing), the failing input. With `MAX_ORDER = 4`, right after
`init_buddy(19)` no allocation is outstanding (`allocated = 0`), and the top list
holds the chunk `0xfffe0000:4`; so it is not a rearrangement of the chunks at
`0`, `2^4`, `2 * 2^4`, ... below `2^19`. -/
theorem full_coalescing_broken :
    Reach 4 19 pool19 [] ∧ pool19.allocated = 0 ∧
      ({ start := 0xfffe0000, order := 4 } : chunk) ∈ flist pool19 4 ∧
      ¬ (flist pool19 4).Perm ((List.range (2 ^ (19 - 4))).map
        (fun a => { start := a * 2 ^ 4, order := 4 })) := by
  have hm : ({ start := 0xfffe0000, order := 4 } : chunk) ∈ flist pool19 4 := by
    have := mem_pool19 8192 (by decide)
    have he : seed_add32 4 19 ((8192 : Nat) : Int) = 0xfffe0000 := by decide
    rw [he] at this
    exact this
  refine ⟨reach_pool19, rfl, hm, ?_⟩
  intro hperm
  have := (hperm.mem_iff).1 hm
  rcases List.mem_map.1 this with ⟨a, ha, he⟩
  have ha := List.mem_range.1 ha
  simp only [chunk.mk.injEq, and_true] at he
  norm_num at ha he
  omega

theorem pool19_top_split :
    ∃ pre post : List chunk, pre.length = 16383 ∧ post.length = 16383 ∧
      flist pool19 4 = ⟨0, 4⟩ :: (pre ++ ⟨0, 4⟩ :: post) := by
  refine ⟨(List.range' 1 16383).map fun a : Nat => ⟨seed_add32 4 19 (a : Int), 4⟩,
    (List.range' 16385 16383).map fun a : Nat => ⟨seed_add32 4 19 (a : Int), 4⟩,
    by rw [List.length_map, List.length_range'], by rw [List.length_map, List.length_range'], ?_⟩
  have a1 : List.range' 0 32768 = 0 :: List.range' 1 32767 := List.range'_succ 0 32767 1
  have a2 : List.range' 1 16383 ++ List.range' 16384 16384 = List.range' 1 32767 :=
    List.range'_append_1 1 16383 16384
  have a3 : List.range' 16384 16384 = 16384 :: List.range' 16385 16383 :=
    List.range'_succ 16384 16383 1
  have e0 : seed_add32 4 19 ((0 : Nat) : Int) = 0 := by decide
  have e1 : seed_add32 4 19 ((16384 : Nat) : Int) = 0 := by decide
  rw [flist_pool19_top, List.range_eq_range', a1, ← a2, a3]
  simp only [List.map_cons, List.map_append, e0, e1]

/-- C1 (conservation), the failing input. With `MAX_ORDER = 4`, after
`init_buddy(19)` the chunks number 0 and number 16384 of the top list are both
`0:4`, because the product of line 500 overflows. The calls `alloc_pages(3)`
twice (pages 0 and 8), `alloc_pages(4)` 16383 times, `alloc_pages(3)` twice
again (pages 0 and 8 once more), `free_pages(8, 3)` twice and `free_pages(0, 3)`
reach a state with `free = 262152` in which the free lists hold 16384 chunks of
order 4 and nothing else, that is 262144 pages: the last call took both chunks
`8:3` off the order-3 list and put the one chunk `0:4` into the top list. -/
theorem conservation_broken :
    ∃ (s : buddy) (out : List chunk), Reach 4 19 s out ∧ s.allocated + s.free = 2 ^ 19 ∧
      s.free = 262152 ∧
      (∀ o, o < 4 → flist s o = []) ∧ (flist s 4).length = 16384 ∧
      ∑ o ∈ Finset.range (4 + 1), (flist s o).length * 2 ^ o = 262144 ∧
      s.free ≠ ∑ o ∈ Finset.range (4 + 1), (flist s o).length * 2 ^ o := by
  obtain ⟨pre, post, hpre, hpost, htop⟩ := pool19_top_split
  -- `alloc_pages(3)`: the chunk `0:4` is split, page 0 is returned
  obtain ⟨s1, r1, l1, f1⟩ := reach_alloc_step reach_pool19 3 4 ⟨0, 4⟩ (pre ++ ⟨0, 4⟩ :: post)
    (by decide) (by decide) (fun j h1 h2 => flist_pool19_low j (by omega)) htop
  have l1_3 : flist s1 3 = [⟨8, 3⟩] := by rw [l1 3]; rfl
  have l1_4 : flist s1 4 = pre ++ ⟨0, 4⟩ :: post := by rw [l1 4]; rfl
  have l1_low : ∀ j, j < 3 → flist s1 j = [] := fun j hj => by
    rw [l1 j, if_neg (by omega), if_neg (by omega)]; exact flist_pool19_low j (by omega)
  -- `alloc_pages(3)`: page 8 is returned
  obtain ⟨s2, r2, l2, f2⟩ := reach_alloc_step r1 3 3 ⟨8, 3⟩ [] (le_refl _) (by decide)
    (fun j h1 h2 => by omega) l1_3
  have l2_3 : flist s2 3 = [] := by rw [l2 3]; rfl
  have l2_4 : flist s2 4 = pre ++ ⟨0, 4⟩ :: post := by
    rw [l2 4, if_neg (by omega), if_neg (by omega), l1_4]
  have l2_low : ∀ j, j < 3 → flist s2 j = [] := fun j hj => by
    rw [l2 j, if_neg (by omega), if_neg (by omega)]; exact l1_low j hj
  -- `alloc_pages(4)`, 16383 times
  obtain ⟨s3, mid, r3, l3_4, l3o, f3⟩ := reach_alloc_top pre (⟨0, 4⟩ :: post) r2 l2_4
  have l3_3 : flist s3 3 = [] := by rw [l3o 3 (by decide)]; exact l2_3
  have l3_low : ∀ j, j < 3 → flist s3 j = [] := fun j hj => by
    rw [l3o j (by omega)]; exact l2_low j hj
  -- `alloc_pages(3)`: the second chunk `0:4` is split, page 0 is returned again
  obtain ⟨s4, r4, l4, f4⟩ := reach_alloc_step r3 3 4 ⟨0, 4⟩ post (by decide) (by decide)
    (fun j h1 h2 => by
      have : j = 3 := by omega
      rw [this]; exact l3_3) l3_4
  have l4_3 : flist s4 3 = [⟨8, 3⟩] := by rw [l4 3]; rfl
  have l4_4 : flist s4 4 = post := by rw [l4 4]; rfl
  have l4_low : ∀ j, j < 3 → flist s4 j = [] := fun j hj => by
    rw [l4 j, if_neg (by omega), if_neg (by omega)]; exact l3_low j hj
  -- `alloc_pages(3)`: page 8 is returned again
  obtain ⟨s5, r5, l5, f5⟩ := reach_alloc_step r4 3 3 ⟨8, 3⟩ [] (le_refl _) (by decide)
    (fun j h1 h2 => by omega) l4_3
  have l5_3 : flist s5 3 = [] := by rw [l5 3]; rfl
  have l5_4 : flist s5 4 = post := by
    rw [l5 4, if_neg (by omega), if_neg (by omega), l4_4]
  have l5_low : ∀ j, j < 3 → flist s5 j = [] := fun j hj => by
    rw [l5 j, if_neg (by omega), if_neg (by omega)]; exact l4_low j hj
  have r5' : Reach 4 19 s5
      (⟨8, 3⟩ :: ⟨0, 3⟩ :: (mid ++ [(⟨8, 3⟩ : chunk), ⟨0, 3⟩])) := r5
  have len5 : s5.chunks.length = 5 := (reach_sound r5').lists.len
  -- `free_pages(8, 3)`: no chunk at 0 in the empty order-3 list
  have r6 : Reach 4 19 (free_pages_all 4 s5 8 3)
      (⟨0, 3⟩ :: (mid ++ [(⟨8, 3⟩ : chunk), ⟨0, 3⟩])) := by
    have := reach_free_step r5' 8 3 (List.mem_cons_self _ _)
    rwa [List.erase_cons_head] at this
  obtain ⟨l6, f6⟩ := @free_pages_all_stop 4 s5 8 3 (by omega)
    (fun _ => by rw [l5_3]; simp)
  have len6 : (free_pages_all 4 s5 8 3).chunks.length = 5 := (reach_sound r6).lists.len
  have l6_3 : flist (free_pages_all 4 s5 8 3) 3 = [⟨8, 3⟩] := by
    rw [l6 3, if_pos rfl, l5_3]; rfl
  -- `free_pages(8, 3)` again: the order-3 list becomes `[8:3, 8:3]`
  have r7 : Reach 4 19 (free_pages_all 4 (free_pages_all 4 s5 8 3) 8 3)
      (⟨0, 3⟩ :: (mid ++ [(⟨8, 3⟩ : chunk), ⟨0, 3⟩]).erase ⟨8, 3⟩) := by
    have := reach_free_step r6 8 3
      (List.mem_cons_of_mem _ (List.mem_append_right _ (List.mem_cons_self _ _)))
    rwa [List.erase_cons_tail (by decide)] at this
  obtain ⟨l7, f7⟩ := @free_pages_all_stop 4 (free_pages_all 4 s5 8 3) 8 3
    (by omega) (fun _ => by rw [l6_3]; decide)
  have len7 : (free_pages_all 4 (free_pages_all 4 s5 8 3) 8 3).chunks.length = 5 :=
    (reach_sound r7).lists.len
  have l7_3 : flist (free_pages_all 4 (free_pages_all 4 s5 8 3) 8 3) 3 =
      [⟨8, 3⟩, ⟨8, 3⟩] := by
    rw [l7 3, if_pos rfl, l6_3]; rfl
  -- `free_pages(0, 3)`: both chunks `8:3` leave the list, `0:4` goes to the top list
  have r8 := reach_free_step r7 0 3 (List.mem_cons_self _ _)
  obtain ⟨l8, f8⟩ := @free_pages_all_merge_top 4
    (free_pages_all 4 (free_pages_all 4 s5 8 3) 8 3) 0 3 rfl len7
    (by rw [l7_3]; decide)
  have hs := (reach_sound r8).sum_eq
  have e4 : (flist (free_pages_all 4 (free_pages_all 4 (free_pages_all 4 s5 8 3) 8 3) 0 3)
      4).length = 16384 := by
    rw [l8 4, if_pos rfl, l7 4, if_neg (by decide), l6 4, if_neg (by decide), l5_4,
      List.length_append, hpost]
    rfl
  have e3 : flist (free_pages_all 4 (free_pages_all 4 (free_pages_all 4 s5 8 3) 8 3) 0 3) 3 =
      [] := by
    rw [l8 3, if_neg (by decide), if_pos rfl, l7_3]
    decide
  have elow : ∀ j, j < 3 →
      flist (free_pages_all 4 (free_pages_all 4 (free_pages_all 4 s5 8 3) 8 3) 0 3) j = [] := by
    intro j hj
    rw [l8 j, if_neg (by omega), if_neg (by omega), l7 j, if_neg (by omega), l6 j,
      if_neg (by omega)]
    exact l5_low j hj
  have hfree : (free_pages_all 4 (free_pages_all 4 (free_pages_all 4 s5 8 3) 8 3) 0 3).free =
      262152 := by
    have hp : pool19.free = 524288 := rfl
    rw [hpre] at f3
    norm_num at f1 f2 f3 f4 f5 f6 f7 f8
    omega
  have hsum : ∑ o ∈ Finset.range (4 + 1),
      (flist (free_pages_all 4 (free_pages_all 4 (free_pages_all 4 s5 8 3) 8 3) 0 3) o).length *
        2 ^ o = 262144 := by
    simp only [Finset.sum_range_succ, Finset.range_zero, Finset.sum_empty, e4, e3,
      elow 0 (by decide), elow 1 (by decide), elow 2 (by decide), List.length_nil]
    norm_num
  refine ⟨_, _, r8, hs, hfree, ?_, e4, hsum, by rw [hfree, hsum]; decide⟩
  intro o ho
  rcases Nat.lt_or_ge o 3 with h | h
  · exact elow o h
  · have : o = 3 := by omega
    rw [this]; exact e3

end BuddyAlloc
